import Mathlib

/-!
# A shallow embedding of `simpaig.c` and `poormanbigtocnf.c`

Pointers are natural numbers (machine addresses), `0` is the null pointer.
The memory holding `simpaig` objects is a map from addresses to structs; an
access to an address that holds no object (null, misaligned, never allocated)
is a memory fault.  The two caller supplied callbacks are modelled as follows:

* `mgr->malloc`: the address it returns is an extra argument of the function
  that calls it (`fresh`);
* `mgr->free`: every call is recorded in the log `freed`; the contents of the
  released storage are left as they are.

`unsigned` values are natural numbers reduced modulo `2 ^ 32` wherever the C
code computes with them.  `assert` is compiled in unless `NDEBUG` is set; the
flag is an explicit argument.  Loops and recursion over the pointer structure
take a step budget (`fuel`).

The second program, `examples/poormanbigtocnf.c`, is embedded in the namespace `Bigtocnf`:
the file is the list of its bytes after the two `fscanf` calls, whose results are given, and
the standard output is the `p cnf` line and the list of the clauses printed.  A call of `die`,
a failed `assert` and a shift without defined result end the run with an error value.
-/

namespace Simpaig

/-! ## The program -/

/-- Ways in which a run does not return normally. -/
inductive Err where
  /-- an `assert` failed -/
  | assertion
  /-- an access to an address that holds no object, or outside an array -/
  | memory
  /-- the step budget ran out before the run returned -/
  | fuel
deriving DecidableEq, Repr

/-- The modulus of `unsigned` arithmetic. -/
def UINT : Nat := 2 ^ 32

/-- The `struct simpaig` of the source. -/
structure simpaig where
  var : Nat
  slice : Nat
  c0 : Nat
  c1 : Nat
  idx : Int
  ref : Nat
  next : Nat
  cache : Nat
  rhs : Nat
deriving DecidableEq, Repr

/-- A call to the deallocation callback `mgr->free (mgr->mem, ptr, bytes)`. -/
inductive FreeCall where
  /-- `DELETE (p)` of a `simpaig` at address `p` -/
  | node (p : Nat)
  /-- `DELETEN (table, n)`: the bucket array with contents `a`, released as `n` elements -/
  | table (a : List Nat) (n : Nat)
  /-- `DELETEN (mgr->cached, n)` -/
  | cached (n : Nat)
  /-- `DELETEN (mgr->assigned, n)` -/
  | assigned (n : Nat)
  /-- release of the manager itself -/
  | mgr
deriving DecidableEq, Repr

/-- The `struct simpaigmgr` of the source together with the memory it works on.
`false_aig` is the address `&mgr->false_aig` of the embedded false node, whose
struct is `heap false_aig`; `table` is the bucket array (its length is the
number of elements it was allocated with). -/
structure simpaigmgr where
  false_aig : Nat
  table : List Nat
  count_table : Nat
  size_table : Nat
  count_cached : Nat
  count_assigned : Nat
  heap : Nat → Option simpaig
  freed : List FreeCall

/-- A zero filled `simpaig`, the result of `memset (p, 0, bytes)`. -/
def simpaig.zero : simpaig :=
  { var := 0, slice := 0, c0 := 0, c1 := 0, idx := 0, ref := 0, next := 0, cache := 0, rhs := 0 }

/-- The manager right after `simpaig_init_mem`, with zero filled storage and
the embedded false node at address `fa`. -/
def simpaig_init_mem (fa : Nat) : simpaigmgr :=
  { false_aig := fa, table := [], count_table := 0, size_table := 0,
    count_cached := 0, count_assigned := 0,
    heap := fun p => if p = fa then some simpaig.zero else none,
    freed := [] }

/-- Macro `NOT(p)`: `1 ^ p`. -/
def NOT (p : Nat) : Nat := 1 ^^^ p

/-- Macro `STRIP(p)`: `(~1) & p`, the address with bit 0 cleared. -/
def STRIP (p : Nat) : Nat := p - p % 2

/-- Macro `SIGN(p)`: `1 & p`. -/
def SIGN (p : Nat) : Nat := 1 &&& p

/-- Read of the struct at address `p` (`p->field`). -/
def load (m : simpaigmgr) (p : Nat) : Except Err simpaig :=
  match m.heap p with
  | some n => .ok n
  | none => .error .memory

/-- Write of the struct at address `p`. -/
def store (m : simpaigmgr) (p : Nat) (n : simpaig) : simpaigmgr :=
  { m with heap := Function.update m.heap p (some n) }

/-- Macro `ISFALSE(p)`: `!SIGN (p) && !p->var && !p->c0`. -/
def ISFALSE (m : simpaigmgr) (p : Nat) : Except Err Bool :=
  if SIGN p ≠ 0 then .ok false
  else do
    let n ← load m p
    pure (n.var == 0 && n.c0 == 0)

/-- Macro `ISTRUE(p)`: `SIGN (p) && ISFALSE (NOT (p))`. -/
def ISTRUE (m : simpaigmgr) (p : Nat) : Except Err Bool :=
  if SIGN p ≠ 0 then ISFALSE m (NOT p) else .ok false

/-- Macro `ISVAR(p)`: `!SIGN (p) && p->var != 0`. -/
def ISVAR (m : simpaigmgr) (p : Nat) : Except Err Bool :=
  if SIGN p ≠ 0 then .ok false
  else do
    let n ← load m p
    pure (n.var != 0)

/-- Function `simpaig_valid`.  Its first action is `IMPORT (aig)`, which with
assertions compiled in evaluates `simpaig_valid (aig)` again. -/
def simpaig_valid (NDEBUG : Bool) : Nat → simpaigmgr → Nat → Except Err Bool
  | 0, _, _ => .error .fuel
  | fuel + 1, m, aig => do
    if !NDEBUG then
      let b ← simpaig_valid NDEBUG fuel m aig
      if !b then throw Err.assertion
    let tmp := STRIP aig
    if tmp = 0 then pure false
    else do
      let n ← load m tmp
      pure (decide (n.ref > 0))

/-- Macro `IMPORT(p)`: `(assert (simpaig_valid (p)), p)`. -/
def IMPORT (NDEBUG : Bool) (fuel : Nat) (m : simpaigmgr) (p : Nat) : Except Err Nat :=
  if NDEBUG then .ok p
  else do
    let b ← simpaig_valid NDEBUG fuel m p
    if !b then throw Err.assertion
    pure p

/-- Function `inc`. -/
def inc (NDEBUG : Bool) (m : simpaigmgr) (res : Nat) : Except Err (simpaigmgr × Nat) := do
  let tmp := STRIP res
  let n ← load m tmp
  let r := (n.ref + 1) % UINT
  let m1 := store m tmp { n with ref := r }
  if !NDEBUG && r == 0 then throw Err.assertion
  pure (m1, res)

/-- Function `dec`.  `DELETE (aig)` is recorded in the log. -/
def dec (NDEBUG : Bool) : Nat → simpaigmgr → Nat → Except Err simpaigmgr
  | 0, _, _ => .error .fuel
  | fuel + 1, m, aig => do
    if !NDEBUG && aig == 0 then throw Err.assertion
    let n ← load m aig
    if !NDEBUG && n.ref == 0 then throw Err.assertion
    let r := (n.ref + UINT - 1) % UINT
    let m1 := store m aig { n with ref := r }
    if r ≠ 0 then pure m1
    else do
      let n1 ← load m1 aig
      let m3 ←
        if n1.c0 ≠ 0 then do
          let m2 ← dec NDEBUG fuel m1 n1.c0
          let n2 ← load m2 aig
          dec NDEBUG fuel m2 n2.c1
        else pure m1
      pure { m3 with freed := m3.freed ++ [FreeCall.node aig] }

/-- Function `simpaig_false`. -/
def simpaig_false (NDEBUG : Bool) (m : simpaigmgr) : Except Err (simpaigmgr × Nat) :=
  inc NDEBUG m m.false_aig

/-- Function `simpaig_inc`. -/
def simpaig_inc (NDEBUG : Bool) (fuel : Nat) (m : simpaigmgr) (res : Nat) :
    Except Err (simpaigmgr × Nat) := do
  let r ← IMPORT NDEBUG fuel m res
  inc NDEBUG m r

/-- Function `simpaig_dec`. -/
def simpaig_dec (NDEBUG : Bool) (fuel : Nat) (m : simpaigmgr) (res : Nat) :
    Except Err simpaigmgr := do
  let r ← IMPORT NDEBUG fuel m res
  dec NDEBUG fuel m r

/-- Function `simpaig_hash_ptr`: the cast `(unsigned) ptr`. -/
def simpaig_hash_ptr (ptr : Nat) : Nat := ptr % UINT

/-- Function `simpaig_hash`. -/
def simpaig_hash (m : simpaigmgr) (var slice c0 c1 : Nat) : Nat :=
  let res := (1223683247 * simpaig_hash_ptr var) % UINT
  let res := (res + 2221648459 * slice) % UINT
  let res := (res + 432586151 * simpaig_hash_ptr c0) % UINT
  let res := (res + 3333529009 * simpaig_hash_ptr c1) % UINT
  res &&& ((m.size_table + UINT - 1) % UINT)

/-- The location a `simpaig **` points to: a bucket of the table or the
`next` field of a node. -/
inductive Slot where
  | bucket (h : Nat)
  | next (n : Nat)
deriving DecidableEq, Repr

/-- Read through a `simpaig **`. -/
def readSlot (m : simpaigmgr) : Slot → Except Err Nat
  | .bucket h =>
    match m.table[h]? with
    | some p => .ok p
    | none => .error .memory
  | .next n => do
    let nd ← load m n
    pure nd.next

/-- Write through a `simpaig **`. -/
def writeSlot (m : simpaigmgr) (s : Slot) (v : Nat) : Except Err simpaigmgr :=
  match s with
  | .bucket h =>
    if h < m.table.length then .ok { m with table := m.table.set h v }
    else .error .memory
  | .next n => do
    let nd ← load m n
    pure (store m n { nd with next := v })

/-- The loop of `simpaig_find`, started at the slot `res`. -/
def simpaig_find_loop (m : simpaigmgr) (var slice c0 c1 : Nat) : Nat → Slot → Except Err Slot
  | 0, _ => .error .fuel
  | fuel + 1, res => do
    let n ← readSlot m res
    if n = 0 then pure res
    else do
      let nd ← load m n
      if nd.var ≠ var ∨ nd.slice ≠ slice ∨ nd.c0 ≠ c0 ∨ nd.c1 ≠ c1 then
        simpaig_find_loop m var slice c0 c1 fuel (.next n)
      else pure res

/-- Function `simpaig_find`. -/
def simpaig_find (fuel : Nat) (m : simpaigmgr) (var slice c0 c1 : Nat) : Except Err Slot :=
  simpaig_find_loop m var slice c0 c1 fuel (.bucket (simpaig_hash m var slice c0 c1))

/-- The inner loop of `simpaig_enlarge`: the chain starting at `p` is moved,
node by node, to the front of the buckets of the new table. -/
def simpaig_enlarge_chain : Nat → simpaigmgr → Nat → Except Err simpaigmgr
  | 0, _, _ => .error .fuel
  | fuel + 1, m, p =>
    if p = 0 then .ok m
    else do
      let nd ← load m p
      let next := nd.next
      let h := simpaig_hash m nd.var nd.slice nd.c0 nd.c1
      let head ← readSlot m (.bucket h)
      let m1 := store m p { nd with next := head }
      let m2 ← writeSlot m1 (.bucket h) p
      simpaig_enlarge_chain fuel m2 next

/-- The outer loop of `simpaig_enlarge` over the indices `is` of the old table. -/
def simpaig_enlarge_loop (fuel : Nat) (old_table : List Nat) :
    List Nat → simpaigmgr → Except Err simpaigmgr
  | [], m => .ok m
  | i :: is, m =>
    match old_table[i]? with
    | none => .error .memory
    | some p => do
      let m1 ← simpaig_enlarge_chain fuel m p
      simpaig_enlarge_loop fuel old_table is m1

/-- Function `simpaig_enlarge`. -/
def simpaig_enlarge (fuel : Nat) (m : simpaigmgr) : Except Err simpaigmgr := do
  let old_table := m.table
  let old_size_table := m.size_table
  let new_size := if old_size_table ≠ 0 then (2 * old_size_table) % UINT else 1
  let m1 := { m with size_table := new_size, table := List.replicate new_size 0 }
  let m2 ← simpaig_enlarge_loop fuel old_table (List.range old_size_table) m1
  pure { m2 with freed := m2.freed ++ [FreeCall.table old_table old_size_table] }

/-- The allocation `NEW (res)` at the address `fresh` followed by the
initialisation of the key, the bump of `count_table` and `*p = res`. -/
def insert_new (m : simpaigmgr) (p : Slot) (fresh var slice c0 c1 : Nat) :
    Except Err simpaigmgr := do
  let m1 := store m fresh simpaig.zero
  let m2 := store m1 fresh { simpaig.zero with var := var, slice := slice, c0 := c0, c1 := c1 }
  let m3 := { m2 with count_table := (m2.count_table + 1) % UINT }
  writeSlot m3 p fresh

/-- Function `simpaig_var`; `fresh` is the address `mgr->malloc` returns if
`NEW (res)` is reached. -/
def simpaig_var (NDEBUG : Bool) (fuel : Nat) (m : simpaigmgr) (var slice : Nat) (fresh : Nat) :
    Except Err (simpaigmgr × Nat) := do
  if !NDEBUG && var == 0 then throw Err.assertion
  let m1 ← if m.size_table = m.count_table then simpaig_enlarge fuel m else pure m
  let p ← simpaig_find fuel m1 var slice 0 0
  let res ← readSlot m1 p
  if res = 0 then do
    let m2 ← insert_new m1 p fresh var slice 0 0
    inc NDEBUG m2 fresh
  else inc NDEBUG m1 res

/-- Function `simpaig_and`; `fresh` is the address `mgr->malloc` returns if
`NEW (res)` is reached. -/
def simpaig_and (NDEBUG : Bool) (fuel : Nat) (m : simpaigmgr) (c0 c1 : Nat) (fresh : Nat) :
    Except Err (simpaigmgr × Nat) := do
  let f0 ← ISFALSE m c0
  let f1 ← if f0 then pure true else ISFALSE m c1
  if f1 || c0 == NOT c1 then simpaig_false NDEBUG m
  else do
    let t0 ← ISTRUE m c0
    if t0 || c0 == c1 then inc NDEBUG m c1
    else do
      let t1 ← ISTRUE m c1
      if t1 then inc NDEBUG m c0
      else do
        let m1 ← if m.size_table = m.count_table then simpaig_enlarge fuel m else pure m
        let p ← simpaig_find fuel m1 0 0 c1 c0
        let res ← readSlot m1 p
        if res ≠ 0 then inc NDEBUG m1 res
        else do
          let p ← simpaig_find fuel m1 0 0 c0 c1
          let res ← readSlot m1 p
          if res ≠ 0 then inc NDEBUG m1 res
          else do
            let m2 ← insert_new m1 p fresh 0 0 c0 c1
            inc NDEBUG m2 fresh

/-- The inner loop of `simpaig_reset`: every node of the chain starting at `p`
is released. -/
def simpaig_reset_chain : Nat → simpaigmgr → Nat → Except Err simpaigmgr
  | 0, _, _ => .error .fuel
  | fuel + 1, m, p =>
    if p = 0 then .ok m
    else do
      let nd ← load m p
      let next := nd.next
      simpaig_reset_chain fuel { m with freed := m.freed ++ [FreeCall.node p] } next

/-- The outer loop of `simpaig_reset` over the bucket indices `is`. -/
def simpaig_reset_loop (fuel : Nat) : List Nat → simpaigmgr → Except Err simpaigmgr
  | [], m => .ok m
  | i :: is, m => do
    let p ← readSlot m (.bucket i)
    let m1 ← simpaig_reset_chain fuel m p
    simpaig_reset_loop fuel is m1

/-- Function `simpaig_reset`; the result is the final state, whose log holds
every release issued. -/
def simpaig_reset (fuel : Nat) (m : simpaigmgr) : Except Err simpaigmgr := do
  let m1 ← simpaig_reset_loop fuel (List.range m.count_table) m
  pure { m1 with freed := m1.freed ++
    [FreeCall.table m1.table m1.count_table, FreeCall.cached m1.count_cached,
     FreeCall.assigned m1.count_assigned, FreeCall.mgr] }

/-- Function `simpaig_isfalse`. -/
def simpaig_isfalse (NDEBUG : Bool) (fuel : Nat) (m : simpaigmgr) (aig : Nat) :
    Except Err Bool := do
  let p ← IMPORT NDEBUG fuel m aig
  ISFALSE m p

/-- Function `simpaig_istrue`. -/
def simpaig_istrue (NDEBUG : Bool) (fuel : Nat) (m : simpaigmgr) (aig : Nat) :
    Except Err Bool := do
  let p ← IMPORT NDEBUG fuel m aig
  ISFALSE m (NOT p)

/-- Function `simpaig_signed`. -/
def simpaig_signed (NDEBUG : Bool) (fuel : Nat) (m : simpaigmgr) (aig : Nat) :
    Except Err Nat := do
  let p ← IMPORT NDEBUG fuel m aig
  pure (SIGN p)

/-- Function `simpaig_isvar`: the `var` field if `ISVAR (tmp)`, else the null pointer. -/
def simpaig_isvar (NDEBUG : Bool) (fuel : Nat) (m : simpaigmgr) (aig : Nat) :
    Except Err Nat := do
  let tmp ← IMPORT NDEBUG fuel m aig
  let b ← ISVAR m tmp
  if b then do
    let n ← load m tmp
    pure n.var
  else pure 0

/-- Function `simpaig_isand`: `!tmp->var && tmp->c0` on the stripped pointer. -/
def simpaig_isand (NDEBUG : Bool) (fuel : Nat) (m : simpaigmgr) (aig : Nat) :
    Except Err Bool := do
  let p ← IMPORT NDEBUG fuel m aig
  let tmp := STRIP p
  let n ← load m tmp
  pure (n.var == 0 && n.c0 != 0)

/-- Function `simpaig_strip`. -/
def simpaig_strip (NDEBUG : Bool) (fuel : Nat) (m : simpaigmgr) (aig : Nat) :
    Except Err Nat := do
  let p ← IMPORT NDEBUG fuel m aig
  pure (STRIP p)

/-- Function `simpaig_not`. -/
def simpaig_not (NDEBUG : Bool) (fuel : Nat) (m : simpaigmgr) (aig : Nat) :
    Except Err Nat := do
  let p ← IMPORT NDEBUG fuel m aig
  pure (NOT p)

/-! ## Invariants and relations used in the statements -/

/-- The structural key `(var, slice, c0, c1)` of a node. -/
def simpaig.key (n : simpaig) : Nat × Nat × Nat × Nat := (n.var, n.slice, n.c0, n.c1)

/-- The predicate `Chain heap p l`: following the `next` fields from the pointer `p` visits
exactly the nodes `l`, in this order, and then reaches the null pointer. -/
def Chain (heap : Nat → Option simpaig) : Nat → List Nat → Prop
  | p, [] => p = 0
  | p, a :: l => p = a ∧ a ≠ 0 ∧ ∃ n, heap a = some n ∧ Chain heap n.next l

/-- The slot at the end of the chain `l` that starts in the slot `s`. -/
def lastSlot : Slot → List Nat → Slot
  | s, [] => s
  | _, a :: l => lastSlot (.next a) l

/-- Two memories hold the same nodes with the same keys. -/
def SameKeys (h h' : Nat → Option simpaig) : Prop :=
  ∀ p, (h p).map simpaig.key = (h' p).map simpaig.key

/-- Two memories hold the same nodes with the same chain links. -/
def SameNext (h h' : Nat → Option simpaig) : Prop :=
  ∀ p, (h p).map simpaig.next = (h' p).map simpaig.next

/-- The bucket array of `m` is the list of chains `B`: bucket `h` heads the chain `B[h]`, and
every node of that chain hashes to `h`. -/
structure Buckets (m : simpaigmgr) (B : List (List Nat)) : Prop where
  len_table : m.table.length = m.size_table
  len_B : B.length = m.size_table
  chains : ∀ h : Nat, Chain m.heap ((m.table[h]?).getD 0) ((B[h]?).getD [])
  bucket : ∀ (h : Nat) (a : Nat), a ∈ (B[h]?).getD [] → ∀ n, m.heap a = some n →
    simpaig_hash m n.var n.slice n.c0 n.c1 = h

/-- A node with its chain link cleared. -/
def simpaig.unlink (n : simpaig) : simpaig := { n with next := 0 }

/-- A node with its reference counter cleared. -/
def simpaig.unref (n : simpaig) : simpaig := { n with ref := 0 }

/-- Two memories hold the same nodes, which differ at most in the `next` field. -/
def SameButNext (h h' : Nat → Option simpaig) : Prop :=
  ∀ p, (h p).map simpaig.unlink = (h' p).map simpaig.unlink

/-- Two memories hold the same nodes, which differ at most in the `ref` field. -/
def SameButRef (h h' : Nat → Option simpaig) : Prop :=
  ∀ p, (h p).map simpaig.unref = (h' p).map simpaig.unref

/-- The manager `m'` differs from `m` at most in the memory and in the bucket array. -/
structure SameRest (m m' : simpaigmgr) : Prop where
  false_aig : m'.false_aig = m.false_aig
  count_table : m'.count_table = m.count_table
  size_table : m'.size_table = m.size_table
  count_cached : m'.count_cached = m.count_cached
  count_assigned : m'.count_assigned = m.count_assigned
  freed : m'.freed = m.freed

/-- The table size is a power of two that `unsigned` can hold twice. -/
def PowSize (m : simpaigmgr) : Prop := ∃ k, k ≤ 31 ∧ m.size_table = 2 ^ k

/-- The hash table of `m` is well formed, with the chains `B`. -/
structure TableOK (m : simpaigmgr) (B : List (List Nat)) : Prop where
  buckets : Buckets m B
  nodup : B.flatten.Nodup
  count : m.count_table = B.flatten.length
  count_le : m.count_table ≤ m.size_table
  size_pow : m.size_table = 0 ∨ PowSize m
  dom : ∀ p n, m.heap p = some n → p = m.false_aig ∨ p ∈ B.flatten
  false_notin : m.false_aig ∉ B.flatten

/-- The new size of the table in `simpaig_enlarge`. -/
def newSize (m : simpaigmgr) : Nat := if m.size_table ≠ 0 then (2 * m.size_table) % UINT else 1

/-- The nodes in memory are well formed: the false node has the all zero key, every node sits
at an even non-null address, every other node is a variable (`var` set, no children) or a
conjunction (`c0` set), no two nodes have the same key, and no two nodes have the same key up
to the order of the children. -/
structure HeapOK (m : simpaigmgr) : Prop where
  false_node : ∃ n, m.heap m.false_aig = some n ∧ n.key = (0, 0, 0, 0)
  aligned : ∀ p n, m.heap p = some n → p % 2 = 0 ∧ p ≠ 0
  shape : ∀ p n, m.heap p = some n → p ≠ m.false_aig → n.var ≠ 0 ∨ n.c0 ≠ 0
  leaf : ∀ p n, m.heap p = some n → n.var ≠ 0 → n.c0 = 0 ∧ n.c1 = 0
  uniq : ∀ p q n n', m.heap p = some n → m.heap q = some n' → n.key = n'.key → p = q
  comm : ∀ p q n n', m.heap p = some n → m.heap q = some n' → n.var = n'.var →
    n.slice = n'.slice → n.c0 = n'.c1 → n.c1 = n'.c0 → p = q

/-- The node written by `NEW (res)` and the assignments of the key fields. -/
def newNode (var slice c0 c1 : Nat) : simpaig :=
  { simpaig.zero with var := var, slice := slice, c0 := c0, c1 := c1 }

/-- The manager `m2` results from `m` by at most a doubling of the table: the same nodes,
with different chain links. -/
structure Kept (m m2 : simpaigmgr) : Prop where
  heap : SameButNext m.heap m2.heap
  count : m2.count_table = m.count_table
  false_aig : m2.false_aig = m.false_aig
  size_le : m.size_table ≤ m2.size_table
  cached : m2.count_cached = m.count_cached
  assigned : m2.count_assigned = m.count_assigned

/-- The manager `m2` results from `m` by at most a doubling of the table and the insertion
of the node `nd` at the address `p`. -/
structure Inserted (m m2 : simpaigmgr) (p : Nat) (nd : simpaig) : Prop where
  fresh : m.heap p = none
  node : m2.heap p = some nd
  others : ∀ q, q ≠ p → (m2.heap q).map simpaig.unlink = (m.heap q).map simpaig.unlink
  count : m2.count_table = m.count_table + 1
  false_aig : m2.false_aig = m.false_aig
  size_le : m.size_table ≤ m2.size_table
  cached : m2.count_cached = m.count_cached
  assigned : m2.count_assigned = m.count_assigned

/-- The state of the manager is well formed. -/
def Inv (m : simpaigmgr) : Prop := HeapOK m ∧ ∃ B, TableOK m B

/-- What `simpaig_var` has done when it reaches its final `inc (res)`: either the key was
found at the node `r` and nothing but chain links changed, or no node had the key and a new
node was inserted at the address `fresh`. -/
def VarPre (m m2 : simpaigmgr) (var slice fresh r : Nat) : Prop :=
  (Kept m m2 ∧ r ≠ m.false_aig ∧ ∃ n, m.heap r = some n ∧ n.key = (var, slice, 0, 0)) ∨
  ((∀ a n, m.heap a = some n → n.key ≠ (var, slice, 0, 0)) ∧ r = fresh ∧
    Inserted m m2 fresh (newNode var slice 0 0))

/-- The part of `simpaig_and` that consults the table, reached when no rule applies. -/
def and_table (NDEBUG : Bool) (fuel : Nat) (m : simpaigmgr) (c0 c1 fresh : Nat) :
    Except Err (simpaigmgr × Nat) :=
  (if m.size_table = m.count_table then simpaig_enlarge fuel m else pure m) >>= fun m1 =>
  simpaig_find fuel m1 0 0 c1 c0 >>= fun p =>
  readSlot m1 p >>= fun res =>
  if res ≠ 0 then inc NDEBUG m1 res
  else
    simpaig_find fuel m1 0 0 c0 c1 >>= fun p =>
    readSlot m1 p >>= fun res =>
    if res ≠ 0 then inc NDEBUG m1 res
    else insert_new m1 p fresh 0 0 c0 c1 >>= fun m2 => inc NDEBUG m2 fresh

/-- The reference that the rules of `simpaig_and` select, if one applies; `fa` is the address
of the false node. -/
def simplify (fa c0 c1 : Nat) : Option Nat :=
  if c0 = fa ∨ c1 = fa ∨ c0 = NOT c1 then some fa
  else if c0 = NOT fa ∨ c0 = c1 then some c1
  else if c1 = NOT fa then some c0
  else none

/-- What the table part of `simpaig_and` has done when it reaches its final `inc (res)`:
either a node with the children in one of the two orders was found, or there was none and a
new node was inserted at the address `fresh`. -/
def TablePre (m m2 : simpaigmgr) (c0 c1 fresh r : Nat) : Prop :=
  (Kept m m2 ∧ r ≠ m.false_aig ∧
    ∃ n, m.heap r = some n ∧ (n.key = (0, 0, c1, c0) ∨ n.key = (0, 0, c0, c1))) ∨
  ((∀ a n, m.heap a = some n → n.key ≠ (0, 0, c1, c0) ∧ n.key ≠ (0, 0, c0, c1)) ∧ r = fresh ∧
    Inserted m m2 fresh (newNode 0 0 c0 c1))

/-- The contract of the allocator for `NEW (res)` in the state `m`: the address it returns
is not null, is aligned, and is not the address of a node in memory. -/
def Fresh (m : simpaigmgr) (p : Nat) : Prop := p ≠ 0 ∧ p % 2 = 0 ∧ m.heap p = none

/-- One call of `simpaig_var`, `simpaig_and`, `simpaig_inc` or `simpaig_false` that returns. -/
inductive Step (NDEBUG : Bool) : simpaigmgr → simpaigmgr → Prop where
  | var {m m' : simpaigmgr} {fuel var slice fresh r : Nat} : var ≠ 0 → Fresh m fresh →
      simpaig_var NDEBUG fuel m var slice fresh = Except.ok (m', r) → Step NDEBUG m m'
  | conj {m m' : simpaigmgr} {fuel c0 c1 fresh r : Nat} : Fresh m fresh →
      simpaig_and NDEBUG fuel m c0 c1 fresh = Except.ok (m', r) → Step NDEBUG m m'
  | inc {m m' : simpaigmgr} {fuel res r : Nat} :
      simpaig_inc NDEBUG fuel m res = Except.ok (m', r) → Step NDEBUG m m'
  | false_ref {m m' : simpaigmgr} {r : Nat} :
      simpaig_false NDEBUG m = Except.ok (m', r) → Step NDEBUG m m'

/-- The states reached from `m` by calls that return. -/
inductive Steps (NDEBUG : Bool) : simpaigmgr → simpaigmgr → Prop where
  | refl (m : simpaigmgr) : Steps NDEBUG m m
  | tail {m m1 m2 : simpaigmgr} : Steps NDEBUG m m1 → Step NDEBUG m1 m2 → Steps NDEBUG m m2

/-- The states reached from the empty manager, whose false node sits at a non-null aligned
address. -/
def Built (NDEBUG : Bool) (m : simpaigmgr) : Prop :=
  ∃ fa, fa ≠ 0 ∧ fa % 2 = 0 ∧ Steps NDEBUG (simpaig_init_mem fa) m

/-- The manager `m'` holds every node of `m`, with the same key. -/
structure Ext (m m' : simpaigmgr) : Prop where
  false_aig : m'.false_aig = m.false_aig
  nodes : ∀ a n, m.heap a = some n → ∃ n', m'.heap a = some n' ∧ n'.key = n.key
  count_le : m.count_table ≤ m'.count_table
  size_le : m.size_table ≤ m'.size_table

/-- The reference counter of the node at address `p`; `0` when there is no node. -/
def refCount (m : simpaigmgr) (p : Nat) : Nat :=
  match m.heap p with
  | some n => n.ref
  | none => 0

/-- One call raises no reference counter by more than one, and a node it creates has a
counter of at most one. -/
def RefStep (m m' : simpaigmgr) : Prop :=
  ∀ a n', m'.heap a = some n' → n'.ref ≤ refCount m a + 1

/-- The reference `r` is valid in `m`: its node is not null, is in memory and has a positive
reference counter (the test in the body of `simpaig_valid`). -/
def Valid (m : simpaigmgr) (r : Nat) : Prop :=
  STRIP r ≠ 0 ∧ 0 < refCount m (STRIP r)

/-- No reference counter of `m` is within `k` of the largest `unsigned` value. -/
def NoWrap (k : Nat) (m : simpaigmgr) : Prop := ∀ p n, m.heap p = some n → n.ref + k < UINT

/-- The manager `m'` results from `m` by raising the reference counter of the node of `r` by
one; nothing else differs. -/
def Raised (m m' : simpaigmgr) (r : Nat) : Prop :=
  ∃ n, m.heap (STRIP r) = some n ∧ m' = store m (STRIP r) { n with ref := n.ref + 1 }

/-- The state after `n` calls `simpaig_var (mgr, v, s)` in a row. -/
def var_calls (NDEBUG : Bool) (fuel v s p : Nat) : Nat → simpaigmgr → Except Err simpaigmgr
  | 0, m => .ok m
  | n + 1, m => simpaig_var NDEBUG fuel m v s p >>= fun r => var_calls NDEBUG fuel v s p n r.1

/-- The identity and the slice of the node at address `a`. -/
def varKey (m : simpaigmgr) (a : Nat) : Nat × Nat :=
  match m.heap a with
  | some n => (n.var, n.slice)
  | none => (0, 0)

/-- The node a lookup ends at, `*simpaig_find (mgr, var, slice, c0, c1)`: the node with the
key, or the null pointer. -/
def lookup (fuel : Nat) (m : simpaigmgr) (var slice c0 c1 : Nat) : Except Err Nat :=
  simpaig_find fuel m var slice c0 c1 >>= readSlot m

/-! ## Example states and runs -/

/-- The state a call returned; the empty manager if it did not return. -/
def okState (x : Except Err (simpaigmgr × Nat)) : simpaigmgr :=
  match x with
  | .ok r => r.1
  | .error _ => simpaig_init_mem 0

/-- The reference a call returned; the null pointer if it did not return. -/
def okRef (x : Except Err (simpaigmgr × Nat)) : Nat :=
  match x with
  | .ok r => r.2
  | .error _ => 0

/-- The empty manager whose false node sits at address `64`. -/
def demo0 : simpaigmgr := simpaig_init_mem 64

/-- The state after `x = simpaig_var (mgr, (void *) 4096, 0)`, allocated at `1000`. -/
def demo1 : simpaigmgr := okState (simpaig_var false 4 demo0 4096 0 1000)

/-- The state after `y = simpaig_var (mgr, (void *) 8192, 1)`, allocated at `1040`. -/
def demo2 : simpaigmgr := okState (simpaig_var false 4 demo1 8192 1 1040)

/-- The state after `z = simpaig_var (mgr, (void *) 12288, 2)`, allocated at `1080`. -/
def demo3 : simpaigmgr := okState (simpaig_var false 4 demo2 12288 2 1080)

/-- The state a call without result value returned; the empty manager if it did not return. -/
def okMgr (x : Except Err simpaigmgr) : simpaigmgr :=
  match x with
  | .ok m => m
  | .error _ => simpaig_init_mem 0

/-- Whether a call returned. -/
def isOk {α : Type} (x : Except Err α) : Bool :=
  match x with
  | .ok _ => true
  | .error _ => false

/-- The state after `c = simpaig_and (mgr, x, y)` on `demo2`, with `c` allocated at `1080`. -/
def demoConj : simpaigmgr := okState (simpaig_and false 4 demo2 1000 1040 1080)

/-- The state of the `NDEBUG` build after `a = simpaig_var (x)`, `b = simpaig_var (y)` and
`c = simpaig_and (a, b)`, with `a`, `b`, `c` allocated at `1000`, `1040`, `1080`. -/
def relConj : simpaigmgr :=
  okState (simpaig_and true 4
    (okState (simpaig_var true 4 (okState (simpaig_var true 4 demo0 4096 0 1000)) 8192 1 1040))
    1000 1040 1080)

/-- The state of the `NDEBUG` build after `simpaig_dec (c)` on `relConj`. -/
def relConjDec : simpaigmgr := okMgr (simpaig_dec true 4 relConj 1080)

/-- The state after `f = simpaig_false (mgr)` on the empty manager `demo0`. -/
def demoFalse : simpaigmgr := okState (simpaig_false true demo0)

/-- The state after `c = simpaig_and (mgr, not (x), y)` on `demo2`, with `c` allocated at
`1080`. -/
def demoNegConj : simpaigmgr := okState (simpaig_and false 4 demo2 (NOT 1000) 1040 1080)

/-- The state of the `NDEBUG` build after `simpaig_var (mgr, (void *) 4096, 0)`. -/
def reuse1 : simpaigmgr := okState (simpaig_var true 4 demo0 4096 0 1000)

/-- The state after a second variable, slice `1`, allocated at `1040`. -/
def reuse2 : simpaigmgr := okState (simpaig_var true 4 reuse1 4096 1 1040)

/-- The state after a third variable, slice `2`, allocated at `1080`. -/
def reuse3 : simpaigmgr := okState (simpaig_var true 4 reuse2 4096 2 1080)

/-- The state after a fourth variable, slice `3`, allocated at `1120`. -/
def reuse4 : simpaigmgr := okState (simpaig_var true 4 reuse3 4096 3 1120)

/-- The state after a fifth variable, slice `8`, allocated at `1160`: a table of 8 buckets,
with the chain `1000, 1160` in bucket 0. -/
def reuse5 : simpaigmgr := okState (simpaig_var true 8 reuse4 4096 8 1160)

/-- The state after `simpaig_dec` of the first variable: the node `1000` is released and
still linked in bucket 0. -/
def reuse6 : simpaigmgr := okMgr (simpaig_dec true 1 reuse5 1000)

/-- The state after a new variable, slice `4`, for which the allocator hands out the released
address `1000` again. -/
def reuse7 : simpaigmgr := okState (simpaig_var true 4 reuse6 4096 4 1000)

/-- The state after `simpaig_var` is called again with the key of the fifth variable. -/
def reuse8 : simpaigmgr := okState (simpaig_var true 4 reuse7 4096 8 1200)

/-- The node of the variable `x` in the state `demo1`. -/
def demoVar : simpaig :=
  { var := 4096, slice := 0, c0 := 0, c1 := 0, idx := 0, ref := 1, next := 0, cache := 0,
    rhs := 0 }

end Simpaig

namespace Bigtocnf

/-! ## The converter -/

/-- The modulus of `unsigned` arithmetic. -/
def UINT : Nat := 2 ^ 32

/-- The messages with which `die` is called. -/
inductive Message where
  /-- "invalid header" -/
  | invalid_header
  /-- "can not handle sequential models" -/
  | sequential
  /-- "expected exactly one output" -/
  | outputs
  /-- "failed to read single output literal" -/
  | output_literal
  /-- "unexpected end of file" -/
  | end_of_file
  /-- "invalid byte encoding" -/
  | byte_encoding
deriving DecidableEq, Repr

/-- Ways in which a run of the converter ends without returning from `main`. -/
inductive Stop where
  /-- a call of `die`: the message goes to `stderr` and the process exits with status 1 -/
  | die (msg : Message)
  /-- the `assert` after the gate loop failed -/
  | assertion
  /-- a shift by at least the width of `int`, for which C defines no result -/
  | undefined
deriving DecidableEq, Repr

/-- The conversion of an `unsigned` value to `int` (two's complement). -/
def toInt (n : Nat) : Int :=
  if n % UINT < 2 ^ 31 then ((n % UINT : Nat) : Int) else ((n % UINT : Nat) : Int) - (UINT : Nat)

/-- Function `u2i`; `M` is the global of that name.  `-(M + 1)` and the product are computed
in `unsigned` arithmetic (in the product the `int` factor `-1` is converted to `unsigned`) and
the result is converted to the return type `int`. -/
def u2i (M : Nat) (l : Nat) : Int :=
  if l = 0 then toInt ((UINT - (M + 1) % UINT) % UINT)
  else if l = 1 then toInt ((M + 1) % UINT)
  else toInt (((if l &&& 1 ≠ 0 then UINT - 1 else 1) * (l >>> 1)) % UINT)

/-- Function `c1`: a unary clause is printed unless `read_only` is set.  The output is the
list of the clauses printed so far, each the list of its literals before the closing `0`. -/
def c1 (M : Nat) (read_only : Bool) (out : List (List Int)) (a : Nat) : List (List Int) :=
  if !read_only then out ++ [[u2i M a]] else out

/-- Function `c2`: a binary clause is printed unless `read_only` is set. -/
def c2 (M : Nat) (read_only : Bool) (out : List (List Int)) (a b : Nat) : List (List Int) :=
  if !read_only then out ++ [[u2i M a, u2i M b]] else out

/-- Function `c3`: a ternary clause is printed unless `read_only` is set. -/
def c3 (M : Nat) (read_only : Bool) (out : List (List Int)) (a b c : Nat) : List (List Int) :=
  if !read_only then out ++ [[u2i M a, u2i M b, u2i M c]] else out

/-- Function `get`: the next byte of the file and the rest of the file; `die` at the end of
the file. -/
def get (file : List Nat) : Except Stop (Nat × List Nat) :=
  match file with
  | [] => .error (.die .end_of_file)
  | ch :: rest => .ok (ch % 256, rest)

/-- The loop of `decode` with the current values of `x` and `i`; the call of `get` is the
match on the file (`decode_loop_get`).  The shifted value has type `int`; it is taken modulo
`2 ^ 32` when it is combined with the `unsigned` variable `x`, and a shift by 32 or more has
no defined result. -/
def decode_loop : List Nat → Nat → Nat → Except Stop (Nat × List Nat)
  | [], _, _ => .error (.die .end_of_file)
  | ch :: rest, x, i =>
    if 32 ≤ 7 * i then .error .undefined
    else if (ch % 256) &&& 0x80 ≠ 0 then
      decode_loop rest ((x ||| (((ch % 256) &&& 0x7f) <<< (7 * i))) % UINT) (i + 1)
    else .ok ((x ||| ((ch % 256) <<< (7 * i))) % UINT, rest)

/-- Function `decode`: the value read and the rest of the file. -/
def decode (file : List Nat) : Except Stop (Nat × List Nat) := decode_loop file 0 0

/-- The first half of the body of the gate loop of `main`: the two deltas are decoded and
checked, and `rhs0` and `rhs1` are computed; the result is `rhs0`, `rhs1` and the rest of the
file. -/
def operands (lhs : Nat) (file : List Nat) : Except Stop (Nat × Nat × List Nat) :=
  match decode file with
  | .error e => .error e
  | .ok (delta, file1) =>
    if delta ≥ lhs then .error (.die .byte_encoding)
    else
      match decode file1 with
      | .error e => .error e
      | .ok (delta1, file2) =>
        if delta1 > (lhs + UINT - delta) % UINT then .error (.die .byte_encoding)
        else .ok ((lhs + UINT - delta) % UINT,
          ((lhs + UINT - delta) % UINT + UINT - delta1) % UINT, file2)

/-- The gate loop of `main`, `for (...; A--; lhs += 2)`, with the current values of `A`, `lhs`,
the file position and the output; the result is the final `lhs`, the rest of the file and the
output. -/
def gate_loop (M : Nat) (read_only : Bool) :
    Nat → Nat → List Nat → List (List Int) → Except Stop (Nat × List Nat × List (List Int))
  | 0, lhs, file, out => .ok (lhs, file, out)
  | A + 1, lhs, file, out =>
    match operands lhs file with
    | .error e => .error e
    | .ok (rhs0, rhs1, file2) =>
      gate_loop M read_only A ((lhs + 2) % UINT) file2
        (c3 M read_only (c2 M read_only (c2 M read_only out (lhs ^^^ 1) rhs0) (lhs ^^^ 1) rhs1)
          lhs (rhs0 ^^^ 1) (rhs1 ^^^ 1))

/-- The input of `main` after the file has been opened: what the first `fscanf` stored in
`M`, `I`, `L`, `O`, `A` (`none` if it did not convert five numbers), what the second stored in
`sat` (`none` if it converted nothing), and the bytes that follow. -/
structure Input where
  header : Option (Nat × Nat × Nat × Nat × Nat)
  output : Option Nat
  body : List Nat
deriving DecidableEq, Repr

/-- What `main` has written to `stdout`: the two numbers of the `p cnf` line, if printed, and
the clauses. -/
structure Output where
  header : Option (Nat × Nat)
  clauses : List (List Int)
deriving DecidableEq, Repr

/-- Function `main` from the first `fscanf` on.  The options `--read-only` and the removal of
`assert` by `NDEBUG` are arguments; the result is the output of a run that returns. -/
def main (NDEBUG read_only : Bool) (inp : Input) : Except Stop Output :=
  match inp.header with
  | none => .error (.die .invalid_header)
  | some (M, I, L, O, A) =>
    if L ≠ 0 then .error (.die .sequential)
    else if O ≠ 1 then .error (.die .outputs)
    else
      match inp.output with
      | none => .error (.die .output_literal)
      | some sat =>
        match gate_loop M read_only A ((2 * (I + L + 1)) % UINT) inp.body [] with
        | .error e => .error e
        | .ok (lhs, _, out) =>
          if !NDEBUG && lhs != (2 * (M + 1)) % UINT then .error .assertion
          else .ok {
            header := if !read_only then some ((M + 1) % UINT, (A * 3 + 2) % UINT) else none,
            clauses := c1 M read_only (c1 M read_only out lhs) sat }

/-! ## Notions used in the statements about the converter -/

/-- The encoding of the claim: the 7-bit groups of `x` from the lowest to the highest, with
the high bit set on every byte but the last. -/
def encode (x : Nat) : List Nat :=
  if x < 128 then [x] else (x % 128 + 128) :: encode (x / 128)
termination_by x
decreasing_by omega

/-- The value of the continuation bytes `bs` followed by the terminal byte `t`, when the first
of them is the group number `i`: the bitwise or of `(b & 0x7f) << (7 * j)` over the
continuation bytes and of `t << (7 * k)`. -/
def groups (i : Nat) : List Nat → Nat → Nat
  | [], t => t <<< (7 * i)
  | b :: bs, t => ((b &&& 0x7f) <<< (7 * i)) ||| groups (i + 1) bs t

/-- The three clauses of the Tseitin pattern for a gate with the output literal `L` and the
operands `R0`, `R1`, under the mapping `u2i`: `(¬L ∨ R0)`, `(¬L ∨ R1)`, `(L ∨ ¬R0 ∨ ¬R1)`,
where the negation of a literal flips its low bit. -/
def tseitin (M : Nat) (g : Nat × Nat × Nat) : List (List Int) :=
  [[u2i M (g.1 ^^^ 1), u2i M g.2.1], [u2i M (g.1 ^^^ 1), u2i M g.2.2],
   [u2i M g.1, u2i M (g.2.1 ^^^ 1), u2i M (g.2.2 ^^^ 1)]]

/-- The gates `gs` (output literal, first operand, second operand) that the bytes `file`
describe when the first output literal is `lhs`, and the bytes `rest` left after them: for
each gate two deltas are decoded, both in range, the operands are `lhs - d0` and
`lhs - d0 - d1`, and the next output literal is `lhs + 2`. -/
inductive Gates : Nat → List Nat → List (Nat × Nat × Nat) → List Nat → Prop where
  | done (lhs : Nat) (file : List Nat) : Gates lhs file [] file
  | gate {lhs d0 d1 : Nat} {file f1 f2 rest : List Nat} {gs : List (Nat × Nat × Nat)} :
      decode file = Except.ok (d0, f1) → d0 < lhs →
      decode f1 = Except.ok (d1, f2) → d1 ≤ lhs - d0 →
      Gates (lhs + 2) f2 gs rest →
      Gates lhs file ((lhs, lhs - d0, lhs - d0 - d1) :: gs) rest

/-- The truth value of a DIMACS literal under the assignment `σ` of the variables. -/
def litTrue (σ : Nat → Bool) (i : Int) : Bool :=
  if 0 < i then σ i.natAbs else !σ i.natAbs

/-- The truth value of a clause: one of its literals is true. -/
def clauseTrue (σ : Nat → Bool) (c : List Int) : Bool := c.any (litTrue σ)

/-- The truth value of a literal of the input format: literal `0` is false, literal `1` is
true, and any other literal is the variable `l >> 1`, negated if the low bit is set. -/
def value (σ : Nat → Bool) (l : Nat) : Bool :=
  if l = 0 then false else if l = 1 then true else (σ (l >>> 1) != (l &&& 1 == 1))

end Bigtocnf

namespace Simpaig

/-! ## Basic facts: the monad, the tag bit, memory -/

@[simp] theorem ok_bind {α β : Type} (a : α) (f : α → Except Err β) :
    (Except.ok a >>= f) = f a := rfl

@[simp] theorem error_bind {α β : Type} (e : Err) (f : α → Except Err β) :
    ((Except.error e : Except Err α) >>= f) = Except.error e := rfl

@[simp] theorem pure_eq_ok {α : Type} (a : α) : (pure a : Except Err α) = Except.ok a := rfl

@[simp] theorem throw_eq_error {α : Type} (e : Err) :
    (throw e : Except Err α) = Except.error e := rfl

theorem bind_eq_ok {α β : Type} {x : Except Err α} {f : α → Except Err β} {b : β}
    (h : (x >>= f) = Except.ok b) : ∃ a, x = Except.ok a ∧ f a = Except.ok b := by
  cases x with
  | error e => simp at h
  | ok a => exact ⟨a, rfl, by simpa using h⟩

theorem xor_one_even (k : Nat) : 1 ^^^ (2 * k) = 2 * k + 1 := by
  have h := Nat.xor_bit true 0 false k
  simp [Nat.bit_val] at h
  simpa using h

theorem xor_one_odd (k : Nat) : 1 ^^^ (2 * k + 1) = 2 * k := by
  have h := Nat.xor_bit true 0 true k
  simp [Nat.bit_val] at h
  simpa using h

theorem NOT_eq (p : Nat) : NOT p = if p % 2 = 0 then p + 1 else p - 1 := by
  unfold NOT
  obtain ⟨k, rfl | rfl⟩ : ∃ k, p = 2 * k ∨ p = 2 * k + 1 := ⟨p / 2, by omega⟩
  · rw [xor_one_even]; simp
  · rw [xor_one_odd]; simp [Nat.add_mod]

theorem SIGN_eq (p : Nat) : SIGN p = p % 2 := Nat.one_and_eq_mod_two p

theorem STRIP_even {p : Nat} (h : p % 2 = 0) : STRIP p = p := by
  unfold STRIP; omega

theorem STRIP_odd {p : Nat} (h : p % 2 = 1) : STRIP p = p - 1 := by
  unfold STRIP; omega

theorem NOT_even {p : Nat} (h : p % 2 = 0) : NOT p = p + 1 := by
  rw [NOT_eq]; simp [h]

theorem NOT_odd {p : Nat} (h : p % 2 = 1) : NOT p = p - 1 := by
  rw [NOT_eq]; simp [h]

theorem NOT_NOT (p : Nat) : NOT (NOT p) = p := by
  rcases Nat.mod_two_eq_zero_or_one p with h | h
  · rw [NOT_even h, NOT_odd (by omega)]; omega
  · rw [NOT_odd h, NOT_even (by omega)]; omega

theorem STRIP_NOT (p : Nat) : STRIP (NOT p) = STRIP p := by
  rcases Nat.mod_two_eq_zero_or_one p with h | h
  · rw [NOT_even h, STRIP_even h, STRIP_odd (by omega)]; omega
  · rw [NOT_odd h, STRIP_odd h, STRIP_even (by omega)]

theorem NOT_ne (p : Nat) : NOT p ≠ p := by
  rcases Nat.mod_two_eq_zero_or_one p with h | h
  · rw [NOT_even h]; omega
  · rw [NOT_odd h]; omega

theorem NOT_inj {p q : Nat} (h : NOT p = NOT q) : p = q := by
  rw [← NOT_NOT p, h, NOT_NOT]

@[simp] theorem store_heap_same (m : simpaigmgr) (p : Nat) (n : simpaig) :
    (store m p n).heap p = some n := by
  simp [store]

theorem store_heap_other (m : simpaigmgr) {p q : Nat} (n : simpaig) (h : q ≠ p) :
    (store m p n).heap q = m.heap q := by
  simp [store, Function.update, h]

@[simp] theorem store_table (m : simpaigmgr) (p : Nat) (n : simpaig) :
    (store m p n).table = m.table := rfl

@[simp] theorem store_size_table (m : simpaigmgr) (p : Nat) (n : simpaig) :
    (store m p n).size_table = m.size_table := rfl

@[simp] theorem store_count_table (m : simpaigmgr) (p : Nat) (n : simpaig) :
    (store m p n).count_table = m.count_table := rfl

@[simp] theorem store_false_aig (m : simpaigmgr) (p : Nat) (n : simpaig) :
    (store m p n).false_aig = m.false_aig := rfl

@[simp] theorem store_freed (m : simpaigmgr) (p : Nat) (n : simpaig) :
    (store m p n).freed = m.freed := rfl

theorem load_eq_ok {m : simpaigmgr} {p : Nat} {n : simpaig} :
    load m p = Except.ok n ↔ m.heap p = some n := by
  unfold load
  cases h : m.heap p <;> simp

theorem load_of_heap {m : simpaigmgr} {p : Nat} {n : simpaig} (h : m.heap p = some n) :
    load m p = Except.ok n := load_eq_ok.2 h

/-! ## Collision chains -/

theorem key_ne_iff (nd : simpaig) (var slice c0 c1 : Nat) :
    (nd.var ≠ var ∨ nd.slice ≠ slice ∨ nd.c0 ≠ c0 ∨ nd.c1 ≠ c1) ↔ nd.key ≠ (var, slice, c0, c1) := by
  unfold simpaig.key
  simp only [ne_eq, Prod.mk.injEq]
  tauto

theorem Chain_congr {h h' : Nat → Option simpaig} :
    ∀ (l : List Nat) (p : Nat),
      (∀ a ∈ l, (h a).map simpaig.next = (h' a).map simpaig.next) →
      Chain h p l → Chain h' p l
  | [], _, _, hc => hc
  | a :: l, p, hl, hc => by
    obtain ⟨hp, ha, n, hn, hc'⟩ := hc
    have h1 := hl a (List.mem_cons_self a l)
    rw [hn] at h1
    cases hn' : h' a with
    | none => rw [hn'] at h1; simp at h1
    | some n' =>
      rw [hn'] at h1
      simp only [Option.map_some', Option.some.injEq] at h1
      refine ⟨hp, ha, n', hn', ?_⟩
      rw [← h1]
      exact Chain_congr l _ (fun b hb => hl b (List.mem_cons_of_mem a hb)) hc'

theorem Chain_mapped {h : Nat → Option simpaig} :
    ∀ (l : List Nat) (p : Nat), Chain h p l → ∀ a ∈ l, a ≠ 0 ∧ ∃ n, h a = some n
  | [], _, _, a, ha => by simp at ha
  | b :: l, p, hc, a, ha => by
    obtain ⟨_, hb, n, hn, hc'⟩ := hc
    rcases List.mem_cons.1 ha with rfl | ha'
    · exact ⟨hb, n, hn⟩
    · exact Chain_mapped l _ hc' a ha'

theorem Chain_functional {h : Nat → Option simpaig} :
    ∀ (l l' : List Nat) (p : Nat), Chain h p l → Chain h p l' → l = l'
  | [], [], _, _, _ => rfl
  | [], b :: l', p, hc, hc' => by
    obtain ⟨hp, hb, _⟩ := hc'
    simp only [Chain] at hc
    omega
  | a :: l, [], p, hc, hc' => by
    obtain ⟨hp, ha, _⟩ := hc
    simp only [Chain] at hc'
    omega
  | a :: l, b :: l', p, hc, hc' => by
    obtain ⟨hp, ha, n, hn, hc1⟩ := hc
    obtain ⟨hp', hb, n', hn', hc2⟩ := hc'
    have hab : a = b := by omega
    subst hab
    rw [hn] at hn'
    cases hn'
    rw [Chain_functional l l' _ hc1 hc2]

theorem find_loop_mono (m : simpaigmgr) (var slice c0 c1 : Nat) :
    ∀ (fuel : Nat) (s r : Slot), simpaig_find_loop m var slice c0 c1 fuel s = Except.ok r →
      simpaig_find_loop m var slice c0 c1 (fuel + 1) s = Except.ok r
  | 0, s, r, h => by simp [simpaig_find_loop] at h
  | fuel + 1, s, r, h => by
    rw [simpaig_find_loop] at h ⊢
    cases hs : readSlot m s with
    | error e => rw [hs] at h; simp at h
    | ok n =>
      rw [hs] at h
      simp only [ok_bind] at h ⊢
      by_cases hn : n = 0
      · simpa [hn] using h
      · simp only [hn, if_false] at h ⊢
        cases hl : load m n with
        | error e => rw [hl] at h; simp at h
        | ok nd =>
          rw [hl] at h
          simp only [ok_bind] at h ⊢
          split at h
          · rename_i hk
            rw [if_pos hk]
            exact find_loop_mono m var slice c0 c1 fuel _ r h
          · rename_i hk
            rw [if_neg hk]
            exact h

theorem find_loop_miss (m : simpaigmgr) (var slice c0 c1 : Nat) :
    ∀ (l : List Nat) (fuel : Nat) (s : Slot) (p : Nat),
      readSlot m s = Except.ok p → Chain m.heap p l →
      (∀ a ∈ l, ∀ n, m.heap a = some n → n.key ≠ (var, slice, c0, c1)) →
      l.length < fuel →
      simpaig_find_loop m var slice c0 c1 fuel s = Except.ok (lastSlot s l) ∧
        readSlot m (lastSlot s l) = Except.ok 0
  | [], fuel, s, p, hs, hc, _, hf => by
    obtain ⟨f, rfl⟩ : ∃ f, fuel = f + 1 := ⟨fuel - 1, by simp at hf; omega⟩
    simp only [Chain] at hc
    subst hc
    simp [simpaig_find_loop, hs, lastSlot]
  | a :: l, fuel, s, p, hs, hc, hk, hf => by
    obtain ⟨f, rfl⟩ : ∃ f, fuel = f + 1 := ⟨fuel - 1, by simp at hf; omega⟩
    obtain ⟨hp, ha, n, hn, hc'⟩ := hc
    subst hp
    have hkey := hk p (List.mem_cons_self p l) n hn
    have hrs : readSlot m (Slot.next p) = Except.ok n.next := by
      simp [readSlot, load_of_heap hn]
    have ih := find_loop_miss m var slice c0 c1 l f (Slot.next p) n.next hrs hc'
      (fun b hb => hk b (List.mem_cons_of_mem p hb)) (by simp at hf; omega)
    rw [simpaig_find_loop]
    simp only [hs, ok_bind, ha, if_false, load_of_heap hn]
    rw [if_pos ((key_ne_iff n var slice c0 c1).2 hkey)]
    exact ih

theorem find_loop_hit (m : simpaigmgr) (var slice c0 c1 : Nat) (a : Nat) :
    ∀ (l : List Nat) (fuel : Nat) (s : Slot) (p : Nat),
      readSlot m s = Except.ok p → Chain m.heap p l → a ∈ l →
      (∀ b ∈ l, ∀ n, m.heap b = some n → n.key = (var, slice, c0, c1) → b = a) →
      (∀ n, m.heap a = some n → n.key = (var, slice, c0, c1)) →
      l.length < fuel →
      ∃ r, simpaig_find_loop m var slice c0 c1 fuel s = Except.ok r ∧
        readSlot m r = Except.ok a
  | [], _, _, _, _, _, ha, _, _, _ => by simp at ha
  | b :: l, fuel, s, p, hs, hc, hmem, hu, hka, hf => by
    obtain ⟨f, rfl⟩ : ∃ f, fuel = f + 1 := ⟨fuel - 1, by simp at hf; omega⟩
    obtain ⟨hp, hb, n, hn, hc'⟩ := hc
    subst hp
    rw [simpaig_find_loop]
    simp only [hs, ok_bind, hb, if_false, load_of_heap hn]
    by_cases hk : n.key = (var, slice, c0, c1)
    · have hpa : p = a := hu p (List.mem_cons_self p l) n hn hk
      rw [if_neg (fun hne => ((key_ne_iff n var slice c0 c1).1 hne) hk)]
      exact ⟨s, rfl, by rw [hs, hpa]⟩
    · rw [if_pos ((key_ne_iff n var slice c0 c1).2 hk)]
      have hpa : p ≠ a := fun h => hk (hka n (h ▸ hn))
      have hmem' : a ∈ l := by
        rcases List.mem_cons.1 hmem with h | h
        · exact absurd h.symm hpa
        · exact h
      have hrs : readSlot m (Slot.next p) = Except.ok n.next := by
        simp [readSlot, load_of_heap hn]
      exact find_loop_hit m var slice c0 c1 a l f (Slot.next p) n.next hrs hc' hmem'
        (fun c hc => hu c (List.mem_cons_of_mem p hc)) hka (by simp at hf; omega)

/-! ## Lists of buckets -/

theorem mem_flatten_iff_getElem? {B : List (List Nat)} {a : Nat} :
    a ∈ B.flatten ↔ ∃ h : Nat, a ∈ (B[h]?).getD [] := by
  constructor
  · intro ha
    obtain ⟨l, hl, hal⟩ := List.mem_flatten.1 ha
    obtain ⟨i, hi, rfl⟩ := List.getElem_of_mem hl
    exact ⟨i, by simpa [List.getElem?_eq_getElem hi] using hal⟩
  · rintro ⟨h, ha⟩
    by_cases hh : h < B.length
    · rw [List.getElem?_eq_getElem hh] at ha
      exact List.mem_flatten.2 ⟨B[h], List.getElem_mem hh, by simpa using ha⟩
    · rw [List.getElem?_eq_none (by omega)] at ha
      simp at ha

theorem flatten_set_cons_perm (a : Nat) :
    ∀ (B : List (List Nat)) (h : Nat), h < B.length →
      (B.set h (a :: (B[h]?).getD [])).flatten.Perm (a :: B.flatten)
  | [], h, hh => by simp at hh
  | l :: B, 0, _ => by simp
  | l :: B, h + 1, hh => by
    have ih := flatten_set_cons_perm a B h (by simpa using hh)
    simp only [List.set_cons_succ, List.flatten_cons, List.getElem?_cons_succ]
    exact (List.Perm.append_left l ih).trans (List.perm_middle)

theorem flatten_set_append_perm (a : Nat) :
    ∀ (B : List (List Nat)) (h : Nat), h < B.length →
      (B.set h ((B[h]?).getD [] ++ [a])).flatten.Perm (a :: B.flatten)
  | [], h, hh => by simp at hh
  | l :: B, 0, _ => by
    simp only [List.set_cons_zero, List.flatten_cons, List.getElem?_cons_zero, Option.getD_some,
      List.append_assoc, List.singleton_append]
    exact List.perm_middle
  | l :: B, h + 1, hh => by
    have ih := flatten_set_append_perm a B h (by simpa using hh)
    simp only [List.set_cons_succ, List.flatten_cons, List.getElem?_cons_succ]
    exact (List.Perm.append_left l ih).trans (List.perm_middle)

theorem getElem?_set_getD {α : Type} (l : List α) (i j : Nat) (v d : α) :
    ((l.set i v)[j]?).getD d = if i = j ∧ i < l.length then v else (l[j]?).getD d := by
  rw [List.getElem?_set]
  by_cases hij : i = j
  · subst hij
    by_cases hi : i < l.length
    · simp [hi]
    · simp [hi, List.getElem?_eq_none (Nat.le_of_not_lt hi)]
  · simp [hij]

theorem map_getElem?_range (B : List (List Nat)) :
    (List.range B.length).map (fun i => (B[i]?).getD []) = B := by
  apply List.ext_getElem
  · simp
  · intro i h1 h2
    simp [List.getElem?_eq_getElem h2]

/-! ## The hash function -/

theorem simpaig_hash_congr {m m' : simpaigmgr} (h : m'.size_table = m.size_table)
    (var slice c0 c1 : Nat) :
    simpaig_hash m' var slice c0 c1 = simpaig_hash m var slice c0 c1 := by
  unfold simpaig_hash
  rw [h]

theorem mask_pow (k : Nat) (hk : k ≤ 31) : (2 ^ k + UINT - 1) % UINT = 2 ^ k - 1 := by
  have h1 : 0 < 2 ^ k := Nat.two_pow_pos k
  have h2 : 2 ^ k ≤ 2 ^ 31 := Nat.pow_le_pow_right (by decide) hk
  have h3 : 2 ^ k + UINT - 1 = (2 ^ k - 1) + UINT := by omega
  rw [h3, Nat.add_mod_right]
  apply Nat.mod_eq_of_lt
  unfold UINT
  omega

theorem simpaig_hash_lt {m : simpaigmgr} {k : Nat} (hk : k ≤ 31) (hs : m.size_table = 2 ^ k)
    (var slice c0 c1 : Nat) : simpaig_hash m var slice c0 c1 < m.size_table := by
  unfold simpaig_hash
  simp only
  rw [hs, mask_pow k hk, Nat.and_pow_two_sub_one_eq_mod]
  exact Nat.mod_lt _ (Nat.two_pow_pos k)

/-! ## The table as a list of chains -/

theorem SameKeys.refl_keys (h : Nat → Option simpaig) : SameKeys h h := fun _ => rfl

theorem SameKeys.trans_keys {h1 h2 h3 : Nat → Option simpaig} (a : SameKeys h1 h2)
    (b : SameKeys h2 h3) : SameKeys h1 h3 := fun p => (a p).trans (b p)

theorem SameKeys.symm_keys {h1 h2 : Nat → Option simpaig} (a : SameKeys h1 h2) : SameKeys h2 h1 :=
  fun p => (a p).symm

theorem SameKeys.key_eq {h h' : Nat → Option simpaig} (hk : SameKeys h h') {p : Nat}
    {n n' : simpaig} (h1 : h p = some n) (h2 : h' p = some n') : n.key = n'.key := by
  have := hk p
  rw [h1, h2] at this
  simpa using this

theorem SameKeys.mapped_keys {h h' : Nat → Option simpaig} (hk : SameKeys h h') {p : Nat}
    {n : simpaig} (h1 : h p = some n) : ∃ n', h' p = some n' ∧ n'.key = n.key := by
  have := hk p
  rw [h1] at this
  cases h2 : h' p with
  | none => rw [h2] at this; simp at this
  | some n' =>
    rw [h2] at this
    exact ⟨n', rfl, by simpa using this.symm⟩

theorem hash_of_key_eq (m : simpaigmgr) {n n' : simpaig} (h : n.key = n'.key) :
    simpaig_hash m n.var n.slice n.c0 n.c1 = simpaig_hash m n'.var n'.slice n'.c0 n'.c1 := by
  unfold simpaig.key at h
  simp only [Prod.mk.injEq] at h
  obtain ⟨h1, h2, h3, h4⟩ := h
  rw [h1, h2, h3, h4]

theorem Buckets.mapped_bucket {m : simpaigmgr} {B : List (List Nat)} (hb : Buckets m B) {a : Nat}
    (ha : a ∈ B.flatten) : a ≠ 0 ∧ ∃ n, m.heap a = some n := by
  obtain ⟨h, hh⟩ := mem_flatten_iff_getElem?.1 ha
  exact Chain_mapped _ _ (hb.chains h) a hh

theorem readSlot_bucket {m : simpaigmgr} {h : Nat} (hh : h < m.table.length) :
    readSlot m (Slot.bucket h) = Except.ok ((m.table[h]?).getD 0) := by
  simp [readSlot, List.getElem?_eq_getElem hh]

/-- One step of the inner loop of `simpaig_enlarge`: the node `a` is pushed on the front of
its bucket in the new table. -/
theorem enlarge_step {m : simpaigmgr} {NB : List (List Nat)} (hb : Buckets m NB)
    (hlt : ∀ v s c0 c1, simpaig_hash m v s c0 c1 < m.size_table)
    {a : Nat} {nd : simpaig} (ha0 : a ≠ 0) (hnd : m.heap a = some nd) (hnot : a ∉ NB.flatten) :
    let h := simpaig_hash m nd.var nd.slice nd.c0 nd.c1
    let m2 : simpaigmgr :=
      { store m a { nd with next := (m.table[h]?).getD 0 } with table := m.table.set h a }
    Buckets m2 (NB.set h (a :: (NB[h]?).getD [])) := by
  intro h m2
  have hh : h < m.size_table := hlt _ _ _ _
  have hframe : ∀ (l : List Nat) (p : Nat), a ∉ l → Chain m.heap p l → Chain m2.heap p l := by
    intro l p hal hc
    refine Chain_congr l p (fun b hb' => ?_) hc
    have hba : b ≠ a := fun e => hal (e ▸ hb')
    show Option.map _ (m.heap b) = Option.map _ (Function.update m.heap a _ b)
    rw [Function.update_noteq hba]
  have hnotb : ∀ j, a ∉ (NB[j]?).getD [] := fun j hj => hnot (mem_flatten_iff_getElem?.2 ⟨j, hj⟩)
  refine ⟨?_, ?_, ?_, ?_⟩
  · show (m.table.set h a).length = m.size_table
    simp [hb.len_table]
  · simp [hb.len_B]
  · intro j
    show Chain m2.heap (((m.table.set h a)[j]?).getD 0) _
    rw [getElem?_set_getD, getElem?_set_getD]
    by_cases hj : h = j
    · subst hj
      rw [if_pos ⟨rfl, by rw [hb.len_table]; exact hh⟩, if_pos ⟨rfl, by rw [hb.len_B]; exact hh⟩]
      refine ⟨rfl, ha0, { nd with next := (m.table[h]?).getD 0 }, ?_, ?_⟩
      · show Function.update m.heap a _ a = _
        simp
      · exact hframe _ _ (hnotb h) (hb.chains h)
    · rw [if_neg (fun c => hj c.1), if_neg (fun c => hj c.1)]
      exact hframe _ _ (hnotb j) (hb.chains j)
  · intro j b hbj n hn
    rw [getElem?_set_getD] at hbj
    have hsz : m2.size_table = m.size_table := rfl
    rw [simpaig_hash_congr hsz]
    by_cases hba : b = a
    · subst hba
      have hn' : m2.heap b = some { nd with next := (m.table[h]?).getD 0 } := by
        show Function.update m.heap b _ b = _
        simp
      rw [hn'] at hn
      cases hn
      by_cases hj : h = j ∧ h < NB.length
      · exact hj.1
      · rw [if_neg hj] at hbj
        exact absurd hbj (hnotb j)
    · have hn' : m.heap b = some n := by
        have : m2.heap b = m.heap b := by
          show Function.update m.heap a _ b = _
          rw [Function.update_noteq hba]
        rw [← this]; exact hn
      by_cases hj : h = j ∧ h < NB.length
      · rw [if_pos hj] at hbj
        rcases List.mem_cons.1 hbj with e | e
        · exact absurd e hba
        · rw [← hj.1]
          exact hb.bucket h b e n hn'
      · rw [if_neg hj] at hbj
        exact hb.bucket j b hbj n hn'

theorem SameButNext.refl_next (h : Nat → Option simpaig) : SameButNext h h := fun _ => rfl

theorem SameButNext.trans_next {h1 h2 h3 : Nat → Option simpaig} (a : SameButNext h1 h2)
    (b : SameButNext h2 h3) : SameButNext h1 h3 := fun p => (a p).trans (b p)

theorem SameButRef.refl_ref (h : Nat → Option simpaig) : SameButRef h h := fun _ => rfl

theorem SameButRef.trans_ref {h1 h2 h3 : Nat → Option simpaig} (a : SameButRef h1 h2)
    (b : SameButRef h2 h3) : SameButRef h1 h3 := fun p => (a p).trans (b p)

theorem SameButNext.keys_of_next {h h' : Nat → Option simpaig} (a : SameButNext h h') :
    SameKeys h h' := by
  intro p
  have := congrArg (Option.map simpaig.key) (a p)
  simpa [Option.map_map, Function.comp_def, simpaig.unlink, simpaig.key] using this

theorem SameButRef.keys_of_ref {h h' : Nat → Option simpaig} (a : SameButRef h h') :
    SameKeys h h' := by
  intro p
  have := congrArg (Option.map simpaig.key) (a p)
  simpa [Option.map_map, Function.comp_def, simpaig.unref, simpaig.key] using this

theorem SameButRef.next_of_ref {h h' : Nat → Option simpaig} (a : SameButRef h h') :
    SameNext h h' := by
  intro p
  have := congrArg (Option.map simpaig.next) (a p)
  simpa [Option.map_map, Function.comp_def, simpaig.unref] using this

theorem SameButNext.ref_eq {h h' : Nat → Option simpaig} (a : SameButNext h h') (p : Nat) :
    (h p).map simpaig.ref = (h' p).map simpaig.ref := by
  have := congrArg (Option.map simpaig.ref) (a p)
  simpa [Option.map_map, Function.comp_def, simpaig.unlink] using this

theorem SameRest.refl_rest (m : simpaigmgr) : SameRest m m := ⟨rfl, rfl, rfl, rfl, rfl, rfl⟩

theorem SameRest.trans_rest {m1 m2 m3 : simpaigmgr} (a : SameRest m1 m2) (b : SameRest m2 m3) :
    SameRest m1 m3 :=
  ⟨b.false_aig.trans a.false_aig, b.count_table.trans a.count_table,
    b.size_table.trans a.size_table, b.count_cached.trans a.count_cached,
    b.count_assigned.trans a.count_assigned, b.freed.trans a.freed⟩

theorem PowSize.hash_lt {m : simpaigmgr} (h : PowSize m) (v s c0 c1 : Nat) :
    simpaig_hash m v s c0 c1 < m.size_table := by
  obtain ⟨k, hk, hs⟩ := h
  exact simpaig_hash_lt hk hs v s c0 c1

/-- The inner loop of `simpaig_enlarge` moves the chain `l` into the new table. -/
theorem enlarge_chain_spec :
    ∀ (l : List Nat) (fuel : Nat) (m : simpaigmgr) (NB : List (List Nat)) (p : Nat),
      Buckets m NB → PowSize m → Chain m.heap p l → (l ++ NB.flatten).Nodup → l.length < fuel →
      ∃ m' NB', simpaig_enlarge_chain fuel m p = Except.ok m' ∧ Buckets m' NB' ∧
        NB'.flatten.Perm (l ++ NB.flatten) ∧ SameButNext m.heap m'.heap ∧
        (∀ b, b ∉ l → m'.heap b = m.heap b) ∧ SameRest m m'
  | [], fuel, m, NB, p, hb, _, hc, _, hf => by
    obtain ⟨f, rfl⟩ : ∃ f, fuel = f + 1 := ⟨fuel - 1, by simp at hf; omega⟩
    simp only [Chain] at hc
    subst hc
    exact ⟨m, NB, by simp [simpaig_enlarge_chain], hb, by simp, SameButNext.refl_next _,
      fun _ _ => rfl, SameRest.refl_rest m⟩
  | a :: l, fuel, m, NB, p, hb, hpow, hc, hnd, hf => by
    obtain ⟨f, rfl⟩ : ∃ f, fuel = f + 1 := ⟨fuel - 1, by simp at hf; omega⟩
    obtain ⟨hp, ha0, nd, hnd', hc'⟩ := hc
    subst hp
    have hnd2 : p ∉ l ++ NB.flatten ∧ (l ++ NB.flatten).Nodup := by
      simpa using List.nodup_cons.1 hnd
    have hpl : p ∉ l := fun h => hnd2.1 (List.mem_append_left _ h)
    have hpn : p ∉ NB.flatten := fun h => hnd2.1 (List.mem_append_right _ h)
    have hh : simpaig_hash m nd.var nd.slice nd.c0 nd.c1 < m.size_table := hpow.hash_lt _ _ _ _
    have hstep := enlarge_step hb hpow.hash_lt ha0 hnd' hpn
    simp only at hstep
    generalize hm2 : ({ store m p { nd with next :=
        (m.table[simpaig_hash m nd.var nd.slice nd.c0 nd.c1]?).getD 0 } with
        table := m.table.set (simpaig_hash m nd.var nd.slice nd.c0 nd.c1) p } : simpaigmgr) = m2
      at hstep
    have hheap2 : ∀ b, b ≠ p → m2.heap b = m.heap b := by
      intro b hbp
      rw [← hm2]
      show Function.update m.heap p _ b = _
      rw [Function.update_noteq hbp]
    have hheap2p : m2.heap p = some { nd with next :=
        (m.table[simpaig_hash m nd.var nd.slice nd.c0 nd.c1]?).getD 0 } := by
      rw [← hm2]
      show Function.update m.heap p _ p = _
      simp
    have hrest2 : SameRest m m2 := by
      rw [← hm2]; exact ⟨rfl, rfl, rfl, rfl, rfl, rfl⟩
    have hpow2 : PowSize m2 := by
      obtain ⟨k, hk, hs⟩ := hpow
      exact ⟨k, hk, by rw [hrest2.size_table]; exact hs⟩
    have hc2 : Chain m2.heap nd.next l := by
      refine Chain_congr l _ (fun b hbl => ?_) hc'
      rw [hheap2 b (fun e => hpl (e ▸ hbl))]
    have hperm2 := flatten_set_cons_perm p NB (simpaig_hash m nd.var nd.slice nd.c0 nd.c1)
      (by rw [hb.len_B]; exact hh)
    have hnd3 : (l ++ (NB.set (simpaig_hash m nd.var nd.slice nd.c0 nd.c1)
        (p :: (NB[simpaig_hash m nd.var nd.slice nd.c0 nd.c1]?).getD [])).flatten).Nodup := by
      have hp1 : (l ++ (NB.set (simpaig_hash m nd.var nd.slice nd.c0 nd.c1)
          (p :: (NB[simpaig_hash m nd.var nd.slice nd.c0 nd.c1]?).getD [])).flatten).Perm
          (p :: (l ++ NB.flatten)) :=
        (List.Perm.append_left l hperm2).trans List.perm_middle
      exact (hp1.nodup_iff).2 hnd
    obtain ⟨m', NB', hrun, hb', hperm', hsame', hout', hrest'⟩ :=
      enlarge_chain_spec l f m2 _ nd.next hstep hpow2 hc2 hnd3 (by simp at hf; omega)
    refine ⟨m', NB', ?_, hb', ?_, ?_, ?_, hrest2.trans_rest hrest'⟩
    · rw [simpaig_enlarge_chain]
      simp only [ha0, if_false, load_of_heap hnd', ok_bind,
        readSlot_bucket (show simpaig_hash m nd.var nd.slice nd.c0 nd.c1 < m.table.length by
          rw [hb.len_table]; exact hh)]
      have hw : writeSlot (store m p { nd with next :=
          (m.table[simpaig_hash m nd.var nd.slice nd.c0 nd.c1]?).getD 0 })
          (Slot.bucket (simpaig_hash m nd.var nd.slice nd.c0 nd.c1)) p = Except.ok m2 := by
        rw [← hm2]
        simp only [writeSlot, store_table]
        rw [if_pos (by rw [hb.len_table]; exact hh)]
      rw [hw]
      exact hrun
    · exact hperm'.trans ((List.Perm.append_left l hperm2).trans List.perm_middle)
    · intro b
      by_cases hbp : b = p
      · subst hbp
        rw [← hsame' b, hnd', hheap2p]
        rfl
      · rw [← hsame' b, hheap2 b hbp]
    · intro b hbl
      have h1 : b ≠ p := fun e => hbl (e ▸ List.mem_cons_self _ _)
      have h2 : b ∉ l := fun e => hbl (List.mem_cons_of_mem _ e)
      rw [hout' b h2, hheap2 b h1]

theorem length_getElem?_le_flatten :
    ∀ (B : List (List Nat)) (i : Nat), ((B[i]?).getD []).length ≤ B.flatten.length
  | [], i => by simp
  | l :: B, 0 => by simp
  | l :: B, i + 1 => by
    have := length_getElem?_le_flatten B i
    simp only [List.getElem?_cons_succ, List.flatten_cons, List.length_append]
    omega

/-- The outer loop of `simpaig_enlarge` moves the chains of the old buckets `is` into the
new table. -/
theorem enlarge_loop_spec (fuel : Nat) (old : List Nat) (OB : List (List Nat)) :
    ∀ (is : List Nat) (m : simpaigmgr) (NB : List (List Nat)),
      Buckets m NB → PowSize m →
      (∀ i ∈ is, ∃ p, old[i]? = some p ∧ Chain m.heap p ((OB[i]?).getD [])) →
      ((is.map (fun i => (OB[i]?).getD [])).flatten ++ NB.flatten).Nodup →
      (∀ i ∈ is, ((OB[i]?).getD []).length < fuel) →
      ∃ m' NB', simpaig_enlarge_loop fuel old is m = Except.ok m' ∧ Buckets m' NB' ∧
        NB'.flatten.Perm ((is.map (fun i => (OB[i]?).getD [])).flatten ++ NB.flatten) ∧
        SameButNext m.heap m'.heap ∧
        (∀ b, b ∉ (is.map (fun i => (OB[i]?).getD [])).flatten → m'.heap b = m.heap b) ∧
        SameRest m m'
  | [], m, NB, hb, _, _, _, _ =>
    ⟨m, NB, rfl, hb, by simp, SameButNext.refl_next _, fun _ _ => rfl, SameRest.refl_rest m⟩
  | i :: is, m, NB, hb, hpow, hch, hnd, hlen => by
    obtain ⟨p, hp, hc⟩ := hch i (List.mem_cons_self i is)
    simp only [List.map_cons, List.flatten_cons, List.append_assoc] at hnd
    have hnd1 : ((OB[i]?).getD [] ++ NB.flatten).Nodup := by
      have hsub : ((OB[i]?).getD [] ++ NB.flatten).Sublist
          ((OB[i]?).getD [] ++ ((is.map (fun i => (OB[i]?).getD [])).flatten ++ NB.flatten)) :=
        List.Sublist.append_left (List.sublist_append_right _ _) _
      exact hnd.sublist hsub
    obtain ⟨m1, NB1, hrun1, hb1, hperm1, hsame1, hout1, hrest1⟩ :=
      enlarge_chain_spec _ fuel m NB p hb hpow hc hnd1 (hlen i (List.mem_cons_self i is))
    have hpow1 : PowSize m1 := by
      obtain ⟨k, hk, hs⟩ := hpow
      exact ⟨k, hk, by rw [hrest1.size_table]; exact hs⟩
    have hdisj : ∀ b, b ∈ (is.map (fun i => (OB[i]?).getD [])).flatten →
        b ∉ (OB[i]?).getD [] := by
      intro b hb1 hb2
      have := (List.nodup_append.1 hnd).2.2
      exact this hb2 (List.mem_append_left _ hb1)
    have hch1 : ∀ j ∈ is, ∃ q, old[j]? = some q ∧ Chain m1.heap q ((OB[j]?).getD []) := by
      intro j hj
      obtain ⟨q, hq, hcq⟩ := hch j (List.mem_cons_of_mem i hj)
      refine ⟨q, hq, Chain_congr _ _ (fun b hbj => ?_) hcq⟩
      have hbmem : b ∈ (is.map (fun i => (OB[i]?).getD [])).flatten :=
        List.mem_flatten.2 ⟨_, List.mem_map.2 ⟨j, hj, rfl⟩, hbj⟩
      rw [hout1 b (hdisj b hbmem)]
    have hnd2 : ((is.map (fun i => (OB[i]?).getD [])).flatten ++ NB1.flatten).Nodup := by
      have hp1 : ((is.map (fun i => (OB[i]?).getD [])).flatten ++ NB1.flatten).Perm
          ((OB[i]?).getD [] ++ ((is.map (fun i => (OB[i]?).getD [])).flatten ++ NB.flatten)) := by
        refine (List.Perm.append_left _ hperm1).trans ?_
        rw [← List.append_assoc, ← List.append_assoc]
        exact List.Perm.append_right _ List.perm_append_comm
      exact hp1.nodup_iff.2 hnd
    obtain ⟨m', NB', hrun', hb', hperm', hsame', hout', hrest'⟩ :=
      enlarge_loop_spec fuel old OB is m1 NB1 hb1 hpow1 hch1 hnd2
        (fun j hj => hlen j (List.mem_cons_of_mem i hj))
    refine ⟨m', NB', ?_, hb', ?_, hsame1.trans_next hsame', ?_, hrest1.trans_rest hrest'⟩
    · rw [simpaig_enlarge_loop, hp]
      simp only [hrun1, ok_bind]
      exact hrun'
    · simp only [List.map_cons, List.flatten_cons, List.append_assoc]
      refine hperm'.trans ?_
      refine (List.Perm.append_left _ hperm1).trans ?_
      rw [← List.append_assoc, ← List.append_assoc]
      exact List.Perm.append_right _ List.perm_append_comm
    · intro b hbn
      simp only [List.map_cons, List.flatten_cons, List.mem_append, not_or] at hbn
      rw [hout' b hbn.2, hout1 b hbn.1]

theorem TableOK.chain_length_le {m : simpaigmgr} {B : List (List Nat)} (h : TableOK m B)
    (i : Nat) : ((B[i]?).getD []).length ≤ m.count_table := by
  rw [h.count]
  exact length_getElem?_le_flatten B i

theorem replicate_getElem?_getD {α : Type} (n i : Nat) (d : α) :
    ((List.replicate n d)[i]?).getD d = d := by
  rw [List.getElem?_replicate]
  split <;> rfl

theorem flatten_replicate_nil (n : Nat) : (List.replicate n ([] : List Nat)).flatten = [] := by
  induction n with
  | zero => rfl
  | succ n ih => simp [List.replicate_succ, ih]

theorem newSize_pow {m : simpaigmgr} {B : List (List Nat)} (h : TableOK m B)
    (hs : m.size_table < 2 ^ 31) :
    ∃ k, k ≤ 31 ∧ newSize m = 2 ^ k ∧ m.size_table < newSize m ∧
      newSize m = (if m.size_table = 0 then 1 else 2 * m.size_table) := by
  unfold newSize
  rcases h.size_pow with h0 | ⟨k, hk, hk2⟩
  · exact ⟨0, by omega, by simp [h0], by simp [h0], by simp [h0]⟩
  · have hpos : 0 < 2 ^ k := Nat.two_pow_pos k
    have hk31 : k < 31 := by
      rw [hk2] at hs
      exact (Nat.pow_lt_pow_iff_right (by decide)).1 hs
    have hne : m.size_table ≠ 0 := by omega
    have hlt : 2 * m.size_table < UINT := by unfold UINT; omega
    rw [if_pos hne, Nat.mod_eq_of_lt hlt]
    refine ⟨k + 1, by omega, by rw [hk2, Nat.pow_succ]; omega, by omega, by simp [hne]⟩

/-- Function `simpaig_enlarge` on a well formed table that can still be doubled: all nodes are
kept, only their chain links change. -/
theorem enlarge_spec {m : simpaigmgr} {B : List (List Nat)} (h : TableOK m B)
    (hs : m.size_table < 2 ^ 31) (fuel : Nat) (hf : m.count_table < fuel) :
    ∃ m' B', simpaig_enlarge fuel m = Except.ok m' ∧ TableOK m' B' ∧
      B'.flatten.Perm B.flatten ∧ SameButNext m.heap m'.heap ∧
      m'.size_table = (if m.size_table = 0 then 1 else 2 * m.size_table) ∧
      m.size_table < m'.size_table ∧
      m'.count_table = m.count_table ∧ m'.false_aig = m.false_aig ∧
      m'.count_cached = m.count_cached ∧ m'.count_assigned = m.count_assigned ∧
      m'.freed = m.freed ++ [FreeCall.table m.table m.size_table] := by
  obtain ⟨k, hk, hk2, hgt, hval⟩ := newSize_pow h hs
  generalize hm1 : ({ m with size_table := newSize m, table := List.replicate (newSize m) 0 } :
    simpaigmgr) = m1
  have hheap1 : m1.heap = m.heap := by rw [← hm1]
  have hsize1 : m1.size_table = newSize m := by rw [← hm1]
  have htab1 : m1.table = List.replicate (newSize m) 0 := by rw [← hm1]
  have hb1 : Buckets m1 (List.replicate (newSize m) []) := by
    refine ⟨by rw [htab1, hsize1]; simp, by rw [hsize1]; simp, ?_, ?_⟩
    · intro i
      rw [htab1, replicate_getElem?_getD, replicate_getElem?_getD]
      rfl
    · intro i a ha
      rw [replicate_getElem?_getD] at ha
      simp at ha
  have hpow1 : PowSize m1 := ⟨k, hk, by rw [hsize1]; exact hk2⟩
  have hch : ∀ i ∈ List.range m.size_table,
      ∃ p, m.table[i]? = some p ∧ Chain m1.heap p ((B[i]?).getD []) := by
    intro i hi
    have hi' : i < m.table.length := by
      rw [h.buckets.len_table]; exact List.mem_range.1 hi
    refine ⟨(m.table[i]?).getD 0, by simp [List.getElem?_eq_getElem hi'], ?_⟩
    rw [hheap1]
    exact h.buckets.chains i
  have hmap : (List.range m.size_table).map (fun i => (B[i]?).getD []) = B := by
    rw [← h.buckets.len_B]
    exact map_getElem?_range B
  obtain ⟨m2, B', hrun, hb2, hperm, hsame, _, hrest⟩ :=
    enlarge_loop_spec fuel m.table B (List.range m.size_table) m1 _ hb1 hpow1 hch
      (by rw [hmap, flatten_replicate_nil]; simpa using h.nodup)
      (fun i _ => lt_of_le_of_lt (h.chain_length_le i) hf)
  rw [hmap, flatten_replicate_nil, List.append_nil] at hperm
  have hfa : m1.false_aig = m.false_aig := by rw [← hm1]
  have hct : m1.count_table = m.count_table := by rw [← hm1]
  refine ⟨{ m2 with freed := m2.freed ++ [FreeCall.table m.table m.size_table] }, B', ?_, ?_,
    hperm, ?_, ?_, ?_, ?_, ?_, ?_, ?_, ?_⟩
  · unfold simpaig_enlarge
    simp only [pure_eq_ok]
    have : (if m.size_table ≠ 0 then 2 * m.size_table % UINT else 1) = newSize m := rfl
    rw [this, hm1, hrun]
    rfl
  · refine ⟨⟨hb2.len_table, hb2.len_B, hb2.chains, ?_⟩, hperm.nodup_iff.2 h.nodup, ?_, ?_, ?_,
      ?_, ?_⟩
    · intro i a ha n hn
      exact hb2.bucket i a ha n hn
    · show m2.count_table = _
      rw [hrest.count_table, hct, h.count, hperm.length_eq]
    · show m2.count_table ≤ m2.size_table
      rw [hrest.count_table, hrest.size_table, hct, hsize1]
      have := h.count_le
      omega
    · right
      exact ⟨k, hk, by show m2.size_table = _; rw [hrest.size_table, hsize1]; exact hk2⟩
    · intro p n hn
      show p = m2.false_aig ∨ _
      rw [hrest.false_aig, hfa]
      have hn' : m2.heap p = some n := hn
      obtain ⟨n0, hn0, _⟩ := hsame.keys_of_next.symm_keys.mapped_keys hn'
      rw [hheap1] at hn0
      rcases h.dom p n0 hn0 with e | e
      · exact Or.inl e
      · exact Or.inr (hperm.mem_iff.2 e)
    · show m2.false_aig ∉ _
      rw [hrest.false_aig, hfa]
      exact fun e => h.false_notin (hperm.mem_iff.1 e)
  · show SameButNext m.heap m2.heap
    rw [← hheap1]; exact hsame
  · show m2.size_table = _
    rw [hrest.size_table, hsize1]; exact hval
  · show m.size_table < m2.size_table
    rw [hrest.size_table, hsize1]; exact hgt
  · show m2.count_table = _
    rw [hrest.count_table, hct]
  · show m2.false_aig = _
    rw [hrest.false_aig, hfa]
  · show m2.count_cached = _
    rw [hrest.count_cached, ← hm1]
  · show m2.count_assigned = _
    rw [hrest.count_assigned, ← hm1]
  · show m2.freed ++ _ = _
    rw [hrest.freed, ← hm1]

/-! ## The nodes in memory -/

theorem key_fields {n n' : simpaig} (h : n.key = n'.key) :
    n.var = n'.var ∧ n.slice = n'.slice ∧ n.c0 = n'.c0 ∧ n.c1 = n'.c1 := by
  unfold simpaig.key at h
  simpa only [Prod.mk.injEq] using h

theorem HeapOK.transfer_heap {m m' : simpaigmgr} (h : HeapOK m) (hk : SameKeys m.heap m'.heap)
    (hf : m'.false_aig = m.false_aig) : HeapOK m' := by
  refine ⟨?_, ?_, ?_, ?_, ?_, ?_⟩
  · obtain ⟨n, hn, hkey⟩ := h.false_node
    obtain ⟨n', hn', hk'⟩ := hk.mapped_keys hn
    exact ⟨n', by rw [hf]; exact hn', hk'.trans hkey⟩
  · intro p n hn
    obtain ⟨n0, hn0, _⟩ := hk.symm_keys.mapped_keys hn
    exact h.aligned p n0 hn0
  · intro p n hn hp
    obtain ⟨n0, hn0, hk0⟩ := hk.symm_keys.mapped_keys hn
    have := h.shape p n0 hn0 (by rw [← hf]; exact hp)
    obtain ⟨e1, _, e3, _⟩ := key_fields hk0
    rw [e1, e3] at this
    exact this
  · intro p n hn hv
    obtain ⟨n0, hn0, hk0⟩ := hk.symm_keys.mapped_keys hn
    obtain ⟨e1, _, e3, e4⟩ := key_fields hk0
    have := h.leaf p n0 hn0 (by rw [e1]; exact hv)
    rw [e3, e4] at this
    exact this
  · intro p q n n' hn hn' hkey
    obtain ⟨n0, hn0, hk0⟩ := hk.symm_keys.mapped_keys hn
    obtain ⟨n1, hn1, hk1⟩ := hk.symm_keys.mapped_keys hn'
    exact h.uniq p q n0 n1 hn0 hn1 (hk0.trans (hkey.trans hk1.symm))
  · intro p q n n' hn hn' e1 e2 e3 e4
    obtain ⟨n0, hn0, hk0⟩ := hk.symm_keys.mapped_keys hn
    obtain ⟨n1, hn1, hk1⟩ := hk.symm_keys.mapped_keys hn'
    obtain ⟨a1, a2, a3, a4⟩ := key_fields hk0
    obtain ⟨b1, b2, b3, b4⟩ := key_fields hk1
    exact h.comm p q n0 n1 hn0 hn1 (by rw [a1, b1, e1]) (by rw [a2, b2, e2])
      (by rw [a3, b4, e3]) (by rw [a4, b3, e4])

theorem Buckets.transfer_buckets {m m' : simpaigmgr} {B : List (List Nat)} (h : Buckets m B)
    (ht : m'.table = m.table) (hs : m'.size_table = m.size_table)
    (hk : SameKeys m.heap m'.heap) (hn : SameNext m.heap m'.heap) : Buckets m' B := by
  refine ⟨by rw [ht, hs]; exact h.len_table, by rw [hs]; exact h.len_B, ?_, ?_⟩
  · intro i
    rw [ht]
    exact Chain_congr _ _ (fun a _ => hn a) (h.chains i)
  · intro i a ha n hna
    obtain ⟨n0, hn0, hk0⟩ := hk.symm_keys.mapped_keys hna
    rw [simpaig_hash_congr hs, ← hash_of_key_eq m hk0]
    exact h.bucket i a ha n0 hn0

theorem TableOK.transfer_table {m m' : simpaigmgr} {B : List (List Nat)} (h : TableOK m B)
    (ht : m'.table = m.table) (hs : m'.size_table = m.size_table)
    (hc : m'.count_table = m.count_table) (hf : m'.false_aig = m.false_aig)
    (hk : SameKeys m.heap m'.heap) (hn : SameNext m.heap m'.heap) : TableOK m' B := by
  refine ⟨h.buckets.transfer_buckets ht hs hk hn, h.nodup, by rw [hc]; exact h.count,
    by rw [hc, hs]; exact h.count_le, ?_, ?_, by rw [hf]; exact h.false_notin⟩
  · rcases h.size_pow with h0 | ⟨k, hk1, hk2⟩
    · exact Or.inl (by rw [hs]; exact h0)
    · exact Or.inr ⟨k, hk1, by rw [hs]; exact hk2⟩
  · intro p n hp
    obtain ⟨n0, hn0, _⟩ := hk.symm_keys.mapped_keys hp
    rw [hf]
    exact h.dom p n0 hn0

theorem TableOK.mem_flatten {m : simpaigmgr} {B : List (List Nat)} (h : TableOK m B)
    {a : Nat} {n : simpaig} (hn : m.heap a = some n) (ha : a ≠ m.false_aig) :
    a ∈ B.flatten := by
  rcases h.dom a n hn with e | e
  · exact absurd e ha
  · exact e

theorem TableOK.mem_bucket {m : simpaigmgr} {B : List (List Nat)} (h : TableOK m B)
    {a : Nat} {n : simpaig} (hn : m.heap a = some n) (ha : a ∈ B.flatten) :
    a ∈ (B[simpaig_hash m n.var n.slice n.c0 n.c1]?).getD [] := by
  obtain ⟨j, hj⟩ := mem_flatten_iff_getElem?.1 ha
  rw [h.buckets.bucket j a hj n hn]
  exact hj

theorem TableOK.powSize {m : simpaigmgr} {B : List (List Nat)} (h : TableOK m B)
    (hs : m.size_table ≠ 0) : PowSize m := by
  rcases h.size_pow with h0 | h1
  · exact absurd h0 hs
  · exact h1

/-- Function `simpaig_find` on a key that a node of the table has: the returned slot holds the
address of that node. -/
theorem find_hit {m : simpaigmgr} {B : List (List Nat)} (h : TableOK m B) (hh : HeapOK m)
    (hs : m.size_table ≠ 0) {a : Nat} {n : simpaig} (ha : a ∈ B.flatten)
    (hn : m.heap a = some n) (fuel : Nat) (hf : m.count_table < fuel) :
    ∃ r, simpaig_find fuel m n.var n.slice n.c0 n.c1 = Except.ok r ∧
      readSlot m r = Except.ok a := by
  have hlt := (h.powSize hs).hash_lt n.var n.slice n.c0 n.c1
  unfold simpaig_find
  refine find_loop_hit m n.var n.slice n.c0 n.c1 a _ fuel _ _
    (readSlot_bucket (by rw [h.buckets.len_table]; exact hlt)) (h.buckets.chains _)
    (h.mem_bucket hn ha) ?_ ?_ (lt_of_le_of_lt (h.chain_length_le _) hf)
  · intro b _ nb hnb hkb
    exact hh.uniq b a nb n hnb hn hkb
  · intro n' hn'
    rw [hn] at hn'
    cases hn'
    rfl

/-- Function `simpaig_find` on a key that no node of the table has: the returned slot is the
end of the chain of the bucket of the key, and it holds the null pointer. -/
theorem find_miss {m : simpaigmgr} {B : List (List Nat)} (h : TableOK m B)
    (hs : m.size_table ≠ 0) {var slice c0 c1 : Nat}
    (hk : ∀ a ∈ B.flatten, ∀ n, m.heap a = some n → n.key ≠ (var, slice, c0, c1))
    (fuel : Nat) (hf : m.count_table < fuel) :
    simpaig_find fuel m var slice c0 c1 =
        Except.ok (lastSlot (Slot.bucket (simpaig_hash m var slice c0 c1))
          ((B[simpaig_hash m var slice c0 c1]?).getD [])) ∧
      readSlot m (lastSlot (Slot.bucket (simpaig_hash m var slice c0 c1))
          ((B[simpaig_hash m var slice c0 c1]?).getD [])) = Except.ok 0 := by
  have hlt := (h.powSize hs).hash_lt var slice c0 c1
  unfold simpaig_find
  exact find_loop_miss m var slice c0 c1 _ fuel _ _
    (readSlot_bucket (by rw [h.buckets.len_table]; exact hlt)) (h.buckets.chains _)
    (fun a ha => hk a (mem_flatten_iff_getElem?.2 ⟨_, ha⟩))
    (lt_of_le_of_lt (h.chain_length_le _) hf)

/-! ## Reference counting -/

theorem store_ref_sameButRef {m : simpaigmgr} {p : Nat} {n : simpaig} (hn : m.heap p = some n)
    (r : Nat) : SameButRef m.heap (store m p { n with ref := r }).heap := by
  intro q
  by_cases hq : q = p
  · subst hq
    rw [hn, store_heap_same]
    rfl
  · rw [store_heap_other m _ hq]

/-- Function `inc` on a reference whose node is in memory and whose counter does not wrap. -/
theorem inc_spec (NDEBUG : Bool) {m : simpaigmgr} {res : Nat} {n : simpaig}
    (hn : m.heap (STRIP res) = some n) (hr : n.ref + 1 < UINT) :
    inc NDEBUG m res = Except.ok (store m (STRIP res) { n with ref := n.ref + 1 }, res) := by
  unfold inc
  simp only [load_of_heap hn, ok_bind, Nat.mod_eq_of_lt hr]
  have : (n.ref + 1 == 0) = false := by simp
  simp [this]

/-- Whenever `inc` returns, it returns its argument and has changed nothing but the counter
of the node referred to. -/
theorem inc_ok {NDEBUG : Bool} {m m' : simpaigmgr} {res r : Nat}
    (h : inc NDEBUG m res = Except.ok (m', r)) :
    r = res ∧ ∃ n, m.heap (STRIP res) = some n ∧
      m' = store m (STRIP res) { n with ref := (n.ref + 1) % UINT } := by
  unfold inc at h
  dsimp only at h
  cases hl : load m (STRIP res) with
  | error e => rw [hl] at h; simp at h
  | ok n =>
    rw [hl] at h
    simp only [ok_bind] at h
    split at h
    · simp at h
    · simp only [pure_eq_ok, ok_bind, Except.ok.injEq, Prod.mk.injEq] at h
      exact ⟨h.2.symm, n, load_eq_ok.1 hl, h.1.symm⟩

/-! ## Insertion at the end of a chain -/

theorem bucket_disjoint :
    ∀ (B : List (List Nat)) (i j : Nat) (a : Nat), B.flatten.Nodup →
      a ∈ (B[i]?).getD [] → a ∈ (B[j]?).getD [] → i = j
  | [], i, j, a, _, hi, _ => by simp at hi
  | l :: B, 0, 0, a, _, _, _ => rfl
  | l :: B, 0, j + 1, a, hnd, hi, hj => by
    simp only [List.flatten_cons] at hnd
    have hdis := (List.nodup_append.1 hnd).2.2
    simp only [List.getElem?_cons_zero, Option.getD_some] at hi
    simp only [List.getElem?_cons_succ] at hj
    exact absurd (mem_flatten_iff_getElem?.2 ⟨j, hj⟩) (fun h => hdis hi h)
  | l :: B, i + 1, 0, a, hnd, hi, hj => by
    simp only [List.flatten_cons] at hnd
    have hdis := (List.nodup_append.1 hnd).2.2
    simp only [List.getElem?_cons_zero, Option.getD_some] at hj
    simp only [List.getElem?_cons_succ] at hi
    exact absurd (mem_flatten_iff_getElem?.2 ⟨i, hi⟩) (fun h => hdis hj h)
  | l :: B, i + 1, j + 1, a, hnd, hi, hj => by
    simp only [List.flatten_cons] at hnd
    simp only [List.getElem?_cons_succ] at hi hj
    rw [bucket_disjoint B i j a (List.nodup_append.1 hnd).2.1 hi hj]

theorem bucket_nodup :
    ∀ (B : List (List Nat)) (i : Nat), B.flatten.Nodup → ((B[i]?).getD []).Nodup
  | [], i, _ => by simp
  | l :: B, 0, hnd => by
    simp only [List.flatten_cons] at hnd
    simpa using (List.nodup_append.1 hnd).1
  | l :: B, i + 1, hnd => by
    simp only [List.flatten_cons] at hnd
    simp only [List.getElem?_cons_succ]
    exact bucket_nodup B i (List.nodup_append.1 hnd).2.1

theorem lastSlot_cons :
    ∀ (l : List Nat) (a : Nat) (s : Slot),
      lastSlot s (a :: l) = Slot.next ((a :: l).getLast (List.cons_ne_nil a l))
  | [], a, s => rfl
  | b :: l, a, s => by
    rw [lastSlot, lastSlot_cons l b (Slot.next a), List.getLast_cons (List.cons_ne_nil b l)]

/-- Linking a node `p` behind the last node of a chain appends `p` to the chain. -/
theorem Chain_snoc {heap heap' : Nat → Option simpaig} {p : Nat} {np : simpaig} (hp0 : p ≠ 0)
    (hp : heap' p = some np) (hnp : np.next = 0) :
    ∀ (l : List Nat) (a q : Nat) (nd : simpaig), Chain heap q (a :: l) → (a :: l).Nodup →
      p ∉ a :: l →
      heap ((a :: l).getLast (List.cons_ne_nil a l)) = some nd →
      heap' ((a :: l).getLast (List.cons_ne_nil a l)) = some { nd with next := p } →
      (∀ b ∈ a :: l, b ≠ (a :: l).getLast (List.cons_ne_nil a l) → heap' b = heap b) →
      Chain heap' q (a :: l ++ [p])
  | [], a, q, nd, hc, _, _, hl, hl', _ => by
    obtain ⟨hq, ha0, n, hn, hc'⟩ := hc
    simp only [List.getLast_singleton] at hl hl'
    exact ⟨hq, ha0, _, hl', rfl, hp0, np, hp, hnp⟩
  | b :: l, a, q, nd, hc, hnd, hpl, hl, hl', hout => by
    obtain ⟨hq, ha0, n, hn, hc'⟩ := hc
    rw [List.getLast_cons (List.cons_ne_nil b l)] at hl hl'
    have hab : a ∉ b :: l := (List.nodup_cons.1 hnd).1
    have hne : a ≠ (b :: l).getLast (List.cons_ne_nil b l) :=
      fun e => hab (e ▸ List.getLast_mem _)
    have ha' : heap' a = some n := by
      rw [hout a (List.mem_cons_self a _)
        (by rw [List.getLast_cons (List.cons_ne_nil b l)]; exact hne)]
      exact hn
    refine ⟨hq, ha0, n, ha', ?_⟩
    exact Chain_snoc hp0 hp hnp l b n.next nd hc' (List.nodup_cons.1 hnd).2
      (fun e => hpl (List.mem_cons_of_mem a e)) hl hl'
      (fun c hc1 hc2 => hout c (List.mem_cons_of_mem a hc1)
        (by rw [List.getLast_cons (List.cons_ne_nil b l)]; exact hc2))

/-- The effect of `insert_new` at the end of the chain of bucket `h`, on the memory and on
the bucket array. -/
theorem insert_new_run {m : simpaigmgr} {B : List (List Nat)} (hb : Buckets m B)
    (hnd : B.flatten.Nodup) {h : Nat} (hh : h < m.size_table) {p : Nat}
    (hfresh : m.heap p = none) (hp0 : p ≠ 0) (var slice c0 c1 : Nat) :
    ∃ m', insert_new m (lastSlot (Slot.bucket h) ((B[h]?).getD [])) p var slice c0 c1 =
        Except.ok m' ∧
      m'.heap p = some (newNode var slice c0 c1) ∧
      (∀ q, q ≠ p → (m'.heap q).map simpaig.unlink = (m.heap q).map simpaig.unlink) ∧
      (∀ j : Nat, Chain m'.heap ((m'.table[j]?).getD 0)
        (((B.set h ((B[h]?).getD [] ++ [p]))[j]?).getD [])) ∧
      m'.table.length = m.table.length ∧
      m'.count_table = (m.count_table + 1) % UINT ∧ m'.size_table = m.size_table ∧
      m'.false_aig = m.false_aig ∧ m'.freed = m.freed ∧
      m'.count_cached = m.count_cached ∧ m'.count_assigned = m.count_assigned := by
  have hpB : ∀ j : Nat, p ∉ (B[j]?).getD [] := by
    intro j hj
    obtain ⟨_, n, hn⟩ := Chain_mapped _ _ (hb.chains j) p hj
    rw [hfresh] at hn
    cases hn
  have hhB : h < B.length := by rw [hb.len_B]; exact hh
  have hhT : h < m.table.length := by rw [hb.len_table]; exact hh
  cases hl : (B[h]?).getD [] with
  | nil =>
    refine ⟨{ store (store m p simpaig.zero) p (newNode var slice c0 c1) with
        count_table := (m.count_table + 1) % UINT, table := m.table.set h p }, ?_, ?_, ?_, ?_,
      ?_, rfl, rfl, rfl, rfl, rfl, rfl⟩
    · simp only [insert_new, lastSlot, writeSlot, store_table, store_count_table]
      rw [if_pos hhT]
      rfl
    · show Function.update (Function.update m.heap p _) p _ p = _
      simp
    · intro q hq
      show Option.map _ (Function.update (Function.update m.heap p _) p _ q) = _
      rw [Function.update_noteq hq, Function.update_noteq hq]
    · intro j
      show Chain (Function.update (Function.update m.heap p _) p _)
        (((m.table.set h p)[j]?).getD 0) _
      rw [getElem?_set_getD, getElem?_set_getD]
      by_cases hj : h = j
      · subst hj
        rw [if_pos ⟨rfl, hhT⟩, if_pos ⟨rfl, hhB⟩]
        exact ⟨rfl, hp0, newNode var slice c0 c1, by simp, rfl⟩
      · rw [if_neg (fun c => hj c.1), if_neg (fun c => hj c.1)]
        refine Chain_congr _ _ (fun b hbj => ?_) (hb.chains j)
        have hbp : b ≠ p := fun e => hpB j (e ▸ hbj)
        rw [Function.update_noteq hbp, Function.update_noteq hbp]
    · show (m.table.set h p).length = _
      simp
  | cons a l =>
    have hchain := hb.chains h
    rw [hl] at hchain
    have hlast_mem : (a :: l).getLast (List.cons_ne_nil a l) ∈ (B[h]?).getD [] := by
      rw [hl]; exact List.getLast_mem _
    obtain ⟨_, ndl, hndl⟩ := Chain_mapped _ _ (hb.chains h) _ hlast_mem
    have hlp : (a :: l).getLast (List.cons_ne_nil a l) ≠ p := fun e => hpB h (e ▸ hlast_mem)
    refine ⟨{ store (store (store m p simpaig.zero) p (newNode var slice c0 c1))
        ((a :: l).getLast (List.cons_ne_nil a l)) { ndl with next := p } with
        count_table := (m.count_table + 1) % UINT }, ?_, ?_, ?_, ?_, rfl, rfl, rfl, rfl, rfl,
      rfl, rfl⟩
    · rw [lastSlot_cons]
      simp only [insert_new, writeSlot]
      have hld : load { store (store m p simpaig.zero) p
            { simpaig.zero with var := var, slice := slice, c0 := c0, c1 := c1 } with
          count_table := ((store (store m p simpaig.zero) p
            { simpaig.zero with var := var, slice := slice, c0 := c0, c1 := c1 }).count_table
              + 1) % UINT }
          ((a :: l).getLast (List.cons_ne_nil a l)) = Except.ok ndl := by
        apply load_of_heap
        show Function.update (Function.update m.heap p _) p _ _ = _
        rw [Function.update_noteq hlp, Function.update_noteq hlp]
        exact hndl
      rw [hld]
      rfl
    · show Function.update (Function.update (Function.update m.heap p _) p _) _ _ p = _
      rw [Function.update_noteq hlp.symm]
      simp
    · intro q hq
      show Option.map _ (Function.update (Function.update (Function.update m.heap p _) p _)
        _ _ q) = _
      by_cases hql : q = (a :: l).getLast (List.cons_ne_nil a l)
      · rw [hql, Function.update_same, hndl]
        rfl
      · rw [Function.update_noteq hql, Function.update_noteq hq, Function.update_noteq hq]
    · intro j
      show Chain (Function.update (Function.update (Function.update m.heap p _) p _) _ _)
        ((m.table[j]?).getD 0) _
      rw [getElem?_set_getD]
      by_cases hj : h = j
      · subst hj
        rw [if_pos ⟨rfl, hhB⟩]
        have hpl : p ∉ a :: l := by rw [← hl]; exact hpB h
        refine @Chain_snoc _ _ _ (newNode var slice c0 c1) hp0 ?_ rfl l a _ ndl hchain
          (by rw [← hl]; exact bucket_nodup B h hnd) hpl hndl ?_ ?_
        · rw [Function.update_noteq hlp.symm]
          simp
        · simp
        · intro b hbl hbne
          have hbp : b ≠ p := fun e => hpl (e ▸ hbl)
          rw [Function.update_noteq hbne, Function.update_noteq hbp, Function.update_noteq hbp]
      · rw [if_neg (fun c => hj c.1)]
        refine Chain_congr _ _ (fun b hbj => ?_) (hb.chains j)
        have hbp : b ≠ p := fun e => hpB j (e ▸ hbj)
        have hbl : b ≠ (a :: l).getLast (List.cons_ne_nil a l) := by
          intro e
          exact hj (bucket_disjoint B h j b hnd (e ▸ hlast_mem) hbj)
        rw [Function.update_noteq hbl, Function.update_noteq hbp, Function.update_noteq hbp]

/-! ## More fuel does not change a result -/

theorem find_loop_mono_le (m : simpaigmgr) (var slice c0 c1 : Nat) {f f' : Nat} (hle : f ≤ f')
    {s r : Slot} (h : simpaig_find_loop m var slice c0 c1 f s = Except.ok r) :
    simpaig_find_loop m var slice c0 c1 f' s = Except.ok r := by
  induction hle with
  | refl => exact h
  | step _ ih => exact find_loop_mono m var slice c0 c1 _ s r ih

theorem find_mono {m : simpaigmgr} {var slice c0 c1 : Nat} {f f' : Nat} (hle : f ≤ f')
    {r : Slot} (h : simpaig_find f m var slice c0 c1 = Except.ok r) :
    simpaig_find f' m var slice c0 c1 = Except.ok r :=
  find_loop_mono_le m var slice c0 c1 hle h

theorem enlarge_chain_mono :
    ∀ (f : Nat) (m : simpaigmgr) (p : Nat) (r : simpaigmgr),
      simpaig_enlarge_chain f m p = Except.ok r →
      simpaig_enlarge_chain (f + 1) m p = Except.ok r
  | 0, m, p, r, h => by simp [simpaig_enlarge_chain] at h
  | f + 1, m, p, r, h => by
    rw [simpaig_enlarge_chain] at h ⊢
    by_cases hp : p = 0
    · simpa [hp] using h
    · simp only [hp, if_false] at h ⊢
      obtain ⟨nd, hnd, h⟩ := bind_eq_ok h
      obtain ⟨hd, hhd, h⟩ := bind_eq_ok h
      obtain ⟨m2, hm2, h⟩ := bind_eq_ok h
      simp only [hnd, ok_bind, hhd, hm2]
      exact enlarge_chain_mono f m2 nd.next r h

theorem enlarge_chain_mono_le {f f' : Nat} (hle : f ≤ f') {m : simpaigmgr} {p : Nat}
    {r : simpaigmgr} (h : simpaig_enlarge_chain f m p = Except.ok r) :
    simpaig_enlarge_chain f' m p = Except.ok r := by
  induction hle with
  | refl => exact h
  | step _ ih => exact enlarge_chain_mono _ m p r ih

theorem enlarge_loop_mono {f f' : Nat} (hle : f ≤ f') (old : List Nat) :
    ∀ (is : List Nat) (m r : simpaigmgr),
      simpaig_enlarge_loop f old is m = Except.ok r →
      simpaig_enlarge_loop f' old is m = Except.ok r
  | [], m, r, h => h
  | i :: is, m, r, h => by
    rw [simpaig_enlarge_loop] at h ⊢
    cases ho : old[i]? with
    | none => rw [ho] at h; simp at h
    | some p =>
      rw [ho] at h
      simp only at h ⊢
      obtain ⟨m1, hm1, h⟩ := bind_eq_ok h
      rw [enlarge_chain_mono_le hle hm1]
      exact enlarge_loop_mono hle old is m1 r h

theorem enlarge_mono {f f' : Nat} (hle : f ≤ f') {m r : simpaigmgr}
    (h : simpaig_enlarge f m = Except.ok r) : simpaig_enlarge f' m = Except.ok r := by
  unfold simpaig_enlarge at h ⊢
  dsimp only at h ⊢
  obtain ⟨m2, hm2, h2⟩ := bind_eq_ok h
  rw [enlarge_loop_mono hle _ _ _ _ hm2]
  exact h2

/-! ## A table that cannot be doubled -/

theorem enlarge_chain_null (f : Nat) (m r : simpaigmgr)
    (h : simpaig_enlarge_chain f m 0 = Except.ok r) : r = m := by
  cases f with
  | zero => simp [simpaig_enlarge_chain] at h
  | succ f => simpa [simpaig_enlarge_chain] using h.symm

theorem enlarge_chain_empty_table (f : Nat) (m : simpaigmgr) (ht : m.table = []) {p : Nat}
    (hp : p ≠ 0) (r : simpaigmgr) : simpaig_enlarge_chain f m p ≠ Except.ok r := by
  intro h
  cases f with
  | zero => simp [simpaig_enlarge_chain] at h
  | succ f =>
    rw [simpaig_enlarge_chain] at h
    simp only [hp, if_false] at h
    obtain ⟨nd, _, h⟩ := bind_eq_ok h
    obtain ⟨hd, hhd, _⟩ := bind_eq_ok h
    simp [readSlot, ht] at hhd

theorem enlarge_loop_empty_table (f : Nat) (old : List Nat) :
    ∀ (is : List Nat) (m : simpaigmgr), m.table = [] →
      (∃ i ∈ is, ∃ p, old[i]? = some p ∧ p ≠ 0) →
      ∀ r, simpaig_enlarge_loop f old is m ≠ Except.ok r
  | [], m, _, hex, r => by
    obtain ⟨i, hi, _⟩ := hex
    simp at hi
  | i :: is, m, ht, hex, r => by
    intro h
    rw [simpaig_enlarge_loop] at h
    cases ho : old[i]? with
    | none => rw [ho] at h; simp at h
    | some p =>
      rw [ho] at h
      simp only at h
      obtain ⟨m1, hm1, h2⟩ := bind_eq_ok h
      by_cases hp : p = 0
      · subst hp
        have := enlarge_chain_null f m m1 hm1
        subst this
        obtain ⟨j, hj, q, hq, hq0⟩ := hex
        rcases List.mem_cons.1 hj with e | e
        · subst e
          rw [ho] at hq
          cases hq
          exact hq0 rfl
        · exact enlarge_loop_empty_table f old is m1 ht ⟨j, e, q, hq, hq0⟩ r h2
      · exact enlarge_chain_empty_table f m ht hp m1 hm1

/-- When the table holds `2 ^ 31` buckets, the doubled size wraps to `0` and `simpaig_enlarge`
does not return: it indexes the empty array. -/
theorem enlarge_overflow {m : simpaigmgr} {B : List (List Nat)} (h : TableOK m B)
    (hs : 2 ^ 31 ≤ m.size_table) (hc : m.size_table = m.count_table) (f : Nat)
    (r : simpaigmgr) : simpaig_enlarge f m ≠ Except.ok r := by
  intro hrun
  have hsz : m.size_table = 2 ^ 31 := by
    rcases h.size_pow with h0 | ⟨k, hk, hk2⟩
    · omega
    · have : 2 ^ k ≤ 2 ^ 31 := Nat.pow_le_pow_right (by decide) hk
      omega
  unfold simpaig_enlarge at hrun
  dsimp only at hrun
  obtain ⟨m2, hm2, _⟩ := bind_eq_ok hrun
  have hnew : (if m.size_table ≠ 0 then 2 * m.size_table % UINT else 1) = 0 := by
    rw [hsz]; decide
  rw [hnew] at hm2
  have hne : B.flatten ≠ [] := by
    intro e
    have := h.count
    rw [e] at this
    simp at this
    omega
  obtain ⟨a, ha⟩ := List.exists_mem_of_ne_nil _ hne
  obtain ⟨i, hi⟩ := mem_flatten_iff_getElem?.1 ha
  have hiB : i < B.length := by
    by_contra hcon
    rw [List.getElem?_eq_none (by omega)] at hi
    simp at hi
  have hiT : i < m.table.length := by
    rw [h.buckets.len_table, ← h.buckets.len_B]; exact hiB
  have hchain := h.buckets.chains i
  have hp0 : (m.table[i]?).getD 0 ≠ 0 := by
    intro e
    rw [e] at hchain
    cases hl : (B[i]?).getD [] with
    | nil => rw [hl] at hi; simp at hi
    | cons b l =>
      rw [hl] at hchain
      obtain ⟨h1, h2, _⟩ := hchain
      exact h2 h1.symm
  refine enlarge_loop_empty_table f m.table (List.range m.size_table) _ rfl
    ⟨i, List.mem_range.2 (by rw [← h.buckets.len_table]; exact hiT), (m.table[i]?).getD 0, ?_,
      hp0⟩ m2 hm2
  simp [List.getElem?_eq_getElem hiT]

/-! ## The two ways the table part of a constructor ends -/

theorem unlink_key (n : simpaig) : n.unlink.key = n.key := rfl

theorem unlink_ref (n : simpaig) : n.unlink.ref = n.ref := rfl

theorem of_map_unlink_eq {h h' : Nat → Option simpaig} {q : Nat}
    (e : (h' q).map simpaig.unlink = (h q).map simpaig.unlink) {n : simpaig}
    (hn : h' q = some n) : ∃ n0, h q = some n0 ∧ n0.key = n.key ∧ n0.ref = n.ref := by
  rw [hn] at e
  cases h0 : h q with
  | none => rw [h0] at e; simp at e
  | some n0 =>
    rw [h0] at e
    simp only [Option.map_some', Option.some.injEq] at e
    refine ⟨n0, rfl, ?_, ?_⟩
    · rw [← unlink_key n0, ← e, unlink_key]
    · rw [← unlink_ref n0, ← e, unlink_ref]

theorem Kept.refl_kept (m : simpaigmgr) : Kept m m :=
  ⟨SameButNext.refl_next _, rfl, rfl, le_refl _, rfl, rfl⟩

theorem Kept.inserted {m m1 m2 : simpaigmgr} {p : Nat} {nd : simpaig} (a : Kept m m1)
    (b : Inserted m1 m2 p nd) : Inserted m m2 p nd := by
  refine ⟨?_, b.node, ?_, by rw [b.count, a.count], by rw [b.false_aig, a.false_aig],
    le_trans a.size_le b.size_le, by rw [b.cached, a.cached], by rw [b.assigned, a.assigned]⟩
  · have := a.heap p
    rw [b.fresh] at this
    cases hp : m.heap p with
    | none => rfl
    | some n => rw [hp] at this; simp at this
  · intro q hq
    rw [b.others q hq, a.heap q]

theorem TableOK.not_fresh {m : simpaigmgr} {B : List (List Nat)} (h : TableOK m B) {p : Nat}
    (hp : m.heap p = none) : p ∉ B.flatten := by
  intro hmem
  obtain ⟨_, n, hn⟩ := h.buckets.mapped_bucket hmem
  rw [hp] at hn
  cases hn

/-- Function `insert_new` at the end of the chain of the bucket of a key that no node has,
neither as it is nor with the children swapped: the table and the memory stay well formed. -/
theorem insert_new_spec {m : simpaigmgr} {B : List (List Nat)} (h : TableOK m B)
    (hh : HeapOK m) (hlt : m.count_table < m.size_table) {var slice c0 c1 p : Nat}
    (hfresh : m.heap p = none) (hp : p % 2 = 0) (hp0 : p ≠ 0)
    (hshape : var ≠ 0 ∨ c0 ≠ 0) (hleaf : var ≠ 0 → c0 = 0 ∧ c1 = 0)
    (hk : ∀ a ∈ B.flatten, ∀ n, m.heap a = some n → n.key ≠ (var, slice, c0, c1))
    (hk' : ∀ a ∈ B.flatten, ∀ n, m.heap a = some n → n.key ≠ (var, slice, c1, c0)) :
    ∃ m', insert_new m (lastSlot (Slot.bucket (simpaig_hash m var slice c0 c1))
        ((B[simpaig_hash m var slice c0 c1]?).getD [])) p var slice c0 c1 = Except.ok m' ∧
      TableOK m' (B.set (simpaig_hash m var slice c0 c1)
        ((B[simpaig_hash m var slice c0 c1]?).getD [] ++ [p])) ∧
      HeapOK m' ∧ Inserted m m' p (newNode var slice c0 c1) ∧
      m'.size_table = m.size_table := by
  have hs : m.size_table ≠ 0 := by omega
  have hpow := h.powSize hs
  have hlt' := hpow.hash_lt var slice c0 c1
  obtain ⟨m', hrun, hnode, hothers, hchains, hlen, hcount, hsize, hfalse, hfreed, hcach, hass⟩ :=
    insert_new_run h.buckets h.nodup hlt' hfresh hp0 var slice c0 c1
  have hpB : p ∉ B.flatten := h.not_fresh hfresh
  have hhB : simpaig_hash m var slice c0 c1 < B.length := by rw [h.buckets.len_B]; exact hlt'
  have hperm := flatten_set_append_perm p B _ hhB
  have hcnt : (m.count_table + 1) % UINT = m.count_table + 1 := by
    apply Nat.mod_eq_of_lt
    obtain ⟨k, hk1, hk2⟩ := hpow
    have : 2 ^ k ≤ 2 ^ 31 := Nat.pow_le_pow_right (by decide) hk1
    unfold UINT
    omega
  have hfp : m.false_aig ≠ p := by
    intro e
    obtain ⟨n, hn, _⟩ := hh.false_node
    rw [e, hfresh] at hn
    cases hn
  have hkeyall : ∀ a n, m.heap a = some n → n.key ≠ (var, slice, c0, c1) := by
    intro a n hn e
    rcases h.dom a n hn with ha | ha
    · obtain ⟨nf, hnf, hkf⟩ := hh.false_node
      rw [ha, hnf] at hn
      cases hn
      rw [hkf] at e
      simp only [Prod.mk.injEq] at e
      rcases hshape with hv | hc
      · exact hv e.1.symm
      · exact hc e.2.2.1.symm
    · exact hk a ha n hn e
  have hkeyall' : ∀ a n, m.heap a = some n → n.key ≠ (var, slice, c1, c0) := by
    intro a n hn e
    rcases h.dom a n hn with ha | ha
    · obtain ⟨nf, hnf, hkf⟩ := hh.false_node
      rw [ha, hnf] at hn
      cases hn
      rw [hkf] at e
      simp only [Prod.mk.injEq] at e
      rcases hshape with hv | hc
      · exact hv e.1.symm
      · exact hc e.2.2.2.symm
    · exact hk' a ha n hn e
  have hold : ∀ q n, q ≠ p → m'.heap q = some n →
      ∃ n0, m.heap q = some n0 ∧ n0.key = n.key ∧ n0.ref = n.ref :=
    fun q n hq hn => of_map_unlink_eq (hothers q hq) hn
  have hisp : ∀ n, m'.heap p = some n → n = newNode var slice c0 c1 := by
    intro n hn
    rw [hnode] at hn
    cases hn
    rfl
  refine ⟨m', hrun, ?_, ?_, ?_, hsize⟩
  · refine ⟨⟨by rw [hlen, hsize]; exact h.buckets.len_table,
        by rw [List.length_set, hsize]; exact h.buckets.len_B, hchains, ?_⟩,
      hperm.nodup_iff.2 (List.nodup_cons.2 ⟨hpB, h.nodup⟩), ?_, ?_, ?_, ?_, ?_⟩
    · intro j b hbj n hn
      rw [getElem?_set_getD] at hbj
      rw [simpaig_hash_congr hsize]
      by_cases hbp : b = p
      · subst hbp
        rw [hisp n hn]
        by_cases hj : simpaig_hash m var slice c0 c1 = j ∧ simpaig_hash m var slice c0 c1 < B.length
        · exact hj.1
        · rw [if_neg hj] at hbj
          exact absurd (mem_flatten_iff_getElem?.2 ⟨j, hbj⟩) hpB
      · obtain ⟨n0, hn0, hk0, _⟩ := hold b n hbp hn
        rw [← hash_of_key_eq m hk0]
        by_cases hj : simpaig_hash m var slice c0 c1 = j ∧ simpaig_hash m var slice c0 c1 < B.length
        · rw [if_pos hj] at hbj
          rcases List.mem_append.1 hbj with e | e
          · rw [← hj.1]
            exact h.buckets.bucket _ b e n0 hn0
          · simp at e
            exact absurd e hbp
        · rw [if_neg hj] at hbj
          exact h.buckets.bucket j b hbj n0 hn0
    · rw [hcount, hcnt, hperm.length_eq, List.length_cons, h.count]
    · rw [hcount, hcnt, hsize]; omega
    · right
      obtain ⟨k, hk1, hk2⟩ := hpow
      exact ⟨k, hk1, by rw [hsize]; exact hk2⟩
    · intro q n hn
      rw [hfalse]
      by_cases hqp : q = p
      · right
        rw [hqp]
        exact hperm.mem_iff.2 (List.mem_cons_self p _)
      · obtain ⟨n0, hn0, _⟩ := hold q n hqp hn
        rcases h.dom q n0 hn0 with e | e
        · exact Or.inl e
        · exact Or.inr (hperm.mem_iff.2 (List.mem_cons_of_mem p e))
    · rw [hfalse]
      intro e
      rcases List.mem_cons.1 (hperm.mem_iff.1 e) with e1 | e1
      · exact hfp e1
      · exact h.false_notin e1
  · refine ⟨?_, ?_, ?_, ?_, ?_, ?_⟩
    · obtain ⟨nf, hnf, hkf⟩ := hh.false_node
      have := hothers m.false_aig hfp
      rw [hnf] at this
      cases hf' : m'.heap m.false_aig with
      | none => rw [hf'] at this; simp at this
      | some n' =>
        obtain ⟨n0, hn0, hk0, _⟩ := hold _ n' hfp hf'
        rw [hnf] at hn0
        cases hn0
        exact ⟨n', by rw [hfalse]; exact hf', by rw [← hk0]; exact hkf⟩
    · intro q n hn
      by_cases hqp : q = p
      · rw [hqp]; exact ⟨hp, hp0⟩
      · obtain ⟨n0, hn0, _⟩ := hold q n hqp hn
        exact hh.aligned q n0 hn0
    · intro q n hn hqf
      by_cases hqp : q = p
      · subst hqp
        rw [hisp n hn]
        exact hshape
      · obtain ⟨n0, hn0, hk0, _⟩ := hold q n hqp hn
        obtain ⟨e1, _, e3, _⟩ := key_fields hk0
        rw [← e1, ← e3]
        exact hh.shape q n0 hn0 (by rw [← hfalse]; exact hqf)
    · intro q n hn hv
      by_cases hqp : q = p
      · subst hqp
        rw [hisp n hn] at hv ⊢
        exact hleaf hv
      · obtain ⟨n0, hn0, hk0, _⟩ := hold q n hqp hn
        obtain ⟨e1, _, e3, e4⟩ := key_fields hk0
        rw [← e3, ← e4]
        exact hh.leaf q n0 hn0 (by rw [e1]; exact hv)
    · intro q q' n n' hn hn' hkey
      by_cases hqp : q = p
      · by_cases hqp' : q' = p
        · rw [hqp, hqp']
        · exfalso
          obtain ⟨n0, hn0, hk0, _⟩ := hold q' n' hqp' hn'
          rw [hqp] at hn
          rw [hisp n hn] at hkey
          exact hkeyall q' n0 hn0 (hk0.trans hkey.symm)
      · by_cases hqp' : q' = p
        · exfalso
          obtain ⟨n0, hn0, hk0, _⟩ := hold q n hqp hn
          rw [hqp'] at hn'
          rw [hisp n' hn'] at hkey
          exact hkeyall q n0 hn0 (hk0.trans hkey)
        · obtain ⟨n0, hn0, hk0, _⟩ := hold q n hqp hn
          obtain ⟨n1, hn1, hk1, _⟩ := hold q' n' hqp' hn'
          exact hh.uniq q q' n0 n1 hn0 hn1 (hk0.trans (hkey.trans hk1.symm))
    · intro q q' n n' hn hn' e1 e2 e3 e4
      by_cases hqp : q = p
      · by_cases hqp' : q' = p
        · rw [hqp, hqp']
        · exfalso
          obtain ⟨n0, hn0, hk0, _⟩ := hold q' n' hqp' hn'
          rw [hqp] at hn
          rw [hisp n hn] at e1 e2 e3 e4
          obtain ⟨a1, a2, a3, a4⟩ := key_fields hk0
          refine hkeyall' q' n0 hn0 ?_
          unfold simpaig.key
          rw [a1, a2, a3, a4, ← e1, ← e2, ← e3, ← e4]
          rfl
      · by_cases hqp' : q' = p
        · exfalso
          obtain ⟨n0, hn0, hk0, _⟩ := hold q n hqp hn
          rw [hqp'] at hn'
          rw [hisp n' hn'] at e1 e2 e3 e4
          obtain ⟨a1, a2, a3, a4⟩ := key_fields hk0
          refine hkeyall' q n0 hn0 ?_
          unfold simpaig.key
          rw [a1, a2, a3, a4, e1, e2, e3, e4]
          rfl
        · obtain ⟨n0, hn0, hk0, _⟩ := hold q n hqp hn
          obtain ⟨n1, hn1, hk1, _⟩ := hold q' n' hqp' hn'
          obtain ⟨a1, a2, a3, a4⟩ := key_fields hk0
          obtain ⟨b1, b2, b3, b4⟩ := key_fields hk1
          exact hh.comm q q' n0 n1 hn0 hn1 (by rw [a1, b1, e1]) (by rw [a2, b2, e2])
            (by rw [a3, b4, e3]) (by rw [a4, b3, e4])
  · exact ⟨hfresh, hnode, hothers, by rw [hcount, hcnt], hfalse, by rw [hsize], hcach, hass⟩

/-! ## The optional doubling at the start of the constructors -/

theorem maybe_enlarge_ok {m : simpaigmgr} {B : List (List Nat)} (h : TableOK m B)
    (hh : HeapOK m) {fuel : Nat} {m1 : simpaigmgr}
    (hrun : (if m.size_table = m.count_table then simpaig_enlarge fuel m else pure m) =
      Except.ok m1) :
    ∃ B1, TableOK m1 B1 ∧ HeapOK m1 ∧ Kept m m1 ∧ m1.count_table < m1.size_table ∧
      B1.flatten.Perm B.flatten ∧ m.count_table < 2 ^ 31 := by
  by_cases hsc : m.size_table = m.count_table
  · rw [if_pos hsc] at hrun
    by_cases hbig : 2 ^ 31 ≤ m.size_table
    · exact absurd hrun (enlarge_overflow h hbig hsc fuel m1)
    · have hs : m.size_table < 2 ^ 31 := by omega
      obtain ⟨m', B', hrun', htab, hperm, hsame, hsz, hgt, hct, hfa, hca, has, _⟩ :=
        enlarge_spec h hs (max fuel (m.count_table + 1)) (by omega)
      have := enlarge_mono (le_max_left fuel (m.count_table + 1)) hrun
      rw [hrun'] at this
      cases this
      exact ⟨B', htab, hh.transfer_heap hsame.keys_of_next hfa, ⟨hsame, hct, hfa, le_of_lt hgt, hca, has⟩,
        by rw [hct, ← hsc]; exact hgt, hperm, by omega⟩
  · rw [if_neg hsc] at hrun
    cases hrun
    have hle := h.count_le
    have hlt : m.count_table < m.size_table := by omega
    refine ⟨B, h, hh, Kept.refl_kept m, hlt, List.Perm.refl _, ?_⟩
    rcases h.size_pow with h0 | ⟨k, hk, hk2⟩
    · omega
    · have : 2 ^ k ≤ 2 ^ 31 := Nat.pow_le_pow_right (by decide) hk
      omega

theorem maybe_enlarge_total {m : simpaigmgr} {B : List (List Nat)} (h : TableOK m B)
    (hs : m.count_table < 2 ^ 31) {fuel : Nat} (hf : m.count_table < fuel) :
    ∃ m1, (if m.size_table = m.count_table then simpaig_enlarge fuel m else pure m) =
      Except.ok m1 := by
  by_cases hsc : m.size_table = m.count_table
  · rw [if_pos hsc]
    obtain ⟨m', _, hrun', _⟩ := enlarge_spec h (by omega) fuel hf
    exact ⟨m', hrun'⟩
  · rw [if_neg hsc]
    exact ⟨m, rfl⟩

theorem maybe_enlarge_mono {f f' : Nat} (hle : f ≤ f') {m m1 : simpaigmgr}
    (h : (if m.size_table = m.count_table then simpaig_enlarge f m else pure m) = Except.ok m1) :
    (if m.size_table = m.count_table then simpaig_enlarge f' m else pure m) = Except.ok m1 := by
  by_cases hsc : m.size_table = m.count_table
  · rw [if_pos hsc] at h ⊢
    exact enlarge_mono hle h
  · rw [if_neg hsc] at h ⊢
    exact h

theorem Inv.store_ref {m : simpaigmgr} (h : Inv m) {p : Nat} {n : simpaig}
    (hn : m.heap p = some n) (r : Nat) : Inv (store m p { n with ref := r }) := by
  obtain ⟨hh, B, ht⟩ := h
  have hs := store_ref_sameButRef hn r
  exact ⟨hh.transfer_heap hs.keys_of_ref rfl, B, ht.transfer_table rfl rfl rfl rfl hs.keys_of_ref hs.next_of_ref⟩

theorem Inv.after_inc {NDEBUG : Bool} {m m' : simpaigmgr} {res r : Nat} (h : Inv m)
    (hrun : inc NDEBUG m res = Except.ok (m', r)) : Inv m' := by
  obtain ⟨_, n, hn, rfl⟩ := inc_ok hrun
  exact h.store_ref hn _

/-! ## Function `simpaig_var` -/

theorem simpaig_var_eq (NDEBUG : Bool) (fuel : Nat) (m : simpaigmgr) (var slice fresh : Nat) :
    simpaig_var NDEBUG fuel m var slice fresh =
      if (!NDEBUG && var == 0) = true then Except.error Err.assertion
      else
        (if m.size_table = m.count_table then simpaig_enlarge fuel m else pure m) >>= fun m1 =>
        simpaig_find fuel m1 var slice 0 0 >>= fun p =>
        readSlot m1 p >>= fun res =>
        if res = 0 then insert_new m1 p fresh var slice 0 0 >>= fun m2 => inc NDEBUG m2 fresh
        else inc NDEBUG m1 res := by
  unfold simpaig_var
  by_cases h1 : (!NDEBUG && var == 0) = true <;>
    by_cases h2 : m.size_table = m.count_table <;> simp only [h1, h2, if_true, if_false] <;> rfl

theorem simpaig_and_eq (NDEBUG : Bool) (fuel : Nat) (m : simpaigmgr) (c0 c1 fresh : Nat) :
    simpaig_and NDEBUG fuel m c0 c1 fresh =
      ISFALSE m c0 >>= fun f0 =>
      (if f0 = true then pure true else ISFALSE m c1) >>= fun f1 =>
      if (f1 || c0 == NOT c1) = true then simpaig_false NDEBUG m
      else
        ISTRUE m c0 >>= fun t0 =>
        if (t0 || c0 == c1) = true then inc NDEBUG m c1
        else
          ISTRUE m c1 >>= fun t1 =>
          if t1 = true then inc NDEBUG m c0
          else
            (if m.size_table = m.count_table then simpaig_enlarge fuel m else pure m) >>=
            fun m1 =>
            simpaig_find fuel m1 0 0 c1 c0 >>= fun p =>
            readSlot m1 p >>= fun res =>
            if res ≠ 0 then inc NDEBUG m1 res
            else
              simpaig_find fuel m1 0 0 c0 c1 >>= fun p =>
              readSlot m1 p >>= fun res =>
              if res ≠ 0 then inc NDEBUG m1 res
              else insert_new m1 p fresh 0 0 c0 c1 >>= fun m2 => inc NDEBUG m2 fresh := by
  unfold simpaig_and
  generalize ISFALSE m c0 = x
  cases x with
  | error e => rfl
  | ok f0 =>
    cases f0 <;> by_cases h2 : m.size_table = m.count_table <;>
      simp only [h2, if_true, if_false, ok_bind, Bool.false_eq_true]

theorem key_eq_tuple {n : simpaig} {a b c d : Nat} (h : n.key = (a, b, c, d)) :
    n.var = a ∧ n.slice = b ∧ n.c0 = c ∧ n.c1 = d := by
  unfold simpaig.key at h
  simpa only [Prod.mk.injEq] using h

theorem simpaig_var_mono {NDEBUG : Bool} {f f' : Nat} (hle : f ≤ f') {m : simpaigmgr}
    {var slice fresh : Nat} {res : simpaigmgr × Nat}
    (h : simpaig_var NDEBUG f m var slice fresh = Except.ok res) :
    simpaig_var NDEBUG f' m var slice fresh = Except.ok res := by
  rw [simpaig_var_eq] at h ⊢
  split at h
  · simp at h
  · rename_i hc
    rw [if_neg hc]
    obtain ⟨m1, hm1, h1⟩ := bind_eq_ok h
    obtain ⟨p, hp, h2⟩ := bind_eq_ok h1
    rw [maybe_enlarge_mono hle hm1]
    simp only [ok_bind]
    rw [find_mono hle hp]
    exact h2

/-- The run of `simpaig_var` with enough fuel, up to its final `inc (res)`. -/
theorem simpaig_var_run (NDEBUG : Bool) {m : simpaigmgr} (hinv : Inv m) {var : Nat}
    (slice : Nat) {fresh : Nat}
    (hvar : var ≠ 0) (hfresh : m.heap fresh = none) (hp : fresh % 2 = 0) (hp0 : fresh ≠ 0)
    (hs : m.count_table < 2 ^ 31) :
    ∃ m2 r, Inv m2 ∧ VarPre m m2 var slice fresh r ∧
      ∀ fuel, m.count_table < fuel →
        simpaig_var NDEBUG fuel m var slice fresh = inc NDEBUG m2 r := by
  obtain ⟨hh, B, ht⟩ := hinv
  obtain ⟨m1, hrun1⟩ := maybe_enlarge_total ht hs (Nat.lt_succ_self _)
  obtain ⟨B1, ht1, hh1, hkept, hlt1, hperm, _⟩ := maybe_enlarge_ok ht hh hrun1
  have hs1 : m1.size_table ≠ 0 := by omega
  have hstart : ∀ fuel, m.count_table < fuel →
      (if m.size_table = m.count_table then simpaig_enlarge fuel m else pure m) =
        Except.ok m1 := fun fuel hf => maybe_enlarge_mono hf hrun1
  have hvar0 : (var == 0) = false := by simpa using hvar
  by_cases hex : ∃ a n, m.heap a = some n ∧ n.key = (var, slice, 0, 0)
  · obtain ⟨a, n, hn, hkey⟩ := hex
    have haf : a ≠ m.false_aig := by
      intro e
      obtain ⟨nf, hnf, hkf⟩ := hh.false_node
      rw [e, hnf] at hn
      cases hn
      rw [hkf] at hkey
      simp only [Prod.mk.injEq] at hkey
      exact hvar hkey.1.symm
    obtain ⟨n1, hn1, hk1⟩ := hkept.heap.keys_of_next.mapped_keys hn
    have ha1 : a ∈ B1.flatten := hperm.mem_iff.2 (ht.mem_flatten hn haf)
    have ha0 : a ≠ 0 := (ht1.buckets.mapped_bucket ha1).1
    refine ⟨m1, a, ⟨hh1, B1, ht1⟩, Or.inl ⟨hkept, haf, n, hn, hkey⟩, ?_⟩
    intro fuel hf
    obtain ⟨r, hfind, hread⟩ := find_hit ht1 hh1 hs1 ha1 hn1 fuel
      (by rw [hkept.count]; exact hf)
    obtain ⟨e1, e2, e3, e4⟩ := key_eq_tuple (hk1.trans hkey)
    rw [e1, e2, e3, e4] at hfind
    rw [simpaig_var_eq]
    simp only [hvar0, Bool.and_false, Bool.false_eq_true, if_false, hstart fuel hf, ok_bind,
      hfind, hread, ha0]
  · have hmiss : ∀ a ∈ B1.flatten, ∀ n, m1.heap a = some n → n.key ≠ (var, slice, 0, 0) := by
      intro a _ n1 hn1 hkey
      obtain ⟨n, hn, hk⟩ := hkept.heap.keys_of_next.symm_keys.mapped_keys hn1
      exact hex ⟨a, n, hn, hk.trans hkey⟩
    have hfresh1 : m1.heap fresh = none := by
      have := hkept.heap fresh
      rw [hfresh] at this
      cases h1 : m1.heap fresh with
      | none => rfl
      | some n => rw [h1] at this; simp at this
    obtain ⟨m2, hins, ht2, hh2, hinserted, _⟩ :=
      insert_new_spec ht1 hh1 hlt1 hfresh1 hp hp0 (Or.inl hvar) (fun _ => ⟨rfl, rfl⟩) hmiss hmiss
    refine ⟨m2, fresh, ⟨hh2, _, ht2⟩, Or.inr ⟨fun a n hn hk => hex ⟨a, n, hn, hk⟩, rfl,
      hkept.inserted hinserted⟩, ?_⟩
    intro fuel hf
    obtain ⟨hfind, hread⟩ := find_miss ht1 hs1 hmiss fuel
      (by rw [hkept.count]; exact hf)
    rw [simpaig_var_eq]
    simp only [hvar0, Bool.and_false, Bool.false_eq_true, if_false, hstart fuel hf, ok_bind,
      hfind, hread, if_true, hins]

/-- Whenever `simpaig_var` returns, with whatever fuel, it has run as `simpaig_var_run`
describes. -/
theorem simpaig_var_ok {NDEBUG : Bool} {m : simpaigmgr} (hinv : Inv m)
    {var slice fresh fuel : Nat} (hvar : var ≠ 0) (hfresh : m.heap fresh = none)
    (hp : fresh % 2 = 0) (hp0 : fresh ≠ 0) {res : simpaigmgr × Nat}
    (hrun : simpaig_var NDEBUG fuel m var slice fresh = Except.ok res) :
    m.count_table < 2 ^ 31 ∧ ∃ m2 r, Inv m2 ∧ VarPre m m2 var slice fresh r ∧
      inc NDEBUG m2 r = Except.ok res := by
  obtain ⟨hh, B, ht⟩ := hinv
  have hs : m.count_table < 2 ^ 31 := by
    rw [simpaig_var_eq] at hrun
    split at hrun
    · simp at hrun
    · obtain ⟨m1, hm1, _⟩ := bind_eq_ok hrun
      exact (maybe_enlarge_ok ht hh hm1).choose_spec.2.2.2.2.2
  obtain ⟨m2, r, hinv2, hpre, hall⟩ :=
    simpaig_var_run NDEBUG ⟨hh, B, ht⟩ slice hvar hfresh hp hp0 hs
  refine ⟨hs, m2, r, hinv2, hpre, ?_⟩
  rw [← hall (max fuel (m.count_table + 1)) (by omega)]
  exact simpaig_var_mono (le_max_left _ _) hrun

/-! ## Function `simpaig_and`: the rules applied before the table is consulted -/

theorem SIGN_ne_zero_iff (p : Nat) : SIGN p ≠ 0 ↔ p % 2 = 1 := by
  rw [SIGN_eq]; omega

theorem ISFALSE_eq {m : simpaigmgr} (hh : HeapOK m) {r : Nat}
    (hr : ∃ n, m.heap (STRIP r) = some n) :
    ISFALSE m r = Except.ok (decide (r = m.false_aig)) := by
  obtain ⟨n, hn⟩ := hr
  obtain ⟨nf, hnf, hkf⟩ := hh.false_node
  have hfe := (hh.aligned _ _ hnf).1
  unfold ISFALSE
  by_cases hs : SIGN r ≠ 0
  · rw [if_pos hs]
    have : r ≠ m.false_aig := by
      intro e
      rw [SIGN_ne_zero_iff] at hs
      omega
    simp [this]
  · rw [if_neg hs]
    have hev : r % 2 = 0 := by
      rw [SIGN_ne_zero_iff] at hs; omega
    rw [STRIP_even hev] at hn
    simp only [load_of_heap hn, ok_bind, pure_eq_ok, Except.ok.injEq]
    by_cases hrf : r = m.false_aig
    · rw [hrf, hnf] at hn
      cases hn
      obtain ⟨e1, _, e3, _⟩ := key_eq_tuple hkf
      simp [hrf, e1, e3]
    · have := hh.shape r n hn hrf
      simp only [hrf, decide_False, Bool.and_eq_false_imp, beq_iff_eq]
      intro hv
      rcases this with h1 | h1
      · exact absurd hv h1
      · simpa using h1

theorem ISTRUE_eq {m : simpaigmgr} (hh : HeapOK m) {r : Nat}
    (hr : ∃ n, m.heap (STRIP r) = some n) :
    ISTRUE m r = Except.ok (decide (r = NOT m.false_aig)) := by
  obtain ⟨nf, hnf, _⟩ := hh.false_node
  have hfe := (hh.aligned _ _ hnf).1
  unfold ISTRUE
  by_cases hs : SIGN r ≠ 0
  · rw [if_pos hs, ISFALSE_eq hh (by rw [STRIP_NOT]; exact hr)]
    congr 1
    by_cases e : r = NOT m.false_aig
    · simp [e, NOT_NOT]
    · have : NOT r ≠ m.false_aig := fun e' => e (by rw [← e', NOT_NOT])
      simp [e, this]
  · rw [if_neg hs]
    have hev : r % 2 = 0 := by
      rw [SIGN_ne_zero_iff] at hs; omega
    have : r ≠ NOT m.false_aig := by
      rw [NOT_even hfe]; omega
    simp [this]

/-- If both `ISFALSE (c)` and `ISTRUE (c)` could be evaluated, the node of `c` is in memory. -/
theorem mapped_of_tests {m : simpaigmgr} {c : Nat} {b b' : Bool}
    (h1 : ISFALSE m c = Except.ok b) (h2 : ISTRUE m c = Except.ok b') :
    ∃ n, m.heap (STRIP c) = some n := by
  by_cases hs : SIGN c ≠ 0
  · have hodd : c % 2 = 1 := (SIGN_ne_zero_iff c).1 hs
    unfold ISTRUE at h2
    rw [if_pos hs] at h2
    unfold ISFALSE at h2
    have hs' : ¬ SIGN (NOT c) ≠ 0 := by
      rw [SIGN_ne_zero_iff, NOT_odd hodd]; omega
    rw [if_neg hs'] at h2
    obtain ⟨n, hn, _⟩ := bind_eq_ok h2
    rw [← STRIP_NOT, STRIP_even (by rw [NOT_odd hodd]; omega)]
    exact ⟨n, load_eq_ok.1 hn⟩
  · have hev : c % 2 = 0 := by
      rw [SIGN_ne_zero_iff] at hs; omega
    unfold ISFALSE at h1
    rw [if_neg hs] at h1
    obtain ⟨n, hn, _⟩ := bind_eq_ok h1
    rw [STRIP_even hev]
    exact ⟨n, load_eq_ok.1 hn⟩

theorem simpaig_and_eq_table (NDEBUG : Bool) (fuel : Nat) (m : simpaigmgr) (c0 c1 fresh : Nat) :
    simpaig_and NDEBUG fuel m c0 c1 fresh =
      ISFALSE m c0 >>= fun f0 =>
      (if f0 = true then pure true else ISFALSE m c1) >>= fun f1 =>
      if (f1 || c0 == NOT c1) = true then simpaig_false NDEBUG m
      else
        ISTRUE m c0 >>= fun t0 =>
        if (t0 || c0 == c1) = true then inc NDEBUG m c1
        else
          ISTRUE m c1 >>= fun t1 =>
          if t1 = true then inc NDEBUG m c0
          else and_table NDEBUG fuel m c0 c1 fresh := by
  rw [simpaig_and_eq]
  rfl

/-- On references whose nodes are in memory, `simpaig_and` applies the rules of `simplify`
and otherwise consults the table. -/
theorem simpaig_and_simplify (NDEBUG : Bool) (fuel : Nat) {m : simpaigmgr} (hh : HeapOK m)
    {c0 c1 : Nat} (h0 : ∃ n, m.heap (STRIP c0) = some n) (h1 : ∃ n, m.heap (STRIP c1) = some n)
    (fresh : Nat) :
    simpaig_and NDEBUG fuel m c0 c1 fresh =
      match simplify m.false_aig c0 c1 with
      | some r => inc NDEBUG m r
      | none => and_table NDEBUG fuel m c0 c1 fresh := by
  rw [simpaig_and_eq_table, ISFALSE_eq hh h0, ISFALSE_eq hh h1, ISTRUE_eq hh h0,
    ISTRUE_eq hh h1]
  unfold simplify simpaig_false
  by_cases a1 : c0 = m.false_aig
  · simp [eq_true a1]
  · by_cases a2 : c1 = m.false_aig
    · simp [eq_false a1, eq_true a2]
    · by_cases a3 : c0 = NOT c1
      · simp [eq_false a1, eq_false a2, eq_true a3]
      · by_cases a4 : c0 = NOT m.false_aig
        · simp [eq_false a1, eq_false a2, eq_false a3, eq_true a4]
        · by_cases a5 : c0 = c1
          · simp [eq_false a1, eq_false a2, eq_false a3, eq_false a4, eq_true a5]
          · by_cases a6 : c1 = NOT m.false_aig
            · simp [eq_false a1, eq_false a2, eq_false a3, eq_false a4, eq_false a5, eq_true a6]
            · simp [eq_false a1, eq_false a2, eq_false a3, eq_false a4, eq_false a5, eq_false a6]

/-! ## Function `simpaig_and`: the table part -/

theorem and_table_mono {NDEBUG : Bool} {f f' : Nat} (hle : f ≤ f') {m : simpaigmgr}
    {c0 c1 fresh : Nat} {res : simpaigmgr × Nat}
    (h : and_table NDEBUG f m c0 c1 fresh = Except.ok res) :
    and_table NDEBUG f' m c0 c1 fresh = Except.ok res := by
  unfold and_table at h ⊢
  obtain ⟨m1, hm1, h1⟩ := bind_eq_ok h
  obtain ⟨p, hp, h2⟩ := bind_eq_ok h1
  obtain ⟨r, hr, h3⟩ := bind_eq_ok h2
  rw [maybe_enlarge_mono hle hm1]
  simp only [ok_bind]
  rw [find_mono hle hp]
  simp only [ok_bind, hr]
  by_cases hr0 : r ≠ 0
  · rw [if_pos hr0] at h3 ⊢
    exact h3
  · rw [if_neg hr0] at h3 ⊢
    obtain ⟨p', hp', h4⟩ := bind_eq_ok h3
    rw [find_mono hle hp']
    exact h4

theorem false_key_ne {m : simpaigmgr} (hh : HeapOK m) {a : Nat} {n : simpaig}
    (hn : m.heap a = some n) {var slice c0 c1 : Nat} (hk : n.key = (var, slice, c0, c1))
    (hne : var ≠ 0 ∨ c0 ≠ 0) : a ≠ m.false_aig := by
  intro e
  obtain ⟨nf, hnf, hkf⟩ := hh.false_node
  rw [e, hnf] at hn
  cases hn
  rw [hkf] at hk
  simp only [Prod.mk.injEq] at hk
  rcases hne with h | h
  · exact h hk.1.symm
  · exact h hk.2.2.1.symm

theorem Kept.fresh_kept {m m1 : simpaigmgr} (hk : Kept m m1) {p : Nat} (hp : m.heap p = none) :
    m1.heap p = none := by
  have := hk.heap p
  rw [hp] at this
  cases h1 : m1.heap p with
  | none => rfl
  | some n => rw [h1] at this; simp at this

/-- The run of the table part of `simpaig_and` with enough fuel, up to its final
`inc (res)`. -/
theorem and_table_run (NDEBUG : Bool) {m : simpaigmgr} (hinv : Inv m) {c0 c1 fresh : Nat}
    (hc0 : c0 ≠ 0) (hc1 : c1 ≠ 0) (hfresh : m.heap fresh = none) (hp : fresh % 2 = 0)
    (hp0 : fresh ≠ 0) (hs : m.count_table < 2 ^ 31) :
    ∃ m2 r, Inv m2 ∧ TablePre m m2 c0 c1 fresh r ∧
      ∀ fuel, m.count_table < fuel →
        and_table NDEBUG fuel m c0 c1 fresh = inc NDEBUG m2 r := by
  obtain ⟨hh, B, ht⟩ := hinv
  obtain ⟨m1, hrun1⟩ := maybe_enlarge_total ht hs (Nat.lt_succ_self _)
  obtain ⟨B1, ht1, hh1, hkept, hlt1, hperm, _⟩ := maybe_enlarge_ok ht hh hrun1
  have hs1 : m1.size_table ≠ 0 := by omega
  have hstart : ∀ fuel, m.count_table < fuel →
      (if m.size_table = m.count_table then simpaig_enlarge fuel m else pure m) =
        Except.ok m1 := fun fuel hf => maybe_enlarge_mono hf hrun1
  have hhit : ∀ (x y : Nat) (a : Nat) (n : simpaig), x ≠ 0 → m.heap a = some n →
      n.key = (0, 0, x, y) →
      a ≠ m.false_aig ∧ a ≠ 0 ∧ ∀ fuel, m.count_table < fuel →
        ∃ r, simpaig_find fuel m1 0 0 x y = Except.ok r ∧ readSlot m1 r = Except.ok a := by
    intro x y a n hx hn hkey
    have haf := false_key_ne hh hn hkey (Or.inr hx)
    obtain ⟨n1, hn1, hk1⟩ := hkept.heap.keys_of_next.mapped_keys hn
    have ha1 : a ∈ B1.flatten := hperm.mem_iff.2 (ht.mem_flatten hn haf)
    refine ⟨haf, (ht1.buckets.mapped_bucket ha1).1, fun fuel hf => ?_⟩
    obtain ⟨r, hfind, hread⟩ := find_hit ht1 hh1 hs1 ha1 hn1 fuel
      (by rw [hkept.count]; exact hf)
    obtain ⟨e1, e2, e3, e4⟩ := key_eq_tuple (hk1.trans hkey)
    rw [e1, e2, e3, e4] at hfind
    exact ⟨r, hfind, hread⟩
  have hmiss : ∀ (x y : Nat), (¬ ∃ a n, m.heap a = some n ∧ n.key = (0, 0, x, y)) →
      ∀ a ∈ B1.flatten, ∀ n, m1.heap a = some n → n.key ≠ (0, 0, x, y) := by
    intro x y hex a _ n1 hn1 hkey
    obtain ⟨n, hn, hk⟩ := hkept.heap.keys_of_next.symm_keys.mapped_keys hn1
    exact hex ⟨a, n, hn, hk.trans hkey⟩
  by_cases hex1 : ∃ a n, m.heap a = some n ∧ n.key = (0, 0, c1, c0)
  · obtain ⟨a, n, hn, hkey⟩ := hex1
    obtain ⟨haf, ha0, hfind⟩ := hhit c1 c0 a n hc1 hn hkey
    refine ⟨m1, a, ⟨hh1, B1, ht1⟩, Or.inl ⟨hkept, haf, n, hn, Or.inl hkey⟩, ?_⟩
    intro fuel hf
    obtain ⟨r, hfr, hrr⟩ := hfind fuel hf
    unfold and_table
    simp only [hstart fuel hf, ok_bind, hfr, hrr, ha0, ne_eq, not_false_eq_true, if_true]
  · have hm1 := hmiss c1 c0 hex1
    by_cases hex2 : ∃ a n, m.heap a = some n ∧ n.key = (0, 0, c0, c1)
    · obtain ⟨a, n, hn, hkey⟩ := hex2
      obtain ⟨haf, ha0, hfind⟩ := hhit c0 c1 a n hc0 hn hkey
      refine ⟨m1, a, ⟨hh1, B1, ht1⟩, Or.inl ⟨hkept, haf, n, hn, Or.inr hkey⟩, ?_⟩
      intro fuel hf
      obtain ⟨r, hfr, hrr⟩ := hfind fuel hf
      obtain ⟨hfind1, hread1⟩ := find_miss ht1 hs1 hm1 fuel
        (by rw [hkept.count]; exact hf)
      unfold and_table
      simp only [hstart fuel hf, ok_bind, hfind1, hread1, ne_eq, not_true_eq_false, if_false,
        hfr, hrr, ha0, not_false_eq_true, if_true]
    · have hm2 := hmiss c0 c1 hex2
      obtain ⟨m2, hins, ht2, hh2, hinserted, _⟩ :=
        insert_new_spec ht1 hh1 hlt1 (hkept.fresh_kept hfresh) hp hp0 (Or.inr hc0)
          (fun h => absurd rfl h) hm2 hm1
      refine ⟨m2, fresh, ⟨hh2, _, ht2⟩, Or.inr ⟨fun a n hn =>
        ⟨fun hk => hex1 ⟨a, n, hn, hk⟩, fun hk => hex2 ⟨a, n, hn, hk⟩⟩, rfl,
        hkept.inserted hinserted⟩, ?_⟩
      intro fuel hf
      obtain ⟨hfind1, hread1⟩ := find_miss ht1 hs1 hm1 fuel
        (by rw [hkept.count]; exact hf)
      obtain ⟨hfind2, hread2⟩ := find_miss ht1 hs1 hm2 fuel
        (by rw [hkept.count]; exact hf)
      unfold and_table
      simp only [hstart fuel hf, ok_bind, hfind1, hread1, ne_eq, not_true_eq_false, if_false,
        hfind2, hread2, hins]

/-- Whenever the table part of `simpaig_and` returns, with whatever fuel, it has run as
`and_table_run` describes. -/
theorem and_table_ok {NDEBUG : Bool} {m : simpaigmgr} (hinv : Inv m)
    {c0 c1 fresh fuel : Nat} (hc0 : c0 ≠ 0) (hc1 : c1 ≠ 0) (hfresh : m.heap fresh = none)
    (hp : fresh % 2 = 0) (hp0 : fresh ≠ 0) {res : simpaigmgr × Nat}
    (hrun : and_table NDEBUG fuel m c0 c1 fresh = Except.ok res) :
    m.count_table < 2 ^ 31 ∧ ∃ m2 r, Inv m2 ∧ TablePre m m2 c0 c1 fresh r ∧
      inc NDEBUG m2 r = Except.ok res := by
  obtain ⟨hh, B, ht⟩ := hinv
  have hs : m.count_table < 2 ^ 31 := by
    unfold and_table at hrun
    obtain ⟨m1, hm1, _⟩ := bind_eq_ok hrun
    exact (maybe_enlarge_ok ht hh hm1).choose_spec.2.2.2.2.2
  obtain ⟨m2, r, hinv2, hpre, hall⟩ :=
    and_table_run NDEBUG ⟨hh, B, ht⟩ hc0 hc1 hfresh hp hp0 hs
  refine ⟨hs, m2, r, hinv2, hpre, ?_⟩
  rw [← hall (max fuel (m.count_table + 1)) (by omega)]
  exact and_table_mono (le_max_left _ _) hrun

/-! ## States built by the constructors -/

theorem Ext.refl_ext (m : simpaigmgr) : Ext m m :=
  ⟨rfl, fun _ n hn => ⟨n, hn, rfl⟩, le_refl _, le_refl _⟩

theorem Ext.trans_ext {m1 m2 m3 : simpaigmgr} (a : Ext m1 m2) (b : Ext m2 m3) : Ext m1 m3 := by
  refine ⟨b.false_aig.trans a.false_aig, ?_, le_trans a.count_le b.count_le,
    le_trans a.size_le b.size_le⟩
  intro p n hn
  obtain ⟨n2, hn2, hk2⟩ := a.nodes p n hn
  obtain ⟨n3, hn3, hk3⟩ := b.nodes p n2 hn2
  exact ⟨n3, hn3, hk3.trans hk2⟩

theorem Kept.ext_of_kept {m m2 : simpaigmgr} (h : Kept m m2) : Ext m m2 :=
  ⟨h.false_aig, fun _ _ hn => h.heap.keys_of_next.mapped_keys hn, le_of_eq h.count.symm, h.size_le⟩

theorem Inserted.ext_of_inserted {m m2 : simpaigmgr} {p : Nat} {nd : simpaig} (h : Inserted m m2 p nd) :
    Ext m m2 := by
  refine ⟨h.false_aig, ?_, by rw [h.count]; omega, h.size_le⟩
  intro a n hn
  have hap : a ≠ p := by
    intro e
    rw [e, h.fresh] at hn
    cases hn
  have := h.others a hap
  rw [hn] at this
  cases h2 : m2.heap a with
  | none => rw [h2] at this; simp at this
  | some n2 =>
    obtain ⟨n0, hn0, hk0, _⟩ := of_map_unlink_eq (h.others a hap) h2
    rw [hn] at hn0
    cases hn0
    exact ⟨n2, rfl, hk0.symm⟩

theorem inc_ext {NDEBUG : Bool} {m m' : simpaigmgr} {res r : Nat}
    (hrun : inc NDEBUG m res = Except.ok (m', r)) : Ext m m' := by
  obtain ⟨_, n, hn, rfl⟩ := inc_ok hrun
  exact ⟨rfl, fun _ _ h => (store_ref_sameButRef hn _).keys_of_ref.mapped_keys h, le_refl _, le_refl _⟩

theorem refCount_of_heap {m : simpaigmgr} {p : Nat} {n : simpaig} (h : m.heap p = some n) :
    refCount m p = n.ref := by
  unfold refCount
  rw [h]

theorem Kept.refCount_kept {m m2 : simpaigmgr} (h : Kept m m2) (a : Nat) :
    refCount m2 a = refCount m a := by
  have := h.heap.ref_eq a
  unfold Simpaig.refCount
  cases h1 : m.heap a <;> cases h2 : m2.heap a <;> rw [h1, h2] at this <;>
    (simp at this ⊢; try omega)

theorem Inserted.refCount_inserted {m m2 : simpaigmgr} {p : Nat} {nd : simpaig}
    (h : Inserted m m2 p nd) (hnd : nd.ref = 0) (a : Nat) : refCount m2 a = refCount m a := by
  by_cases hap : a = p
  · subst hap
    rw [refCount_of_heap h.node, hnd]
    unfold Simpaig.refCount
    rw [h.fresh]
  · have := congrArg (Option.map simpaig.ref) (h.others a hap)
    simp only [Option.map_map, Function.comp_def, unlink_ref] at this
    unfold Simpaig.refCount
    cases h1 : m.heap a <;> cases h2 : m2.heap a <;> rw [h1, h2] at this <;>
      (simp at this ⊢; try omega)

theorem inc_refStep {NDEBUG : Bool} {m m2 m' : simpaigmgr} {res r : Nat}
    (hrun : inc NDEBUG m2 res = Except.ok (m', r))
    (hsame : ∀ a, refCount m2 a = refCount m a) : RefStep m m' := by
  obtain ⟨_, n, hn, rfl⟩ := inc_ok hrun
  intro a n' hn'
  rw [← hsame a]
  by_cases ha : a = STRIP res
  · subst ha
    rw [store_heap_same] at hn'
    cases hn'
    rw [refCount_of_heap hn]
    exact Nat.mod_le _ _
  · rw [store_heap_other _ _ ha] at hn'
    rw [refCount_of_heap hn']
    omega

theorem IMPORT_ok {NDEBUG : Bool} {fuel : Nat} {m : simpaigmgr} {p r : Nat}
    (h : IMPORT NDEBUG fuel m p = Except.ok r) : r = p := by
  unfold IMPORT at h
  split at h
  · cases h; rfl
  · obtain ⟨b, _, h2⟩ := bind_eq_ok h
    cases b
    · simp at h2
    · simp at h2
      exact h2.symm

theorem Inv.at_init {fa : Nat} (h0 : fa ≠ 0) (h2 : fa % 2 = 0) : Inv (simpaig_init_mem fa) := by
  have hheap : ∀ p n, (simpaig_init_mem fa).heap p = some n → p = fa ∧ n = simpaig.zero := by
    intro p n hn
    simp only [simpaig_init_mem] at hn
    split at hn
    · rename_i e
      cases hn
      exact ⟨e, rfl⟩
    · cases hn
  refine ⟨⟨⟨simpaig.zero, by simp [simpaig_init_mem], rfl⟩, ?_, ?_, ?_, ?_, ?_⟩, [], ?_⟩
  · intro p n hn
    rw [(hheap p n hn).1]
    exact ⟨h2, h0⟩
  · intro p n hn hp
    exact absurd (hheap p n hn).1 hp
  · intro p n hn hv
    rw [(hheap p n hn).2] at hv
    exact absurd rfl hv
  · intro p q n n' hn hn' _
    rw [(hheap p n hn).1, (hheap q n' hn').1]
  · intro p q n n' hn hn' _ _ _ _
    rw [(hheap p n hn).1, (hheap q n' hn').1]
  · refine ⟨⟨rfl, rfl, fun h => by simp [simpaig_init_mem, Chain], fun h a ha => by simp at ha⟩,
      by simp, rfl, le_refl _, Or.inl rfl, ?_, by simp⟩
    intro p n hn
    exact Or.inl (hheap p n hn).1

/-- A call of `simpaig_and` that returns keeps the state well formed and keeps every node. -/
theorem simpaig_and_inv {NDEBUG : Bool} {m m' : simpaigmgr} {fuel c0 c1 fresh r : Nat}
    (hinv : Inv m) (hf : Fresh m fresh)
    (hrun : simpaig_and NDEBUG fuel m c0 c1 fresh = Except.ok (m', r)) :
    Inv m' ∧ Ext m m' ∧ RefStep m m' := by
  rw [simpaig_and_eq_table] at hrun
  obtain ⟨f0, hf0, h1⟩ := bind_eq_ok hrun
  obtain ⟨f1, hf1, h2⟩ := bind_eq_ok h1
  split at h2
  · exact ⟨hinv.after_inc h2, inc_ext h2, inc_refStep h2 (fun _ => rfl)⟩
  · rename_i hc1
    obtain ⟨t0, ht0, h3⟩ := bind_eq_ok h2
    split at h3
    · exact ⟨hinv.after_inc h3, inc_ext h3, inc_refStep h3 (fun _ => rfl)⟩
    · obtain ⟨t1, ht1, h4⟩ := bind_eq_ok h3
      split at h4
      · exact ⟨hinv.after_inc h4, inc_ext h4, inc_refStep h4 (fun _ => rfl)⟩
      · have hf0' : f0 = false := by
          cases f0
          · rfl
          · simp at hf1
            subst hf1
            simp at hc1
        rw [hf0'] at hf1
        simp only [Bool.false_eq_true, if_false] at hf1
        rw [hf0'] at hf0
        obtain ⟨n0, hn0⟩ := mapped_of_tests hf0 ht0
        obtain ⟨n1, hn1⟩ := mapped_of_tests hf1 ht1
        have hc0 : c0 ≠ 0 := by
          intro e
          have := (hinv.1.aligned _ _ hn0).2
          rw [e] at this
          exact this rfl
        have hc1' : c1 ≠ 0 := by
          intro e
          have := (hinv.1.aligned _ _ hn1).2
          rw [e] at this
          exact this rfl
        obtain ⟨_, m2, r2, hinv2, hpre, hinc⟩ :=
          and_table_ok hinv hc0 hc1' hf.2.2 hf.2.1 hf.1 h4
        rcases hpre with ⟨hk, _⟩ | ⟨_, _, hi⟩
        · exact ⟨hinv2.after_inc hinc, hk.ext_of_kept.trans_ext (inc_ext hinc), inc_refStep hinc hk.refCount_kept⟩
        · exact ⟨hinv2.after_inc hinc, hi.ext_of_inserted.trans_ext (inc_ext hinc),
            inc_refStep hinc (hi.refCount_inserted rfl)⟩

/-- A call of `simpaig_var` that returns keeps the state well formed and keeps every node. -/
theorem simpaig_var_inv {NDEBUG : Bool} {m m' : simpaigmgr} {fuel var slice fresh r : Nat}
    (hinv : Inv m) (hvar : var ≠ 0) (hf : Fresh m fresh)
    (hrun : simpaig_var NDEBUG fuel m var slice fresh = Except.ok (m', r)) :
    Inv m' ∧ Ext m m' ∧ RefStep m m' := by
  obtain ⟨_, m2, r2, hinv2, hpre, hinc⟩ := simpaig_var_ok hinv hvar hf.2.2 hf.2.1 hf.1 hrun
  rcases hpre with ⟨hk, _⟩ | ⟨_, _, hi⟩
  · exact ⟨hinv2.after_inc hinc, hk.ext_of_kept.trans_ext (inc_ext hinc), inc_refStep hinc hk.refCount_kept⟩
  · exact ⟨hinv2.after_inc hinc, hi.ext_of_inserted.trans_ext (inc_ext hinc), inc_refStep hinc (hi.refCount_inserted rfl)⟩

theorem Step.step_inv {NDEBUG : Bool} {m m' : simpaigmgr} (hs : Step NDEBUG m m') (hinv : Inv m) :
    Inv m' ∧ Ext m m' ∧ RefStep m m' := by
  cases hs with
  | var hvar hf hrun => exact simpaig_var_inv hinv hvar hf hrun
  | conj hf hrun => exact simpaig_and_inv hinv hf hrun
  | inc hrun =>
    unfold simpaig_inc at hrun
    obtain ⟨r', _, h2⟩ := bind_eq_ok hrun
    exact ⟨hinv.after_inc h2, inc_ext h2, inc_refStep h2 (fun _ => rfl)⟩
  | false_ref hrun => exact ⟨hinv.after_inc hrun, inc_ext hrun, inc_refStep hrun (fun _ => rfl)⟩

theorem Steps.steps_inv {NDEBUG : Bool} {m m' : simpaigmgr} (hs : Steps NDEBUG m m') (hinv : Inv m) :
    Inv m' ∧ Ext m m' := by
  induction hs with
  | refl => exact ⟨hinv, Ext.refl_ext _⟩
  | tail _ hstep ih =>
    obtain ⟨h1, h2⟩ := ih
    obtain ⟨h3, h4, _⟩ := hstep.step_inv h1
    exact ⟨h3, h2.trans_ext h4⟩

theorem Built.built_inv {NDEBUG : Bool} {m : simpaigmgr} (h : Built NDEBUG m) : Inv m := by
  obtain ⟨fa, h0, h2, hs⟩ := h
  exact (hs.steps_inv (Inv.at_init h0 h2)).1

/-! ## Lookups that hit, whatever the allocator would return -/

theorem var_node_ne_false {m : simpaigmgr} (hh : HeapOK m) {a : Nat} {n : simpaig}
    (hn : m.heap a = some n) {var slice : Nat} (hk : n.key = (var, slice, 0, 0))
    (ha : a ≠ m.false_aig) : var ≠ 0 := by
  obtain ⟨e1, _, e3, _⟩ := key_eq_tuple hk
  rcases hh.shape a n hn ha with h | h
  · rw [← e1]; exact h
  · exact absurd e3 h

/-- Function `simpaig_var` on a key that the node `a` of the table has. -/
theorem simpaig_var_hit (NDEBUG : Bool) {m : simpaigmgr} (hinv : Inv m) {var slice a : Nat}
    {n : simpaig} (hn : m.heap a = some n) (hkey : n.key = (var, slice, 0, 0))
    (haf : a ≠ m.false_aig) (hs : m.count_table < 2 ^ 31) :
    ∃ m2, Inv m2 ∧ Kept m m2 ∧
      ∀ fuel fresh, m.count_table < fuel →
        simpaig_var NDEBUG fuel m var slice fresh = inc NDEBUG m2 a := by
  obtain ⟨hh, B, ht⟩ := hinv
  have hvar := var_node_ne_false hh hn hkey haf
  obtain ⟨m1, hrun1⟩ := maybe_enlarge_total ht hs (Nat.lt_succ_self _)
  obtain ⟨B1, ht1, hh1, hkept, hlt1, hperm, _⟩ := maybe_enlarge_ok ht hh hrun1
  have hs1 : m1.size_table ≠ 0 := by omega
  have hvar0 : (var == 0) = false := by simpa using hvar
  obtain ⟨n1, hn1, hk1⟩ := hkept.heap.keys_of_next.mapped_keys hn
  have ha1 : a ∈ B1.flatten := hperm.mem_iff.2 (ht.mem_flatten hn haf)
  have ha0 : a ≠ 0 := (ht1.buckets.mapped_bucket ha1).1
  refine ⟨m1, ⟨hh1, B1, ht1⟩, hkept, ?_⟩
  intro fuel fresh hf
  obtain ⟨r, hfind, hread⟩ := find_hit ht1 hh1 hs1 ha1 hn1 fuel
    (by rw [hkept.count]; exact hf)
  obtain ⟨e1, e2, e3, e4⟩ := key_eq_tuple (hk1.trans hkey)
  rw [e1, e2, e3, e4] at hfind
  rw [simpaig_var_eq]
  simp only [hvar0, Bool.and_false, Bool.false_eq_true, if_false, maybe_enlarge_mono hf hrun1,
    ok_bind, hfind, hread, ha0]

/-- The table part of `simpaig_and` when a node with the two children, in one of the two
orders, is in the table. -/
theorem and_table_hit (NDEBUG : Bool) {m : simpaigmgr} (hinv : Inv m) {c0 c1 : Nat}
    (hc0 : c0 ≠ 0) (hc1 : c1 ≠ 0)
    (hex : ∃ a n, m.heap a = some n ∧ (n.key = (0, 0, c1, c0) ∨ n.key = (0, 0, c0, c1)))
    (hs : m.count_table < 2 ^ 31) :
    ∃ m2 r, Inv m2 ∧ Kept m m2 ∧ r ≠ m.false_aig ∧
      (∃ n, m.heap r = some n ∧ (n.key = (0, 0, c1, c0) ∨ n.key = (0, 0, c0, c1))) ∧
      ∀ fuel fresh, m.count_table < fuel →
        and_table NDEBUG fuel m c0 c1 fresh = inc NDEBUG m2 r := by
  obtain ⟨hh, B, ht⟩ := hinv
  obtain ⟨m1, hrun1⟩ := maybe_enlarge_total ht hs (Nat.lt_succ_self _)
  obtain ⟨B1, ht1, hh1, hkept, hlt1, hperm, _⟩ := maybe_enlarge_ok ht hh hrun1
  have hs1 : m1.size_table ≠ 0 := by omega
  have hhit : ∀ (x y : Nat) (a : Nat) (n : simpaig), x ≠ 0 → m.heap a = some n →
      n.key = (0, 0, x, y) →
      a ≠ m.false_aig ∧ a ≠ 0 ∧ ∀ fuel, m.count_table < fuel →
        ∃ r, simpaig_find fuel m1 0 0 x y = Except.ok r ∧ readSlot m1 r = Except.ok a := by
    intro x y a n hx hn hkey
    have haf := false_key_ne hh hn hkey (Or.inr hx)
    obtain ⟨n1, hn1, hk1⟩ := hkept.heap.keys_of_next.mapped_keys hn
    have ha1 : a ∈ B1.flatten := hperm.mem_iff.2 (ht.mem_flatten hn haf)
    refine ⟨haf, (ht1.buckets.mapped_bucket ha1).1, fun fuel hf => ?_⟩
    obtain ⟨r, hfind, hread⟩ := find_hit ht1 hh1 hs1 ha1 hn1 fuel
      (by rw [hkept.count]; exact hf)
    obtain ⟨e1, e2, e3, e4⟩ := key_eq_tuple (hk1.trans hkey)
    rw [e1, e2, e3, e4] at hfind
    exact ⟨r, hfind, hread⟩
  by_cases hex1 : ∃ a n, m.heap a = some n ∧ n.key = (0, 0, c1, c0)
  · obtain ⟨a, n, hn, hkey⟩ := hex1
    obtain ⟨haf, ha0, hfind⟩ := hhit c1 c0 a n hc1 hn hkey
    refine ⟨m1, a, ⟨hh1, B1, ht1⟩, hkept, haf, ⟨n, hn, Or.inl hkey⟩, ?_⟩
    intro fuel fresh hf
    obtain ⟨r, hfr, hrr⟩ := hfind fuel hf
    unfold and_table
    simp only [maybe_enlarge_mono hf hrun1, ok_bind, hfr, hrr, ha0, ne_eq, not_false_eq_true,
      if_true]
  · have hm1 : ∀ a ∈ B1.flatten, ∀ n, m1.heap a = some n → n.key ≠ (0, 0, c1, c0) := by
      intro a _ n1 hn1 hkey
      obtain ⟨n, hn, hk⟩ := hkept.heap.keys_of_next.symm_keys.mapped_keys hn1
      exact hex1 ⟨a, n, hn, hk.trans hkey⟩
    obtain ⟨a, n, hn, hkey⟩ := hex
    have hkey2 : n.key = (0, 0, c0, c1) := by
      rcases hkey with h | h
      · exact absurd ⟨a, n, hn, h⟩ hex1
      · exact h
    obtain ⟨haf, ha0, hfind⟩ := hhit c0 c1 a n hc0 hn hkey2
    refine ⟨m1, a, ⟨hh1, B1, ht1⟩, hkept, haf, ⟨n, hn, Or.inr hkey2⟩, ?_⟩
    intro fuel fresh hf
    obtain ⟨r, hfr, hrr⟩ := hfind fuel hf
    obtain ⟨hfind1, hread1⟩ := find_miss ht1 hs1 hm1 fuel
      (by rw [hkept.count]; exact hf)
    unfold and_table
    simp only [maybe_enlarge_mono hf hrun1, ok_bind, hfind1, hread1, ne_eq, not_true_eq_false,
      if_false, hfr, hrr, ha0, not_false_eq_true, if_true]

/-! ## References -/

theorem Valid.mapped_valid {m : simpaigmgr} {r : Nat} (h : Valid m r) :
    ∃ n, m.heap (STRIP r) = some n := by
  obtain ⟨_, h2⟩ := h
  unfold refCount at h2
  cases hn : m.heap (STRIP r) with
  | none => rw [hn] at h2; simp at h2
  | some n => exact ⟨n, rfl⟩

theorem inc_raised (NDEBUG : Bool) (m : simpaigmgr) (r : Nat)
    (hr : ∃ n, m.heap (STRIP r) = some n) (hw : refCount m (STRIP r) + 1 < UINT) :
    ∃ m', inc NDEBUG m r = Except.ok (m', r) ∧ Raised m m' r := by
  obtain ⟨n, hn⟩ := hr
  rw [refCount_of_heap hn] at hw
  exact ⟨_, inc_spec NDEBUG hn hw, n, hn, rfl⟩

theorem simplify_same (fa x : Nat) : simplify fa x x = some x := by
  unfold simplify
  by_cases h1 : x = fa
  · simp [h1]
  · simp [h1, NOT_ne x, (NOT_ne x).symm]

theorem simplify_not_right (fa x : Nat) : simplify fa x (NOT x) = some fa := by
  unfold simplify
  simp [NOT_NOT]

theorem simplify_not_left (fa x : Nat) : simplify fa (NOT x) x = some fa := by
  unfold simplify
  simp

theorem simplify_false_left (fa x : Nat) : simplify fa fa x = some fa := by
  unfold simplify
  simp

theorem simplify_false_right (fa x : Nat) : simplify fa x fa = some fa := by
  unfold simplify
  simp

theorem simplify_true_left (fa x : Nat) : simplify fa (NOT fa) x = some x := by
  unfold simplify
  by_cases h1 : x = fa
  · simp [h1]
  · have h2 : ¬ NOT fa = NOT x := fun e => h1 (NOT_inj e).symm
    simp [h1, h2, NOT_ne fa]

theorem simplify_true_right (fa x : Nat) : simplify fa x (NOT fa) = some x := by
  unfold simplify
  by_cases h1 : x = fa
  · simp [h1]
  · simp only [h1, NOT_ne fa, NOT_NOT, or_self, if_false]
    by_cases h2 : x = NOT fa
    · simp [h2]
    · simp [h2]

/-! ## Example states -/

theorem demo1_step : Step false demo0 demo1 :=
  @Step.var false demo0 demo1 4 4096 0 1000 1000 (by decide) ⟨by decide, by decide, rfl⟩ rfl

theorem demo2_step : Step false demo1 demo2 :=
  @Step.var false demo1 demo2 4 8192 1 1040 1040 (by decide) ⟨by decide, by decide, rfl⟩ rfl

theorem demo0_built : Built false demo0 := ⟨64, by decide, by decide, Steps.refl _⟩

theorem demo1_built : Built false demo1 :=
  ⟨64, by decide, by decide, Steps.tail (Steps.refl _) demo1_step⟩

theorem demo2_built : Built false demo2 :=
  ⟨64, by decide, by decide, Steps.tail (Steps.tail (Steps.refl _) demo1_step) demo2_step⟩

/-! ## C3: the simplification laws -/

theorem mapped_false {m : simpaigmgr} (hh : HeapOK m) :
    ∃ n, m.heap (STRIP m.false_aig) = some n := by
  obtain ⟨nf, hnf, _⟩ := hh.false_node
  rw [STRIP_even (hh.aligned _ _ hnf).1]
  exact ⟨nf, hnf⟩

theorem STRIP_false {m : simpaigmgr} (hh : HeapOK m) : STRIP m.false_aig = m.false_aig := by
  obtain ⟨nf, hnf, _⟩ := hh.false_node
  exact STRIP_even (hh.aligned _ _ hnf).1

/-- A call of `simpaig_and` to which a rule applies returns the selected reference, with the
counter of its node raised by one. -/
theorem simpaig_and_rule (NDEBUG : Bool) (fuel fresh : Nat) {m : simpaigmgr} (hh : HeapOK m)
    {c0 c1 r : Nat} (h0 : ∃ n, m.heap (STRIP c0) = some n)
    (h1 : ∃ n, m.heap (STRIP c1) = some n) (hs : simplify m.false_aig c0 c1 = some r)
    (hr : ∃ n, m.heap (STRIP r) = some n) (hw : refCount m (STRIP r) + 1 < UINT) :
    ∃ m', simpaig_and NDEBUG fuel m c0 c1 fresh = Except.ok (m', r) ∧ Raised m m' r := by
  rw [simpaig_and_simplify NDEBUG fuel hh h0 h1 fresh, hs]
  exact inc_raised NDEBUG m r hr hw

/-- C3: in every state built by the constructors, for every valid reference `x` (the false
and the true reference included) whose counter and the counter of the false node are not at
the largest `unsigned` value: `and (x, not x) = and (not x, x) = false`,
`and (false, x) = and (x, false) = false`, `and (true, x) = and (x, true) = x` and
`and (x, x) = x`, where `true = not false`.  Each of these calls returns, with any fuel and
whatever the allocator would return, and its only effect is that the counter of the node of
the returned reference is raised by one (`Raised`): the table, `count_table` and every other
node are as before. -/
theorem simpaig_and_laws (NDEBUG : Bool) (fuel fresh : Nat) (m : simpaigmgr) (x : Nat)
    (hb : Built NDEBUG m) (hx : Valid m x) (hwx : refCount m (STRIP x) + 1 < UINT)
    (hwf : refCount m (STRIP m.false_aig) + 1 < UINT) :
    (∃ m', simpaig_and NDEBUG fuel m x (NOT x) fresh = Except.ok (m', m.false_aig) ∧
      Raised m m' m.false_aig) ∧
    (∃ m', simpaig_and NDEBUG fuel m (NOT x) x fresh = Except.ok (m', m.false_aig) ∧
      Raised m m' m.false_aig) ∧
    (∃ m', simpaig_and NDEBUG fuel m m.false_aig x fresh = Except.ok (m', m.false_aig) ∧
      Raised m m' m.false_aig) ∧
    (∃ m', simpaig_and NDEBUG fuel m x m.false_aig fresh = Except.ok (m', m.false_aig) ∧
      Raised m m' m.false_aig) ∧
    (∃ m', simpaig_and NDEBUG fuel m (NOT m.false_aig) x fresh = Except.ok (m', x) ∧
      Raised m m' x) ∧
    (∃ m', simpaig_and NDEBUG fuel m x (NOT m.false_aig) fresh = Except.ok (m', x) ∧
      Raised m m' x) ∧
    (∃ m', simpaig_and NDEBUG fuel m x x fresh = Except.ok (m', x) ∧ Raised m m' x) := by
  have hh := hb.built_inv.1
  have hmx := hx.mapped_valid
  have hmf := mapped_false hh
  have hmnx : ∃ n, m.heap (STRIP (NOT x)) = some n := by rw [STRIP_NOT]; exact hmx
  have hmt : ∃ n, m.heap (STRIP (NOT m.false_aig)) = some n := by rw [STRIP_NOT]; exact hmf
  exact ⟨simpaig_and_rule NDEBUG fuel fresh hh hmx hmnx (simplify_not_right _ _) hmf hwf,
    simpaig_and_rule NDEBUG fuel fresh hh hmnx hmx (simplify_not_left _ _) hmf hwf,
    simpaig_and_rule NDEBUG fuel fresh hh (by rw [STRIP_false hh] at hmf; rw [STRIP_false hh]; exact hmf)
      hmx (simplify_false_left _ _) hmf hwf,
    simpaig_and_rule NDEBUG fuel fresh hh hmx hmf (simplify_false_right _ _) hmf hwf,
    simpaig_and_rule NDEBUG fuel fresh hh hmt hmx (simplify_true_left _ _) hmx hwx,
    simpaig_and_rule NDEBUG fuel fresh hh hmx hmt (simplify_true_right _ _) hmx hwx,
    simpaig_and_rule NDEBUG fuel fresh hh hmx hmx (simplify_same _ _) hmx hwx⟩

theorem simpaig_and_laws_witness :
    (∃ m', simpaig_and false 0 demo1 1000 (NOT 1000) 2000 = Except.ok (m', demo1.false_aig) ∧
      Raised demo1 m' demo1.false_aig) ∧
    (∃ m', simpaig_and false 0 demo1 (NOT 1000) 1000 2000 = Except.ok (m', demo1.false_aig) ∧
      Raised demo1 m' demo1.false_aig) ∧
    (∃ m', simpaig_and false 0 demo1 demo1.false_aig 1000 2000 =
      Except.ok (m', demo1.false_aig) ∧ Raised demo1 m' demo1.false_aig) ∧
    (∃ m', simpaig_and false 0 demo1 1000 demo1.false_aig 2000 =
      Except.ok (m', demo1.false_aig) ∧ Raised demo1 m' demo1.false_aig) ∧
    (∃ m', simpaig_and false 0 demo1 (NOT demo1.false_aig) 1000 2000 = Except.ok (m', 1000) ∧
      Raised demo1 m' 1000) ∧
    (∃ m', simpaig_and false 0 demo1 1000 (NOT demo1.false_aig) 2000 = Except.ok (m', 1000) ∧
      Raised demo1 m' 1000) ∧
    (∃ m', simpaig_and false 0 demo1 1000 1000 2000 = Except.ok (m', 1000) ∧
      Raised demo1 m' 1000) :=
  simpaig_and_laws false 0 2000 demo1 1000 demo1_built ⟨by decide, by decide⟩ (by decide)
    (by decide)

/-! ## C1: sharing of conjunctions in both argument orders -/

theorem simplify_comm (fa a b : Nat) : simplify fa a b = simplify fa b a := by
  unfold simplify
  have hnot : a = NOT b ↔ b = NOT a :=
    ⟨fun h => by rw [h, NOT_NOT], fun h => by rw [h, NOT_NOT]⟩
  by_cases a1 : a = fa
  · simp [eq_true a1]
  · by_cases a2 : b = fa
    · simp [eq_true a2]
    · by_cases a3 : a = NOT b
      · simp [eq_true a3, eq_true (hnot.1 a3)]
      · have a3' : ¬ b = NOT a := fun h => a3 (hnot.2 h)
        simp only [eq_false a1, eq_false a2, eq_false a3, eq_false a3', or_self, if_false]
        by_cases a4 : a = NOT fa
        · by_cases a5 : b = NOT fa
          · simp [eq_true a4, eq_true a5]
            rw [a4, a5]
          · simp [eq_true a4, eq_false a5]
            split
            · rename_i h
              rw [h]
            · rfl
        · by_cases a5 : a = b
          · simp [eq_true a5, eq_true a5.symm]
          · have a5' : ¬ b = a := fun h => a5 h.symm
            by_cases a6 : b = NOT fa
            · simp [eq_false a4, eq_false a5, eq_false a5', eq_true a6]
            · simp [eq_false a4, eq_false a5, eq_false a5', eq_false a6]

theorem simplify_some {fa c0 c1 r : Nat} (h : simplify fa c0 c1 = some r) :
    r = fa ∨ r = c1 ∨ r = c0 := by
  unfold simplify at h
  split at h
  · cases h; exact Or.inl rfl
  · split at h
    · cases h; exact Or.inr (Or.inl rfl)
    · split at h
      · cases h; exact Or.inr (Or.inr rfl)
      · cases h

theorem store_isSome {m : simpaigmgr} {p : Nat} {n : simpaig} (hn : m.heap p = some n)
    (n' : simpaig) (q : Nat) : ((store m p n').heap q).isSome = (m.heap q).isSome := by
  by_cases hq : q = p
  · subst hq
    rw [store_heap_same, hn]
    rfl
  · rw [store_heap_other _ _ hq]

theorem SameButNext.isSome_next {h h' : Nat → Option simpaig} (a : SameButNext h h') (q : Nat) :
    (h' q).isSome = (h q).isSome := by
  have := a q
  cases h1 : h q <;> cases h2 : h' q <;> rw [h1, h2] at this <;> simp at this ⊢

theorem Raised.count_raised {m m' : simpaigmgr} {r : Nat} (h : Raised m m' r) :
    m'.count_table = m.count_table := by
  obtain ⟨n, _, rfl⟩ := h
  rfl

theorem Raised.false_aig_raised {m m' : simpaigmgr} {r : Nat} (h : Raised m m' r) :
    m'.false_aig = m.false_aig := by
  obtain ⟨n, _, rfl⟩ := h
  rfl

theorem Raised.isSome_raised {m m' : simpaigmgr} {r : Nat} (h : Raised m m' r) (q : Nat) :
    (m'.heap q).isSome = (m.heap q).isSome := by
  obtain ⟨n, hn, rfl⟩ := h
  exact store_isSome hn _ q

theorem Raised.raised_inv {m m' : simpaigmgr} {r : Nat} (h : Raised m m' r) (hinv : Inv m) :
    Inv m' := by
  obtain ⟨n, hn, rfl⟩ := h
  exact hinv.store_ref hn _

theorem Raised.keys_of_raised {m m' : simpaigmgr} {r : Nat} (h : Raised m m' r) :
    SameKeys m.heap m'.heap := by
  obtain ⟨n, hn, rfl⟩ := h
  exact (store_ref_sameButRef hn _).keys_of_ref

theorem Raised.refCount_self {m m' : simpaigmgr} {r : Nat} (h : Raised m m' r) :
    refCount m' (STRIP r) = refCount m (STRIP r) + 1 := by
  obtain ⟨n, hn, rfl⟩ := h
  rw [refCount_of_heap hn, refCount_of_heap (store_heap_same _ _ _)]

theorem Raised.refCount_other {m m' : simpaigmgr} {r q : Nat} (h : Raised m m' r)
    (hq : q ≠ STRIP r) : refCount m' q = refCount m q := by
  obtain ⟨n, hn, rfl⟩ := h
  unfold refCount
  rw [store_heap_other _ _ hq]

theorem NoWrap.refCount_bound {k : Nat} {m : simpaigmgr} (h : NoWrap k m) (hk : k < UINT) (a : Nat) :
    refCount m a + k < UINT := by
  unfold Simpaig.refCount
  cases hn : m.heap a with
  | none => simpa using hk
  | some n => exact h a n hn

theorem ne_zero_of_mapped {m : simpaigmgr} (hh : HeapOK m) {c : Nat}
    (h : ∃ n, m.heap (STRIP c) = some n) : c ≠ 0 := by
  obtain ⟨n, hn⟩ := h
  intro e
  have := (hh.aligned _ _ hn).2
  rw [e] at this
  exact this rfl

theorem mapped_of_sameKeys {h h' : Nat → Option simpaig} (hk : SameKeys h h') {c : Nat}
    (hc : ∃ n, h c = some n) : ∃ n, h' c = some n := by
  obtain ⟨n, hn⟩ := hc
  obtain ⟨n', hn', _⟩ := hk.mapped_keys hn
  exact ⟨n', hn'⟩

theorem mapped_of_ext {m m' : simpaigmgr} (he : Ext m m') {c : Nat}
    (hc : ∃ n, m.heap c = some n) : ∃ n, m'.heap c = some n := by
  obtain ⟨n, hn⟩ := hc
  obtain ⟨n', hn', _⟩ := he.nodes c n hn
  exact ⟨n', hn'⟩

/-- Two calls of `simpaig_and` with the arguments in opposite orders: both return the same
reference, and the second one creates no node. -/
theorem and_twice (NDEBUG : Bool) {m : simpaigmgr} (hinv : Inv m) {a b : Nat}
    (ha : ∃ n, m.heap (STRIP a) = some n) (hb : ∃ n, m.heap (STRIP b) = some n)
    (hw : NoWrap 2 m) (hs : m.count_table + 1 < 2 ^ 31) {p : Nat} (hp : Fresh m p)
    {fuel1 fuel2 : Nat} (hf1 : m.count_table < fuel1) (hf2 : m.count_table + 1 < fuel2)
    (p' : Nat) :
    ∃ m1 m2 r, simpaig_and NDEBUG fuel1 m a b p = Except.ok (m1, r) ∧
      simpaig_and NDEBUG fuel2 m1 b a p' = Except.ok (m2, r) ∧
      m2.count_table = m1.count_table ∧ ∀ q, (m2.heap q).isSome = (m1.heap q).isSome := by
  have hh := hinv.1
  have h2 : (2 : Nat) < UINT := by unfold UINT; decide
  cases hsim : simplify m.false_aig a b with
  | some r =>
    have hr : ∃ n, m.heap (STRIP r) = some n := by
      rcases simplify_some hsim with e | e | e
      · rw [e]; exact mapped_false hh
      · rw [e]; exact hb
      · rw [e]; exact ha
    obtain ⟨m1, hrun1, hr1⟩ := simpaig_and_rule NDEBUG fuel1 p hh ha hb hsim hr
      (by have := hw.refCount_bound h2 (STRIP r); omega)
    have hinv1 := hr1.raised_inv hinv
    have hsim1 : simplify m1.false_aig b a = some r := by
      rw [hr1.false_aig_raised, simplify_comm, hsim]
    obtain ⟨m2, hrun2, hr2⟩ := simpaig_and_rule NDEBUG fuel2 p' hinv1.1
      (mapped_of_sameKeys hr1.keys_of_raised hb) (mapped_of_sameKeys hr1.keys_of_raised ha) hsim1
      (mapped_of_sameKeys hr1.keys_of_raised hr)
      (by rw [hr1.refCount_self]; have := hw.refCount_bound h2 (STRIP r); omega)
    exact ⟨m1, m2, r, hrun1, hrun2, hr2.count_raised, hr2.isSome_raised⟩
  | none =>
    have ha0 := ne_zero_of_mapped hh ha
    have hb0 := ne_zero_of_mapped hh hb
    obtain ⟨mt, r, hinvt, hpre, hall⟩ :=
      and_table_run NDEBUG hinv ha0 hb0 hp.2.2 hp.2.1 hp.1 (by omega)
    have hfacts : Ext m mt ∧ (∀ q, refCount mt q = refCount m q) ∧
        mt.count_table ≤ m.count_table + 1 ∧
        ∃ n, mt.heap r = some n ∧ (n.key = (0, 0, b, a) ∨ n.key = (0, 0, a, b)) := by
      rcases hpre with ⟨hk, _, n, hn, hkey⟩ | ⟨_, hrp, hi⟩
      · obtain ⟨n', hn', hk'⟩ := hk.heap.keys_of_next.mapped_keys hn
        exact ⟨hk.ext_of_kept, hk.refCount_kept, by rw [hk.count]; omega, n', hn', by rw [hk']; exact hkey⟩
      · rw [hrp]
        exact ⟨hi.ext_of_inserted, hi.refCount_inserted rfl, by rw [hi.count], _, hi.node, Or.inr rfl⟩
    obtain ⟨hext, hrefs, hcnt, n, hn, hkey⟩ := hfacts
    have hrs : STRIP r = r := STRIP_even (hinvt.1.aligned _ _ hn).1
    obtain ⟨m1, hinc1, hr1⟩ := inc_raised NDEBUG mt r (by rw [hrs]; exact ⟨n, hn⟩)
      (by rw [hrefs]; have := hw.refCount_bound h2 (STRIP r); omega)
    have hinv1 := hr1.raised_inv hinvt
    have hfa1 : m1.false_aig = m.false_aig := by rw [hr1.false_aig_raised, hext.false_aig]
    have hmap1 : ∀ c, (∃ n, m.heap c = some n) → ∃ n, m1.heap c = some n :=
      fun c hc => mapped_of_sameKeys hr1.keys_of_raised (mapped_of_ext hext hc)
    obtain ⟨n1, hn1, hk1⟩ := hr1.keys_of_raised.mapped_keys hn
    have hsim1 : simplify m1.false_aig b a = none := by
      rw [hfa1, simplify_comm, hsim]
    have hcnt1 : m1.count_table < 2 ^ 31 := by rw [hr1.count_raised]; omega
    obtain ⟨m3, r', hinv3, hkept3, _, ⟨n', hn', hkey'⟩, hall3⟩ :=
      and_table_hit NDEBUG hinv1 hb0 ha0 ⟨r, n1, hn1, by
        rw [hk1]
        rcases hkey with e | e
        · exact Or.inr e
        · exact Or.inl e⟩ hcnt1
    have hrr : r' = r := by
      have hkey1 : n1.key = (0, 0, b, a) ∨ n1.key = (0, 0, a, b) := by rw [hk1]; exact hkey
      rcases hkey' with e' | e' <;> rcases hkey1 with e | e
      · obtain ⟨x1, x2, x3, x4⟩ := key_eq_tuple e'
        obtain ⟨y1, y2, y3, y4⟩ := key_eq_tuple e
        exact hinv1.1.comm r' r n' n1 hn' hn1 (by rw [x1, y1]) (by rw [x2, y2])
          (by rw [x3, y4]) (by rw [x4, y3])
      · exact hinv1.1.uniq r' r n' n1 hn' hn1 (e'.trans e.symm)
      · exact hinv1.1.uniq r' r n' n1 hn' hn1 (e'.trans e.symm)
      · obtain ⟨x1, x2, x3, x4⟩ := key_eq_tuple e'
        obtain ⟨y1, y2, y3, y4⟩ := key_eq_tuple e
        exact hinv1.1.comm r' r n' n1 hn' hn1 (by rw [x1, y1]) (by rw [x2, y2])
          (by rw [x3, y4]) (by rw [x4, y3])
    subst hrr
    obtain ⟨n3, hn3, _⟩ := hkept3.heap.keys_of_next.mapped_keys hn1
    obtain ⟨m2, hinc2, hr2⟩ := inc_raised NDEBUG m3 r'
      (by rw [hrs]; exact ⟨n3, hn3⟩)
      (by
        rw [hkept3.refCount_kept, hr1.refCount_self, hrefs]
        have := hw.refCount_bound h2 (STRIP r')
        omega)
    refine ⟨m1, m2, r', ?_, ?_, ?_, ?_⟩
    · rw [simpaig_and_simplify NDEBUG fuel1 hh ha hb p, hsim]
      simp only
      rw [hall fuel1 hf1]
      exact hinc1
    · rw [simpaig_and_simplify NDEBUG fuel2 hinv1.1 (hmap1 _ hb) (hmap1 _ ha) p', hsim1]
      simp only
      rw [hall3 fuel2 p' (by rw [hr1.count_raised]; omega)]
      exact hinc2
    · rw [hr2.count_raised, hkept3.count]
    · intro q
      rw [hr2.isSome_raised, hkept3.heap.isSome_next]

theorem noWrap_init {k : Nat} (fa : Nat) (hk : k < UINT) : NoWrap k (simpaig_init_mem fa) := by
  intro p n hn
  simp only [simpaig_init_mem] at hn
  split at hn
  · cases hn
    simpa [simpaig.zero] using hk
  · cases hn

theorem Step.noWrap {NDEBUG : Bool} {m m' : simpaigmgr} (hs : Step NDEBUG m m') (hinv : Inv m)
    {k : Nat} (hw : NoWrap (k + 1) m) : NoWrap k m' := by
  obtain ⟨_, _, href⟩ := hs.step_inv hinv
  have hk : k + 1 < UINT := by
    obtain ⟨nf, hnf, _⟩ := hinv.1.false_node
    have := hw _ nf hnf
    omega
  intro a n' hn'
  have h1 := href a n' hn'
  have h2 := hw.refCount_bound hk a
  omega

/-- C1: in every state built from the empty manager by `simpaig_var`, `simpaig_and`,
`simpaig_inc` (and `simpaig_false`) calls, for all valid references `a` and `b`:
`simpaig_and (a, b)` followed by `simpaig_and (b, a)` returns the same reference `r` both
times, and the second call allocates no node: `count_table` and the set of nodes in memory are
unchanged, whatever address the allocator would have returned.  The same holds for the calls
in the opposite order.  The statement covers every table size, so also the runs in which
the table is enlarged during the first or the second call.  The calls return under the
resource bounds stated: fewer than `2 ^ 31 - 1` nodes, no reference counter within 2 of the
largest `unsigned` value, a fresh address for the first call, and enough fuel. -/
theorem simpaig_and_order_independent (NDEBUG : Bool) (m : simpaigmgr)
    (a b p p' fuel1 fuel2 : Nat) (hbuilt : Built NDEBUG m) (ha : Valid m a) (hb : Valid m b) (hw : NoWrap 2 m)
    (hs : m.count_table + 1 < 2 ^ 31) (hp : Fresh m p)
    (hf1 : m.count_table < fuel1) (hf2 : m.count_table + 1 < fuel2) :
    (∃ m1 m2 r, simpaig_and NDEBUG fuel1 m a b p = Except.ok (m1, r) ∧
      simpaig_and NDEBUG fuel2 m1 b a p' = Except.ok (m2, r) ∧
      m2.count_table = m1.count_table ∧ ∀ q, (m2.heap q).isSome = (m1.heap q).isSome) ∧
    (∃ m1 m2 r, simpaig_and NDEBUG fuel1 m b a p = Except.ok (m1, r) ∧
      simpaig_and NDEBUG fuel2 m1 a b p' = Except.ok (m2, r) ∧
      m2.count_table = m1.count_table ∧ ∀ q, (m2.heap q).isSome = (m1.heap q).isSome) :=
  ⟨and_twice NDEBUG hbuilt.built_inv ha.mapped_valid hb.mapped_valid hw hs hp hf1 hf2 p',
    and_twice NDEBUG hbuilt.built_inv hb.mapped_valid ha.mapped_valid hw hs hp hf1 hf2 p'⟩

theorem demo2_noWrap : NoWrap 2 demo2 :=
  demo2_step.noWrap demo1_built.built_inv
    (demo1_step.noWrap demo0_built.built_inv (noWrap_init 64 (by decide)))

theorem simpaig_and_order_independent_witness :
    (∃ m1 m2 r, simpaig_and false 3 demo2 1000 1040 1080 = Except.ok (m1, r) ∧
      simpaig_and false 4 m1 1040 1000 0 = Except.ok (m2, r) ∧
      m2.count_table = m1.count_table ∧ ∀ q, (m2.heap q).isSome = (m1.heap q).isSome) ∧
    (∃ m1 m2 r, simpaig_and false 3 demo2 1040 1000 1080 = Except.ok (m1, r) ∧
      simpaig_and false 4 m1 1000 1040 0 = Except.ok (m2, r) ∧
      m2.count_table = m1.count_table ∧ ∀ q, (m2.heap q).isSome = (m1.heap q).isSome) :=
  simpaig_and_order_independent false demo2 1000 1040 1080 0 3 4 demo2_built
    ⟨by decide, by decide⟩ ⟨by decide, by decide⟩ demo2_noWrap (by decide)
    ⟨by decide, by decide, rfl⟩ (by decide) (by decide)

/-! ## C2: hash consing of variables -/

theorem isSome_of_map_unlink {h h' : Nat → Option simpaig} {q : Nat}
    (e : (h' q).map simpaig.unlink = (h q).map simpaig.unlink) :
    (h' q).isSome = (h q).isSome := by
  cases h1 : h q <;> cases h2 : h' q <;> rw [h1, h2] at e <;> simp at e ⊢

/-- Function `simpaig_var` on a key that no node has: one node is created at the address the
allocator returns, with counter `1`, and the counters of all other nodes are kept. -/
theorem var_first (NDEBUG : Bool) {m : simpaigmgr} (hinv : Inv m) {v s p : Nat}
    (hv : v ≠ 0) (hnew : ∀ a n, m.heap a = some n → n.key ≠ (v, s, 0, 0))
    (hs : m.count_table < 2 ^ 31) (hp : Fresh m p) (fuel : Nat) (hf : m.count_table < fuel) :
    ∃ m1, simpaig_var NDEBUG fuel m v s p = Except.ok (m1, p) ∧ Inv m1 ∧
      m1.count_table = m.count_table + 1 ∧ refCount m1 p = 1 ∧
      (∀ q, q ≠ p → refCount m1 q = refCount m q) ∧
      (∀ q, (m1.heap q).isSome = (decide (q = p) || (m.heap q).isSome)) ∧
      (∃ n, m1.heap p = some n ∧ n.key = (v, s, 0, 0)) ∧ m1.false_aig = m.false_aig := by
  obtain ⟨m2, r, hinv2, hpre, hall⟩ :=
    simpaig_var_run NDEBUG hinv s hv hp.2.2 hp.2.1 hp.1 hs
  rcases hpre with ⟨_, _, n, hn, hk⟩ | ⟨_, hr, hi⟩
  · exact absurd hk (hnew r n hn)
  · subst hr
    have hps : STRIP r = r := STRIP_even hp.2.1
    have hrc2 : refCount m2 r = 0 := refCount_of_heap hi.node
    obtain ⟨m1, hinc, hr1⟩ := inc_raised NDEBUG m2 r
      (by rw [hps]; exact ⟨_, hi.node⟩) (by rw [hps, hrc2]; unfold UINT; decide)
    obtain ⟨n1, hn1, hk1⟩ := hr1.keys_of_raised.mapped_keys hi.node
    refine ⟨m1, by rw [hall fuel hf]; exact hinc, hr1.raised_inv hinv2, by rw [hr1.count_raised, hi.count],
      ?_, ?_, ?_, ⟨n1, hn1, hk1⟩, by rw [hr1.false_aig_raised, hi.false_aig]⟩
    · have := hr1.refCount_self
      rw [hps, hrc2] at this
      exact this
    · intro q hq
      rw [hr1.refCount_other (by rw [hps]; exact hq), hi.refCount_inserted rfl]
    · intro q
      rw [hr1.isSome_raised]
      by_cases hq : q = r
      · subst hq
        rw [hi.node]
        simp
      · rw [isSome_of_map_unlink (hi.others q hq)]
        simp [hq]

/-- Function `simpaig_var` on a key that the node `a` has: the call returns `a`, creates no
node and raises the counter of `a`, and of no other node, by one. -/
theorem var_again (NDEBUG : Bool) {m : simpaigmgr} (hinv : Inv m) {v s a : Nat} {n : simpaig}
    (hn : m.heap a = some n) (hkey : n.key = (v, s, 0, 0)) (haf : a ≠ m.false_aig)
    (hs : m.count_table < 2 ^ 31) (hw : refCount m a + 1 < UINT) {fuel : Nat}
    (hf : m.count_table < fuel) (p' : Nat) :
    ∃ m1, simpaig_var NDEBUG fuel m v s p' = Except.ok (m1, a) ∧ Inv m1 ∧
      m1.count_table = m.count_table ∧ refCount m1 a = refCount m a + 1 ∧
      (∀ q, q ≠ a → refCount m1 q = refCount m q) ∧
      (∀ q, (m1.heap q).isSome = (m.heap q).isSome) ∧
      (∃ n1, m1.heap a = some n1 ∧ n1.key = (v, s, 0, 0)) ∧ m1.false_aig = m.false_aig := by
  obtain ⟨m2, hinv2, hkept, hall⟩ := simpaig_var_hit NDEBUG hinv hn hkey haf hs
  have has : STRIP a = a := STRIP_even (hinv.1.aligned _ _ hn).1
  obtain ⟨n2, hn2, hk2⟩ := hkept.heap.keys_of_next.mapped_keys hn
  obtain ⟨m1, hinc, hr1⟩ := inc_raised NDEBUG m2 a
    (by rw [has]; exact ⟨n2, hn2⟩) (by rw [has, hkept.refCount_kept]; exact hw)
  obtain ⟨n1, hn1, hk1⟩ := hr1.keys_of_raised.mapped_keys hn2
  refine ⟨m1, by rw [hall fuel p' hf]; exact hinc, hr1.raised_inv hinv2,
    by rw [hr1.count_raised, hkept.count], ?_, ?_, ?_, ⟨n1, hn1, hk1.trans (hk2.trans hkey)⟩,
    by rw [hr1.false_aig_raised, hkept.false_aig]⟩
  · have := hr1.refCount_self
    rw [has, hkept.refCount_kept] at this
    exact this
  · intro q hq
    rw [hr1.refCount_other (by rw [has]; exact hq), hkept.refCount_kept]
  · intro q
    rw [hr1.isSome_raised, hkept.heap.isSome_next]

theorem var_calls_again (NDEBUG : Bool) {v s a : Nat} (fuel p' : Nat) :
    ∀ (k : Nat) (m : simpaigmgr), Inv m → (∃ n, m.heap a = some n ∧ n.key = (v, s, 0, 0)) →
      a ≠ m.false_aig → m.count_table < 2 ^ 31 → refCount m a + k < UINT →
      m.count_table < fuel →
      ∃ mk, var_calls NDEBUG fuel v s p' k m = Except.ok mk ∧
        refCount mk a = refCount m a + k ∧ mk.count_table = m.count_table ∧
        (∀ q, q ≠ a → refCount mk q = refCount m q) ∧
        (∀ q, (mk.heap q).isSome = (m.heap q).isSome)
  | 0, m, _, _, _, _, _, _ => ⟨m, rfl, rfl, rfl, fun _ _ => rfl, fun _ => rfl⟩
  | k + 1, m, hinv, ⟨n, hn, hkey⟩, haf, hs, hw, hf => by
    obtain ⟨m1, hrun, hinv1, hc1, hr1, ho1, hd1, hex1, hfa1⟩ :=
      var_again NDEBUG hinv hn hkey haf hs (by omega) hf p'
    obtain ⟨mk, hrunk, hrk, hck, hok, hdk⟩ :=
      var_calls_again NDEBUG fuel p' k m1 hinv1 hex1 (by rw [hfa1]; exact haf)
        (by rw [hc1]; exact hs) (by rw [hr1]; omega) (by rw [hc1]; exact hf)
    refine ⟨mk, ?_, by rw [hrk, hr1]; omega, by rw [hck, hc1],
      fun q hq => by rw [hok q hq, ho1 q hq], fun q => by rw [hdk, hd1]⟩
    rw [var_calls, hrun]
    exact hrunk

theorem init_no_key (fa : Nat) {v : Nat} (hv : v ≠ 0) (s : Nat) :
    ∀ a n, (simpaig_init_mem fa).heap a = some n → n.key ≠ (v, s, 0, 0) := by
  intro a n hn
  simp only [simpaig_init_mem] at hn
  split at hn
  · cases hn
    intro e
    simp only [simpaig.key, simpaig.zero, Prod.mk.injEq] at e
    exact hv e.1.symm
  · cases hn

theorem Fresh.ne_false {m : simpaigmgr} (hh : HeapOK m) {p : Nat} (hp : Fresh m p) :
    p ≠ m.false_aig := by
  intro e
  obtain ⟨nf, hnf, _⟩ := hh.false_node
  rw [← e, hp.2.2] at hnf
  cases hnf

/-- C2: in every state built by the constructors, for a non-null identity `v` and a slice `s`
that no node has as its key: (1) the first `simpaig_var (v, s)` returns the address `p` that
the allocator hands out, creates exactly that one node (`count_table` grows by 1, the set of
nodes grows by `p`), gives it the reference count 1 and changes no other count; (2) in every
state reached later by further calls, `simpaig_var (v, s)` returns the same reference `p`,
creates no node and raises the count of `p` by exactly 1 and no other count; (3) hence `k`
calls in a row leave the count of `p` at `k`, for every `1 ≤ k < 2 ^ 32`.  The calls return
under the resource bounds stated: fewer than `2 ^ 31` nodes, a counter below the largest
`unsigned` value, a fresh address and enough fuel. -/
theorem simpaig_var_hash_consing (NDEBUG : Bool) (m : simpaigmgr) (v s p fuel : Nat)
    (hbuilt : Built NDEBUG m) (hv : v ≠ 0)
    (hnew : ∀ a n, m.heap a = some n → n.key ≠ (v, s, 0, 0))
    (hs : m.count_table + 1 < 2 ^ 31) (hp : Fresh m p) (hf : m.count_table + 1 < fuel) :
    ∃ m1, simpaig_var NDEBUG fuel m v s p = Except.ok (m1, p) ∧
      m1.count_table = m.count_table + 1 ∧ refCount m1 p = 1 ∧
      (∀ q, q ≠ p → refCount m1 q = refCount m q) ∧
      (∀ q, (m1.heap q).isSome = (decide (q = p) || (m.heap q).isSome)) ∧
      (∀ m' fuel' p', Steps NDEBUG m1 m' → m'.count_table < 2 ^ 31 →
        refCount m' p + 1 < UINT → m'.count_table < fuel' →
        ∃ m'', simpaig_var NDEBUG fuel' m' v s p' = Except.ok (m'', p) ∧
          m''.count_table = m'.count_table ∧ refCount m'' p = refCount m' p + 1 ∧
          (∀ q, q ≠ p → refCount m'' q = refCount m' q) ∧
          (∀ q, (m''.heap q).isSome = (m'.heap q).isSome)) ∧
      (∀ k, 1 ≤ k → k < UINT →
        ∃ mk, var_calls NDEBUG fuel v s p k m = Except.ok mk ∧ refCount mk p = k ∧
          mk.count_table = m.count_table + 1 ∧ ∀ q, q ≠ p → refCount mk q = refCount m q) := by
  have hinv := hbuilt.built_inv
  have hpf := hp.ne_false hinv.1
  obtain ⟨m1, hrun, hinv1, hc1, hr1, ho1, hd1, hex1, hfa1⟩ :=
    var_first NDEBUG hinv hv hnew (by omega) hp fuel (by omega)
  refine ⟨m1, hrun, hc1, hr1, ho1, hd1, ?_, ?_⟩
  · intro m' fuel' p' hsteps hs' hw' hf'
    obtain ⟨hinv', hext⟩ := hsteps.steps_inv hinv1
    obtain ⟨n1, hn1, hk1⟩ := hex1
    obtain ⟨n', hn', hk'⟩ := hext.nodes p n1 hn1
    obtain ⟨m'', hrun', _, hc', hr', ho', hd', _, _⟩ :=
      var_again NDEBUG hinv' hn' (hk'.trans hk1)
        (by rw [hext.false_aig, hfa1]; exact hpf) hs' hw' hf' p'
    exact ⟨m'', hrun', hc', hr', ho', hd'⟩
  · intro k hk1 hk2
    obtain ⟨j, rfl⟩ : ∃ j, k = j + 1 := ⟨k - 1, by omega⟩
    obtain ⟨mk, hrunk, hrk, hck, hok, _⟩ :=
      var_calls_again NDEBUG fuel p j m1 hinv1 hex1 (by rw [hfa1]; exact hpf)
        (by rw [hc1]; omega) (by rw [hr1]; omega) (by rw [hc1]; omega)
    refine ⟨mk, ?_, by rw [hrk, hr1]; omega, by rw [hck, hc1],
      fun q hq => by rw [hok q hq, ho1 q hq]⟩
    rw [var_calls, hrun]
    exact hrunk

theorem simpaig_var_hash_consing_witness :
    ∃ m1, simpaig_var false 4 demo0 4096 0 1000 = Except.ok (m1, 1000) ∧
      m1.count_table = demo0.count_table + 1 ∧ refCount m1 1000 = 1 ∧
      (∀ q, q ≠ 1000 → refCount m1 q = refCount demo0 q) ∧
      (∀ q, (m1.heap q).isSome = (decide (q = 1000) || (demo0.heap q).isSome)) ∧
      (∀ m' fuel' p', Steps false m1 m' → m'.count_table < 2 ^ 31 →
        refCount m' 1000 + 1 < UINT → m'.count_table < fuel' →
        ∃ m'', simpaig_var false fuel' m' 4096 0 p' = Except.ok (m'', 1000) ∧
          m''.count_table = m'.count_table ∧ refCount m'' 1000 = refCount m' 1000 + 1 ∧
          (∀ q, q ≠ 1000 → refCount m'' q = refCount m' q) ∧
          (∀ q, (m''.heap q).isSome = (m'.heap q).isSome)) ∧
      (∀ k, 1 ≤ k → k < UINT →
        ∃ mk, var_calls false 4 4096 0 1000 k demo0 = Except.ok mk ∧ refCount mk 1000 = k ∧
          mk.count_table = demo0.count_table + 1 ∧
          ∀ q, q ≠ 1000 → refCount mk q = refCount demo0 q) :=
  simpaig_var_hash_consing false demo0 4096 0 1000 4 demo0_built (by decide)
    (init_no_key 64 (by decide) 0) (by decide) ⟨by decide, by decide, rfl⟩ (by decide)

/-! ## C10: growth of the table -/

theorem demo3_step : Step false demo2 demo3 :=
  @Step.var false demo2 demo3 4 12288 2 1080 1080 (by decide) ⟨by decide, by decide, rfl⟩ rfl

theorem demo3_built : Built false demo3 :=
  ⟨64, by decide, by decide,
    Steps.tail (Steps.tail (Steps.tail (Steps.refl _) demo1_step) demo2_step) demo3_step⟩

theorem count_ge_keys {m : simpaigmgr} (hinv : Inv m) (keys : List (Nat × Nat))
    (hnd : keys.Nodup)
    (hheld : ∀ key ∈ keys, key.1 ≠ 0 ∧ ∃ a n, m.heap a = some n ∧
      n.key = (key.1, key.2, 0, 0)) : keys.length ≤ m.count_table := by
  obtain ⟨hh, B, ht⟩ := hinv
  have hsub : keys ⊆ B.flatten.map (varKey m) := by
    intro key hkey
    obtain ⟨hv, a, n, hn, hk⟩ := hheld key hkey
    have haf := false_key_ne hh hn hk (Or.inl hv)
    refine List.mem_map.2 ⟨a, ht.mem_flatten hn haf, ?_⟩
    obtain ⟨e1, e2, _, _⟩ := key_eq_tuple hk
    unfold varKey
    rw [hn]
    show (n.var, n.slice) = key
    rw [e1, e2]
  have := (List.subperm_of_subset hnd hsub).length_le
  rw [List.length_map, ← ht.count] at this
  exact this

/-- C10: in every state built by the constructors in which `2 ^ k + 1` distinct variable
keys are present, `size_table` is at least `2 ^ (k + 1)`; and whatever earlier state `m0` the
state was reached from (so through any number of doublings of the table), the node `a` that
had the key `(v, s)` in `m0` is the reference `simpaig_var (v, s)` returns now, without
creating a node.  The call returns under the resource bounds stated. -/
theorem simpaig_table_growth (NDEBUG : Bool) (m : simpaigmgr) (k : Nat)
    (keys : List (Nat × Nat)) (hbuilt : Built NDEBUG m) (hnd : keys.Nodup)
    (hlen : keys.length = 2 ^ k + 1)
    (hheld : ∀ key ∈ keys, key.1 ≠ 0 ∧ ∃ a n, m.heap a = some n ∧
      n.key = (key.1, key.2, 0, 0)) :
    2 ^ (k + 1) ≤ m.size_table ∧
    ∀ (m0 : simpaigmgr) (v s a fuel p' : Nat), Built NDEBUG m0 → Steps NDEBUG m0 m → v ≠ 0 →
      (∃ n, m0.heap a = some n ∧ n.key = (v, s, 0, 0)) → m.count_table < 2 ^ 31 →
      refCount m a + 1 < UINT → m.count_table < fuel →
      ∃ m', simpaig_var NDEBUG fuel m v s p' = Except.ok (m', a) ∧
        m'.count_table = m.count_table ∧ ∀ q, (m'.heap q).isSome = (m.heap q).isSome := by
  have hinv := hbuilt.built_inv
  constructor
  · have hcount := count_ge_keys hinv keys hnd hheld
    obtain ⟨_, B, ht⟩ := hinv
    have hle := ht.count_le
    have hpos : 0 < 2 ^ k := Nat.two_pow_pos k
    have hsz : m.size_table ≠ 0 := by omega
    obtain ⟨j, _, hj⟩ := ht.powSize hsz
    rw [hj]
    apply Nat.pow_le_pow_right (by decide)
    have hlt : 2 ^ k < 2 ^ j := by omega
    have := (Nat.pow_lt_pow_iff_right (by decide : 1 < 2)).1 hlt
    omega
  · intro m0 v s a fuel p' hb0 hsteps hv ⟨n0, hn0, hk0⟩ hs hw hf
    obtain ⟨_, hext⟩ := hsteps.steps_inv hb0.built_inv
    obtain ⟨n, hn, hk⟩ := hext.nodes a n0 hn0
    have haf : a ≠ m.false_aig := false_key_ne hinv.1 hn (hk.trans hk0) (Or.inl hv)
    obtain ⟨m', hrun, _, hc, _, _, hd, _, _⟩ :=
      var_again NDEBUG hinv hn (hk.trans hk0) haf hs hw hf p'
    exact ⟨m', hrun, hc, hd⟩

theorem simpaig_table_growth_witness :
    2 ^ (1 + 1) ≤ demo3.size_table ∧
    ∀ (m0 : simpaigmgr) (v s a fuel p' : Nat), Built false m0 → Steps false m0 demo3 → v ≠ 0 →
      (∃ n, m0.heap a = some n ∧ n.key = (v, s, 0, 0)) → demo3.count_table < 2 ^ 31 →
      refCount demo3 a + 1 < UINT → demo3.count_table < fuel →
      ∃ m', simpaig_var false fuel demo3 v s p' = Except.ok (m', a) ∧
        m'.count_table = demo3.count_table ∧
        ∀ q, (m'.heap q).isSome = (demo3.heap q).isSome :=
  simpaig_table_growth false demo3 1 [(4096, 0), (8192, 1), (12288, 2)] demo3_built
    (by decide) (by decide)
    (by
      intro key hkey
      simp only [List.mem_cons, List.mem_singleton, List.not_mem_nil, or_false] at hkey
      rcases hkey with rfl | rfl | rfl
      · exact ⟨by decide, 1000, _, rfl, rfl⟩
      · exact ⟨by decide, 1040, _, rfl, rfl⟩
      · exact ⟨by decide, 1080, _, rfl, rfl⟩)

/-! ## Runs on which the code departs from the specification -/

/-- C4 (violated by the code): with `x` at `1000` and `y` at `1040`, both with reference
count 1, `simpaig_and (x, y)` finds no node in the table and inserts the fresh node `1080`
with the children `x` and `y`; the reference counts of `x` and `y` are 1 before and 1 after
the call, so the new parent holds no unit of either child.  Destroying the parent with `dec`
then releases one unit per child: both counts drop to 0. -/
theorem simpaig_and_new_node_child_counts :
    simpaig_and false 4 demo2 1000 1040 1080 = Except.ok (demoConj, 1080) ∧
    demo2.heap 1080 = none ∧ demoConj.count_table = demo2.count_table + 1 ∧
    (demoConj.heap 1080).map simpaig.key = some (0, 0, 1000, 1040) ∧
    refCount demo2 1000 = 1 ∧ refCount demoConj 1000 = 1 ∧
    refCount demo2 1040 = 1 ∧ refCount demoConj 1040 = 1 ∧
    isOk (dec false 4 demoConj 1080) = true ∧
    refCount (okMgr (dec false 4 demoConj 1080)) 1000 = 0 ∧
    refCount (okMgr (dec false 4 demoConj 1080)) 1040 = 0 :=
  ⟨rfl, rfl, rfl, rfl, rfl, rfl, rfl, rfl, rfl, rfl, rfl⟩

/-- C5 (violated by the code): after `a = var (x)`, `b = var (y)`, `c = and (a, b)` every node
has reference count 1.  `simpaig_dec (c)` destroys `c` and, through the recursive calls of
`dec` on the children, also `a` and `b`: all three counts are 0 and all three nodes have been
passed to the deallocator, although the references `a` and `b` are still held.  The next
release, `dec a`, meets a count of 0: with the assertions compiled in, `dec` fails its
assertion `aig->ref > 0`; in the `NDEBUG` build `simpaig_dec (a)` returns with the count
wrapped to `2 ^ 32 - 1`, and after `simpaig_dec (b)` both counts are `2 ^ 32 - 1`, not 0. -/
theorem simpaig_dec_release_unbalanced :
    refCount relConj 1000 = 1 ∧ refCount relConj 1040 = 1 ∧ refCount relConj 1080 = 1 ∧
    isOk (simpaig_dec true 4 relConj 1080) = true ∧
    refCount relConjDec 1000 = 0 ∧ refCount relConjDec 1040 = 0 ∧
    refCount relConjDec 1080 = 0 ∧
    FreeCall.node 1000 ∈ relConjDec.freed ∧ FreeCall.node 1040 ∈ relConjDec.freed ∧
    FreeCall.node 1080 ∈ relConjDec.freed ∧
    dec false 4 relConjDec 1000 = Except.error Err.assertion ∧
    isOk (simpaig_dec true 4 relConjDec 1000) = true ∧
    refCount (okMgr (simpaig_dec true 4 relConjDec 1000)) 1000 = 4294967295 ∧
    isOk (simpaig_dec true 4 (okMgr (simpaig_dec true 4 relConjDec 1000)) 1040) = true ∧
    refCount (okMgr (simpaig_dec true 4 (okMgr (simpaig_dec true 4 relConjDec 1000)) 1040))
      1040 = 4294967295 :=
  ⟨rfl, rfl, rfl, rfl, rfl, rfl, rfl, by decide, by decide, by decide, rfl, rfl, rfl, rfl, rfl⟩

/-- C7 (violated by the code): `simpaig_false` returns the address `64` of the embedded false
node and raises its count from 0 to 1.  Releasing that reference brings the count back to 0,
and `dec` then passes the embedded node to the deallocator: the log of `mgr->free` calls holds
`&mgr->false_aig`.  This is so in the `NDEBUG` build through `simpaig_dec` and, with the
assertions compiled in, in `dec` itself. -/
theorem dec_frees_false_sentinel :
    refCount demo0 64 = 0 ∧
    simpaig_false true demo0 = Except.ok (demoFalse, 64) ∧ demoFalse.false_aig = 64 ∧
    refCount demoFalse 64 = 1 ∧
    isOk (simpaig_dec true 1 demoFalse 64) = true ∧
    refCount (okMgr (simpaig_dec true 1 demoFalse 64)) 64 = 0 ∧
    (okMgr (simpaig_dec true 1 demoFalse 64)).freed = [FreeCall.node 64] ∧
    isOk (dec false 1 demoFalse 64) = true ∧
    (okMgr (dec false 1 demoFalse 64)).freed = [FreeCall.node 64] :=
  ⟨rfl, rfl, rfl, rfl, rfl, rfl, rfl, rfl, rfl⟩

/-- C8 (violated by the code): `x` is the variable at `1000` with reference count 1.
`simpaig_inc (not (x))` strips the sign and raises the count of `x` to 2, and
`simpaig_dec (x)` lowers it to 0; but `simpaig_dec (not (x))` hands the signed pointer `1001`
to `dec`, which dereferences it as it is: a memory fault, in the `NDEBUG` build through
`simpaig_dec` and, with the assertions compiled in, in `dec` itself.  The same happens in the
recursive release: the conjunction `c = and (not (x), y)` stores the child `1001`, and
destroying `c` calls `dec` on that signed pointer. -/
theorem simpaig_dec_signed_reference :
    refCount demo1 1000 = 1 ∧ NOT 1000 = 1001 ∧ STRIP 1001 = 1000 ∧
    isOk (simpaig_inc true 1 demo1 1001) = true ∧
    refCount (okState (simpaig_inc true 1 demo1 1001)) 1000 = 2 ∧
    isOk (simpaig_dec true 1 demo1 1000) = true ∧
    refCount (okMgr (simpaig_dec true 1 demo1 1000)) 1000 = 0 ∧
    simpaig_dec true 1 demo1 1001 = Except.error Err.memory ∧
    dec false 1 demo1 1001 = Except.error Err.memory ∧
    simpaig_and false 4 demo2 1001 1040 1080 = Except.ok (demoNegConj, 1080) ∧
    (demoNegConj.heap 1080).map simpaig.key = some (0, 0, 1001, 1040) ∧
    refCount demoNegConj 1080 = 1 ∧
    simpaig_dec true 4 demoNegConj 1080 = Except.error Err.memory ∧
    dec false 4 demoNegConj 1080 = Except.error Err.memory :=
  ⟨rfl, rfl, rfl, rfl, rfl, rfl, rfl, rfl, rfl, rfl, rfl, rfl, rfl, rfl⟩

/-- C9 (violated by the code): `demo3` holds three variables in a table of 4 buckets, the
node `1040` in bucket 3.  `simpaig_reset` walks the buckets `0 .. count_table - 1`, that is
`0, 1, 2`: it releases the nodes `1000` and `1080` and never the node `1040`; and it releases
the bucket array, allocated with 4 elements, as `count_table = 3` elements. -/
theorem simpaig_reset_misses_bucket :
    demo3.size_table = 4 ∧ demo3.table.length = 4 ∧ demo3.count_table = 3 ∧
    demo3.table = [1000, 0, 1080, 1040] ∧ (demo3.heap 1040).isSome = true ∧
    isOk (simpaig_reset 4 demo3) = true ∧
    (okMgr (simpaig_reset 4 demo3)).freed = demo3.freed ++
      [FreeCall.node 1000, FreeCall.node 1080, FreeCall.table [1000, 0, 1080, 1040] 3,
        FreeCall.cached 0, FreeCall.assigned 0, FreeCall.mgr] ∧
    FreeCall.node 1040 ∉ (okMgr (simpaig_reset 4 demo3)).freed ∧
    FreeCall.table demo3.table demo3.size_table ∉ (okMgr (simpaig_reset 4 demo3)).freed :=
  ⟨rfl, rfl, rfl, rfl, rfl, rfl, rfl, by decide, by decide⟩

/-- C6 (violated by the code): five variables are built, the fifth (identity `4096`, slice
`8`, node `1160`) behind the first (node `1000`) in the chain of bucket 0.  The first is
released with `simpaig_dec`: `dec` passes it to the deallocator and leaves it linked in its
chain.  The allocator hands the address `1000` out again for a new variable of another
bucket; `NEW` clears the node, its `next` field included, which cuts the node `1160` off the
chain of bucket 0.  `simpaig_var` with the key of the fifth variable then finds nothing and
creates the node `1200`: the nodes `1160` and `1200` both have the key `(4096, 8, 0, 0)`, and
both have reference count 1.  Every address the allocator returned was unused or had been
released before, and no released storage is read in between. -/
theorem duplicate_key_after_release :
    simpaig_var true 4 demo0 4096 0 1000 = Except.ok (reuse1, 1000) ∧
    simpaig_var true 4 reuse1 4096 1 1040 = Except.ok (reuse2, 1040) ∧
    simpaig_var true 4 reuse2 4096 2 1080 = Except.ok (reuse3, 1080) ∧
    simpaig_var true 4 reuse3 4096 3 1120 = Except.ok (reuse4, 1120) ∧
    simpaig_var true 8 reuse4 4096 8 1160 = Except.ok (reuse5, 1160) ∧
    demo0.heap 1000 = none ∧ reuse1.heap 1040 = none ∧ reuse2.heap 1080 = none ∧
    reuse3.heap 1120 = none ∧ reuse4.heap 1160 = none ∧
    reuse5.table = [1000, 1120, 0, 1040, 0, 0, 1080, 0] ∧
    (reuse5.heap 1000).map simpaig.next = some 1160 ∧
    simpaig_dec true 1 reuse5 1000 = Except.ok reuse6 ∧
    refCount reuse6 1000 = 0 ∧ FreeCall.node 1000 ∈ reuse6.freed ∧
    reuse6.table = reuse5.table ∧ (reuse6.heap 1000).map simpaig.next = some 1160 ∧
    simpaig_var true 4 reuse6 4096 4 1000 = Except.ok (reuse7, 1000) ∧
    (reuse7.heap 1000).map simpaig.next = some 0 ∧
    reuse7.heap 1200 = none ∧
    simpaig_var true 4 reuse7 4096 8 1200 = Except.ok (reuse8, 1200) ∧
    (reuse8.heap 1160).map simpaig.key = some (4096, 8, 0, 0) ∧
    (reuse8.heap 1200).map simpaig.key = some (4096, 8, 0, 0) ∧
    refCount reuse8 1160 = 1 ∧ refCount reuse8 1200 = 1 :=
  ⟨rfl, rfl, rfl, rfl, rfl, rfl, rfl, rfl, rfl, rfl, rfl, rfl, rfl, rfl, by decide, rfl, rfl,
    rfl, rfl, rfl, rfl, rfl, rfl, rfl, rfl⟩

/-- Function `simpaig_and` when no rule applies and the table holds no node with the two
children: one node is created at the address the allocator returns, with counter `1` and the
children as given, and the counters of all other nodes, those of the children included, are
kept. -/
theorem and_first (NDEBUG : Bool) {m : simpaigmgr} (hinv : Inv m) {c0 c1 p : Nat}
    (h0 : ∃ n, m.heap (STRIP c0) = some n) (h1 : ∃ n, m.heap (STRIP c1) = some n)
    (hsim : simplify m.false_aig c0 c1 = none)
    (hnew : ∀ a n, m.heap a = some n → n.key ≠ (0, 0, c1, c0) ∧ n.key ≠ (0, 0, c0, c1))
    (hs : m.count_table < 2 ^ 31) (hp : Fresh m p) (fuel : Nat) (hf : m.count_table < fuel) :
    ∃ m1, simpaig_and NDEBUG fuel m c0 c1 p = Except.ok (m1, p) ∧ Inv m1 ∧
      m1.count_table = m.count_table + 1 ∧ refCount m1 p = 1 ∧
      (m1.heap p).map simpaig.key = some (0, 0, c0, c1) ∧
      (∀ q, q ≠ p → refCount m1 q = refCount m q) ∧
      refCount m1 (STRIP c0) = refCount m (STRIP c0) ∧
      refCount m1 (STRIP c1) = refCount m (STRIP c1) := by
  have hh := hinv.1
  obtain ⟨mt, r, hinvt, hpre, hall⟩ :=
    and_table_run NDEBUG hinv (ne_zero_of_mapped hh h0) (ne_zero_of_mapped hh h1) hp.2.2 hp.2.1
      hp.1 hs
  rcases hpre with ⟨_, _, n, hn, hk⟩ | ⟨_, hr, hi⟩
  · rcases hk with e | e
    · exact absurd e (hnew r n hn).1
    · exact absurd e (hnew r n hn).2
  · subst hr
    have hps : STRIP r = r := STRIP_even hp.2.1
    have hrc2 : refCount mt r = 0 := refCount_of_heap hi.node
    obtain ⟨m1, hinc, hr1⟩ := inc_raised NDEBUG mt r
      (by rw [hps]; exact ⟨_, hi.node⟩) (by rw [hps, hrc2]; unfold UINT; decide)
    obtain ⟨n1, hn1, hk1⟩ := hr1.keys_of_raised.mapped_keys hi.node
    have hother : ∀ q, q ≠ r → refCount m1 q = refCount m q := by
      intro q hq
      rw [hr1.refCount_other (by rw [hps]; exact hq), hi.refCount_inserted rfl]
    have hne : ∀ c, (∃ n, m.heap c = some n) → c ≠ r := by
      intro c ⟨n, hn⟩ e
      rw [e, hp.2.2] at hn
      cases hn
    refine ⟨m1, ?_, hr1.raised_inv hinvt, by rw [hr1.count_raised, hi.count], ?_, ?_, hother,
      hother _ (hne _ h0), hother _ (hne _ h1)⟩
    · rw [simpaig_and_simplify NDEBUG fuel hh h0 h1 r, hsim]
      simp only
      rw [hall fuel hf]
      exact hinc
    · have := hr1.refCount_self
      rw [hps, hrc2] at this
      exact this
    · rw [hn1]
      simp only [Option.map_some', Option.some.injEq]
      rw [hk1]
      rfl

/-- A run of `dec` changes reference counters and the log of releases, and nothing else: the
keys and chain links of all nodes, the table and the counters of the manager are kept. -/
theorem dec_frame (NDEBUG : Bool) :
    ∀ (fuel : Nat) (m m' : simpaigmgr) (aig : Nat), dec NDEBUG fuel m aig = Except.ok m' →
      SameButRef m.heap m'.heap ∧ m'.table = m.table ∧ m'.count_table = m.count_table ∧
      m'.size_table = m.size_table ∧ m'.false_aig = m.false_aig ∧
      m'.count_cached = m.count_cached ∧ m'.count_assigned = m.count_assigned ∧
      ∃ l, m'.freed = m.freed ++ l
  | 0, m, m', aig, h => by
    rw [dec] at h
    cases h
  | fuel + 1, m, m', aig, h => by
    rw [dec] at h
    split at h
    · cases h
    · obtain ⟨u, _, h0⟩ := bind_eq_ok h
      obtain ⟨n, hn, h1⟩ := bind_eq_ok h0
      have hn' := load_eq_ok.1 hn
      split at h1
      · cases h1
      · obtain ⟨u2, _, h2⟩ := bind_eq_ok h1
        generalize hr : (n.ref + UINT - 1) % UINT = r at h2
        have hs1 := store_ref_sameButRef hn' r
        dsimp only at h2
        split at h2
        · cases h2
          exact ⟨hs1, rfl, rfl, rfl, rfl, rfl, rfl, [], (List.append_nil _).symm⟩
        · obtain ⟨n1, hn1, h3⟩ := bind_eq_ok h2
          split at h3
          · obtain ⟨m2, hm2, h4⟩ := bind_eq_ok h3
            obtain ⟨n2, _, h5⟩ := bind_eq_ok h4
            obtain ⟨m3, hm3, h6⟩ := bind_eq_ok h5
            cases h6
            obtain ⟨a1, a2, a3, a4, a5, a6, a7, l1, a8⟩ := dec_frame NDEBUG fuel _ m2 _ hm2
            obtain ⟨b1, b2, b3, b4, b5, b6, b7, l2, b8⟩ := dec_frame NDEBUG fuel m2 m3 _ hm3
            refine ⟨(hs1.trans_ref a1).trans_ref b1, b2.trans a2, b3.trans a3, b4.trans a4,
              b5.trans a5, b6.trans a6, b7.trans a7, l1 ++ l2 ++ [FreeCall.node aig], ?_⟩
            show m3.freed ++ _ = _
            rw [b8, a8]
            simp only [store_freed, List.append_assoc]
          · obtain ⟨m3, hm3, h6⟩ := bind_eq_ok h3
            cases hm3
            cases h6
            exact ⟨hs1, rfl, rfl, rfl, rfl, rfl, rfl, [FreeCall.node aig], rfl⟩

theorem IMPORT_release (fuel : Nat) (m : simpaigmgr) (p : Nat) :
    IMPORT true fuel m p = Except.ok p := rfl

theorem SIGN_le_one (x : Nat) : SIGN x ≤ 1 := by
  rw [SIGN_eq]
  omega

theorem SIGN_NOT (x : Nat) : SIGN (NOT x) = 1 - SIGN x := by
  rw [SIGN_eq, SIGN_eq, NOT_eq]
  split <;> omega

theorem STRIP_STRIP (x : Nat) : STRIP (STRIP x) = STRIP x := by
  unfold STRIP
  omega

theorem SIGN_STRIP (x : Nat) : SIGN (STRIP x) = 0 := by
  rw [SIGN_eq]
  unfold STRIP
  omega

/-- C11: negation is a pure involution on references.  For every pointer value `x`:
`not (not (x)) = x`, `strip (not (x)) = strip (x)`, `sign (not (x)) = 1 - sign (x)`,
`strip (strip (x)) = strip (x)` and `sign (strip (x)) = 0`.  The functions `simpaig_not`,
`simpaig_strip` and `simpaig_signed` of the `NDEBUG` build return these values in every state
of the manager and with any fuel, and `simpaig_not` applied twice returns `x`.  They yield a
value only: the manager is an argument that is read, never a result, so no reference counter
and no part of the table can differ after the call. -/
theorem simpaig_not_involution (x : Nat) :
    NOT (NOT x) = x ∧ STRIP (NOT x) = STRIP x ∧ SIGN (NOT x) = 1 - SIGN x ∧
    STRIP (STRIP x) = STRIP x ∧ SIGN (STRIP x) = 0 ∧
    ∀ (fuel : Nat) (m : simpaigmgr),
      simpaig_not true fuel m x = Except.ok (NOT x) ∧
      simpaig_strip true fuel m x = Except.ok (STRIP x) ∧
      simpaig_signed true fuel m x = Except.ok (SIGN x) ∧
      (simpaig_not true fuel m x >>= simpaig_not true fuel m) = Except.ok x := by
  refine ⟨NOT_NOT x, STRIP_NOT x, SIGN_NOT x, STRIP_STRIP x, SIGN_STRIP x, ?_⟩
  intro fuel m
  refine ⟨rfl, rfl, rfl, ?_⟩
  show Except.ok (NOT (NOT x)) = Except.ok x
  rw [NOT_NOT]

/-- C12, as stated, fails: in the state `demo1`, where `x = 1000` is the variable with the
identity `4096`, `simpaig_isvar (x)` returns the identity and `simpaig_isvar (not (x))`
returns the null pointer, although `strip (not (x))` is the same variable node. -/
theorem simpaig_isvar_signed_null :
    simpaig_isvar true 0 demo1 1000 = Except.ok 4096 ∧
    simpaig_isvar true 0 demo1 (NOT 1000) = Except.ok 0 ∧
    STRIP (NOT 1000) = 1000 ∧
    (demo1.heap (STRIP (NOT 1000))).map simpaig.var = some 4096 :=
  ⟨rfl, rfl, rfl, rfl⟩

/-- C12, amended: for every valid reference `r`, with `n` the node of `strip (r)`, in the
`NDEBUG` build and with any fuel: `simpaig_isvar (r)` returns the identity `n.var` when `r` is
unsigned and the null pointer when `r` is signed (so it is non-null exactly when `r` is an
unsigned reference to a variable node, and `simpaig_isvar (strip (r))` is the identity);
`simpaig_isand (r)` is true exactly when `n` has no identity and has a child, and
`simpaig_isand (not (r)) = simpaig_isand (r)`; and
`simpaig_istrue (r) = simpaig_isfalse (not (r))`. -/
theorem simpaig_shape_predicates {m : simpaigmgr} {r : Nat} (hr : Valid m r) (fuel : Nat) :
    ∃ n, m.heap (STRIP r) = some n ∧
      simpaig_isvar true fuel m r = Except.ok (if SIGN r = 0 then n.var else 0) ∧
      simpaig_isvar true fuel m (STRIP r) = Except.ok n.var ∧
      simpaig_isand true fuel m r = Except.ok (n.var == 0 && n.c0 != 0) ∧
      simpaig_isand true fuel m (NOT r) = simpaig_isand true fuel m r ∧
      simpaig_istrue true fuel m r = simpaig_isfalse true fuel m (NOT r) := by
  obtain ⟨n, hn⟩ := hr.mapped_valid
  have hS : ∀ q, m.heap q = some n → SIGN q = 0 →
      simpaig_isvar true fuel m q = Except.ok n.var := by
    intro q hq hs
    simp only [simpaig_isvar, IMPORT_release, ok_bind, ISVAR, hs, ne_eq, not_true_eq_false,
      if_false, load_of_heap hq, pure_eq_ok]
    by_cases hv : n.var = 0 <;> simp [hv]
  refine ⟨n, hn, ?_, hS _ hn (SIGN_STRIP r), ?_, ?_, rfl⟩
  · by_cases hs : SIGN r = 0
    · rw [if_pos hs]
      have : STRIP r = r := STRIP_even (by rw [← SIGN_eq]; exact hs)
      exact hS r (this ▸ hn) hs
    · rw [if_neg hs]
      simp only [simpaig_isvar, IMPORT_release, ok_bind, ISVAR, hs, ne_eq, not_false_eq_true,
        if_true]
      rfl
  · simp only [simpaig_isand, IMPORT_release, ok_bind, load_of_heap hn, pure_eq_ok]
  · simp only [simpaig_isand, IMPORT_release, ok_bind, STRIP_NOT]

theorem simpaig_shape_predicates_witness :
    Valid demo1 (NOT 1000) ∧
    ∃ n, demo1.heap (STRIP (NOT 1000)) = some n ∧
      simpaig_isvar true 0 demo1 (NOT 1000) =
        Except.ok (if SIGN (NOT 1000) = 0 then n.var else 0) ∧
      simpaig_isvar true 0 demo1 (STRIP (NOT 1000)) = Except.ok n.var ∧
      simpaig_isand true 0 demo1 (NOT 1000) = Except.ok (n.var == 0 && n.c0 != 0) ∧
      simpaig_isand true 0 demo1 (NOT (NOT 1000)) = simpaig_isand true 0 demo1 (NOT 1000) ∧
      simpaig_istrue true 0 demo1 (NOT 1000) = simpaig_isfalse true 0 demo1 (NOT (NOT 1000)) :=
  ⟨⟨by decide, by decide⟩, simpaig_shape_predicates ⟨by decide, by decide⟩ 0⟩

/-- C13: with the assertions compiled in, `simpaig_valid` does not return: for every
reference, every state and every step budget the run is still inside the chain of calls
`simpaig_valid` → `IMPORT` → `simpaig_valid` when the budget ends.  No call yields `true` or
`false`, and so no function that starts with `IMPORT` returns either. -/
theorem simpaig_valid_never_returns (fuel : Nat) (m : simpaigmgr) (aig : Nat) :
    simpaig_valid false fuel m aig = Except.error Err.fuel ∧
    IMPORT false fuel m aig = Except.error Err.fuel ∧
    simpaig_inc false fuel m aig = Except.error Err.fuel := by
  have h : ∀ f, simpaig_valid false f m aig = Except.error Err.fuel := by
    intro f
    induction f with
    | zero => rfl
    | succ f ih =>
      rw [simpaig_valid]
      simp only [Bool.not_false, if_true, ih, error_bind]
  have h2 : IMPORT false fuel m aig = Except.error Err.fuel := by
    simp only [IMPORT, Bool.false_eq_true, if_false, h, error_bind]
  refine ⟨h fuel, h2, ?_⟩
  simp only [simpaig_inc, h2, error_bind]

theorem lookup_hit {m : simpaigmgr} {B : List (List Nat)} (h : TableOK m B) (hh : HeapOK m)
    (hs : m.size_table ≠ 0) {a : Nat} {n : simpaig} (ha : a ∈ B.flatten)
    (hn : m.heap a = some n) {var slice c0 c1 : Nat} (hk : n.key = (var, slice, c0, c1))
    (fuel : Nat) (hf : m.count_table < fuel) :
    lookup fuel m var slice c0 c1 = Except.ok a := by
  obtain ⟨e1, e2, e3, e4⟩ := key_eq_tuple hk
  obtain ⟨r, h1, h2⟩ := find_hit h hh hs ha hn fuel hf
  rw [e1, e2, e3, e4] at h1
  unfold lookup
  rw [h1, ok_bind, h2]

theorem lookup_miss {m : simpaigmgr} {B : List (List Nat)} (h : TableOK m B)
    (hs : m.size_table ≠ 0) {var slice c0 c1 : Nat}
    (hk : ∀ a ∈ B.flatten, ∀ n, m.heap a = some n → n.key ≠ (var, slice, c0, c1))
    (fuel : Nat) (hf : m.count_table < fuel) :
    lookup fuel m var slice c0 c1 = Except.ok 0 := by
  obtain ⟨h1, h2⟩ := find_miss h hs hk fuel hf
  unfold lookup
  rw [h1, ok_bind, h2]

theorem TableOK.mem_iff {m : simpaigmgr} {B : List (List Nat)} (h : TableOK m B) (a : Nat) :
    a ∈ B.flatten ↔ a ≠ m.false_aig ∧ (m.heap a).isSome := by
  constructor
  · intro ha
    refine ⟨fun e => h.false_notin (e ▸ ha), ?_⟩
    obtain ⟨i, hi⟩ := mem_flatten_iff_getElem?.1 ha
    obtain ⟨_, n, hn⟩ := Chain_mapped _ _ (h.buckets.chains i) a hi
    rw [hn]
    rfl
  · rintro ⟨ha, hs⟩
    obtain ⟨n, hn⟩ := Option.isSome_iff_exists.1 hs
    exact h.mem_flatten hn ha

/-- Function `simpaig_enlarge` leaves every lookup as it was. -/
theorem lookup_enlarge {m m' : simpaigmgr} {B B' : List (List Nat)} (h : TableOK m B)
    (hh : HeapOK m) (h' : TableOK m' B') (hh' : HeapOK m') (hp : B'.flatten.Perm B.flatten)
    (hk : SameKeys m.heap m'.heap) (hc : m'.count_table = m.count_table)
    (hs : m.size_table ≠ 0) (hs' : m'.size_table ≠ 0) (fuel : Nat) (hf : m.count_table < fuel)
    (var slice c0 c1 : Nat) :
    ∃ r, lookup fuel m var slice c0 c1 = Except.ok r ∧
      lookup fuel m' var slice c0 c1 = Except.ok r := by
  by_cases hex : ∃ a ∈ B.flatten, ∃ n, m.heap a = some n ∧ n.key = (var, slice, c0, c1)
  · obtain ⟨a, ha, n, hn, hkey⟩ := hex
    obtain ⟨n', hn', hkey'⟩ := hk.mapped_keys hn
    exact ⟨a, lookup_hit h hh hs ha hn hkey fuel hf,
      lookup_hit h' hh' hs' (hp.mem_iff.2 ha) hn' (hkey'.trans hkey) fuel (hc ▸ hf)⟩
  · refine ⟨0, lookup_miss h hs ?_ fuel hf, lookup_miss h' hs' ?_ fuel (hc ▸ hf)⟩
    · intro a ha n hn hkey
      exact hex ⟨a, ha, n, hn, hkey⟩
    · intro a ha n' hn' hkey'
      obtain ⟨n, hn, hkey⟩ := hk.symm_keys.mapped_keys hn'
      exact hex ⟨a, hp.mem_iff.1 ha, n, hn, hkey.trans hkey'⟩

/-- C19: the shape of the table.  In every state built from the empty manager by calls that
return, with fewer than `2 ^ 31` nodes, there are chains `B`, one per bucket, such that: the
bucket array heads these chains and every node of the chain of bucket `h` hashes to `h` under
the current `size_table` (`Buckets`); no node is linked twice; the linked nodes are exactly
the nodes in memory other than the false node; `count_table` is the number of linked nodes
and `count_table ≤ size_table`; once a node has been inserted `size_table` is a power of two;
`simpaig_hash` returns an index below `size_table` whenever the table is not empty, which is
the case in the state in which the constructors call `simpaig_find`; and `simpaig_enlarge`,
on a table of fewer than `2 ^ 31` buckets and with enough fuel, returns a state with
`size_table` doubled (`0` becomes `1`), the same `count_table`, the same nodes up to their
chain links, a well formed table again, and the same result of the lookup for every key. -/
theorem table_shape_invariant {NDEBUG : Bool} {m : simpaigmgr} (hb : Built NDEBUG m)
    (hs : m.count_table < 2 ^ 31) :
    ∃ B : List (List Nat),
      Buckets m B ∧ B.flatten.Nodup ∧
      (∀ a, a ∈ B.flatten ↔ a ≠ m.false_aig ∧ (m.heap a).isSome) ∧
      m.count_table = B.flatten.length ∧ m.count_table ≤ m.size_table ∧
      (0 < m.count_table → ∃ k, m.size_table = 2 ^ k) ∧
      (m.size_table ≠ 0 → ∀ v s c0 c1, simpaig_hash m v s c0 c1 < m.size_table) ∧
      (∀ a n, a ∈ B.flatten → m.heap a = some n →
        a ∈ (B[simpaig_hash m n.var n.slice n.c0 n.c1]?).getD []) ∧
      (∀ fuel m1,
        (if m.size_table = m.count_table then simpaig_enlarge fuel m else pure m) =
          Except.ok m1 →
        ∀ v s c0 c1, simpaig_hash m1 v s c0 c1 < m1.size_table) ∧
      (∀ fuel, m.count_table < fuel → m.size_table < 2 ^ 31 →
        ∃ m', simpaig_enlarge fuel m = Except.ok m' ∧
          m'.size_table = (if m.size_table = 0 then 1 else 2 * m.size_table) ∧
          m'.count_table = m.count_table ∧ SameButNext m.heap m'.heap ∧ Inv m' ∧
          (∀ v s c0 c1, simpaig_hash m' v s c0 c1 < m'.size_table) ∧
          (m.size_table ≠ 0 → ∀ v s c0 c1, ∃ r,
            lookup fuel m v s c0 c1 = Except.ok r ∧
            lookup fuel m' v s c0 c1 = Except.ok r)) := by
  obtain ⟨hh, B, ht⟩ := hb.built_inv
  refine ⟨B, ht.buckets, ht.nodup, ht.mem_iff, ht.count, ht.count_le, ?_, ?_, ?_, ?_, ?_⟩
  · intro hc
    obtain ⟨k, _, hk⟩ := ht.powSize (by have := ht.count_le; omega)
    exact ⟨k, hk⟩
  · intro h0 v s c0 c1
    exact (ht.powSize h0).hash_lt v s c0 c1
  · intro a n ha hn
    exact ht.mem_bucket hn ha
  · intro fuel m1 hrun v s c0 c1
    obtain ⟨B1, ht1, _, _, hlt, _, _⟩ := maybe_enlarge_ok ht hh hrun
    exact (ht1.powSize (by omega)).hash_lt v s c0 c1
  · intro fuel hf hsz
    obtain ⟨m', B', hrun, ht', hp, hsame, hsize, hlt, hc, hfa, _, _, _⟩ :=
      enlarge_spec ht hsz fuel hf
    have hh' : HeapOK m' := hh.transfer_heap hsame.keys_of_next hfa
    have hs' : m'.size_table ≠ 0 := by omega
    refine ⟨m', hrun, hsize, hc, hsame, ⟨hh', B', ht'⟩, ?_, ?_⟩
    · intro v s c0 c1
      exact (ht'.powSize hs').hash_lt v s c0 c1
    · intro h0 v s c0 c1
      exact lookup_enlarge ht hh ht' hh' hp hsame.keys_of_next hc h0 hs' fuel hf v s c0 c1

theorem table_shape_invariant_witness :
    demo2.count_table < 2 ^ 31 ∧
    ∃ B : List (List Nat),
      Buckets demo2 B ∧ B.flatten.Nodup ∧
      (∀ a, a ∈ B.flatten ↔ a ≠ demo2.false_aig ∧ (demo2.heap a).isSome) ∧
      demo2.count_table = B.flatten.length ∧ demo2.count_table ≤ demo2.size_table ∧
      (0 < demo2.count_table → ∃ k, demo2.size_table = 2 ^ k) ∧
      (demo2.size_table ≠ 0 →
        ∀ v s c0 c1, simpaig_hash demo2 v s c0 c1 < demo2.size_table) ∧
      (∀ a n, a ∈ B.flatten → demo2.heap a = some n →
        a ∈ (B[simpaig_hash demo2 n.var n.slice n.c0 n.c1]?).getD []) ∧
      (∀ fuel m1,
        (if demo2.size_table = demo2.count_table then simpaig_enlarge fuel demo2
          else pure demo2) =
          Except.ok m1 →
        ∀ v s c0 c1, simpaig_hash m1 v s c0 c1 < m1.size_table) ∧
      (∀ fuel, demo2.count_table < fuel → demo2.size_table < 2 ^ 31 →
        ∃ m', simpaig_enlarge fuel demo2 = Except.ok m' ∧
          m'.size_table = (if demo2.size_table = 0 then 1 else 2 * demo2.size_table) ∧
          m'.count_table = demo2.count_table ∧ SameButNext demo2.heap m'.heap ∧ Inv m' ∧
          (∀ v s c0 c1, simpaig_hash m' v s c0 c1 < m'.size_table) ∧
          (demo2.size_table ≠ 0 → ∀ v s c0 c1, ∃ r,
            lookup fuel demo2 v s c0 c1 = Except.ok r ∧
            lookup fuel m' v s c0 c1 = Except.ok r)) :=
  ⟨by decide, table_shape_invariant demo2_built (by decide)⟩

theorem bind_eq_error {α β : Type} {x : Except Err α} {f : α → Except Err β} {e : Err}
    (h : (x >>= f) = Except.error e) :
    x = Except.error e ∨ ∃ a, x = Except.ok a ∧ f a = Except.error e := by
  cases x with
  | error e' => left; simpa using h
  | ok a => exact Or.inr ⟨a, rfl, by simpa using h⟩

/-- One step of a run of `dec` that returns, on a node `n` at the address `aig`: the counter
is lowered; if it is not `0` the run is over, and otherwise the children, if any, are released
by the two recursive calls and the node is passed to the deallocator. -/
theorem dec_inv {NDEBUG : Bool} {fuel : Nat} {m m' : simpaigmgr} {aig : Nat} {n : simpaig}
    (h : dec NDEBUG (fuel + 1) m aig = Except.ok m') (hn : m.heap aig = some n) :
    ∃ r, r = (n.ref + UINT - 1) % UINT ∧
      ((r ≠ 0 ∧ m' = store m aig { n with ref := r }) ∨
       (r = 0 ∧ ∃ m3,
         ((n.c0 = 0 ∧ m3 = store m aig { n with ref := r }) ∨
          (n.c0 ≠ 0 ∧ ∃ m2 n2, dec NDEBUG fuel (store m aig { n with ref := r }) n.c0 =
              Except.ok m2 ∧ m2.heap aig = some n2 ∧ dec NDEBUG fuel m2 n2.c1 = Except.ok m3)) ∧
         m' = { m3 with freed := m3.freed ++ [FreeCall.node aig] })) := by
  rw [dec] at h
  split at h
  · cases h
  · obtain ⟨u, _, h0⟩ := bind_eq_ok h
    obtain ⟨n', hn', h1⟩ := bind_eq_ok h0
    obtain rfl : n = n' := by
      have := load_eq_ok.1 hn'
      rw [hn] at this
      exact Option.some.inj this
    split at h1
    · cases h1
    · obtain ⟨u2, _, h2⟩ := bind_eq_ok h1
      generalize hr : (n.ref + UINT - 1) % UINT = r at h2
      refine ⟨r, rfl, ?_⟩
      dsimp only at h2
      split at h2
      · rename_i hne
        cases h2
        exact Or.inl ⟨hne, rfl⟩
      · rename_i hne
        right
        refine ⟨not_not.1 hne, ?_⟩
        obtain ⟨n1, hn1, h3⟩ := bind_eq_ok h2
        have hn1' := load_eq_ok.1 hn1
        rw [store_heap_same] at hn1'
        obtain rfl := Option.some.inj hn1'
        split at h3
        · rename_i hc0
          obtain ⟨m2, hm2, h4⟩ := bind_eq_ok h3
          obtain ⟨n2, hn2, h5⟩ := bind_eq_ok h4
          obtain ⟨m3, hm3, h6⟩ := bind_eq_ok h5
          cases h6
          exact ⟨m3, Or.inr ⟨hc0, m2, n2, hm2, load_eq_ok.1 hn2, hm3⟩, rfl⟩
        · rename_i hc0
          obtain ⟨m3, hm3, h6⟩ := bind_eq_ok h3
          cases hm3
          cases h6
          exact ⟨_, Or.inl ⟨not_not.1 hc0, rfl⟩, rfl⟩

/-- In the `NDEBUG` build `dec` returns on every node without children. -/
theorem dec_leaf_returns {m : simpaigmgr} {a : Nat} {n : simpaig} (hn : m.heap a = some n)
    (hc : n.c0 = 0) (fuel : Nat) : ∃ m', dec true (fuel + 1) m a = Except.ok m' := by
  cases hres : dec true (fuel + 1) m a with
  | ok m' => exact ⟨m', rfl⟩
  | error e =>
    exfalso
    rw [dec] at hres
    split at hres
    · rename_i hcond
      simp at hcond
    · rcases bind_eq_error hres with h0 | ⟨u, _, h0⟩
      · cases h0
      · rcases bind_eq_error h0 with h1 | ⟨n', hn', h1⟩
        · rw [load_of_heap hn] at h1
          cases h1
        · obtain rfl : n = n' := by
            have := load_eq_ok.1 hn'
            rw [hn] at this
            exact Option.some.inj this
          split at h1
          · rename_i hcond
            simp at hcond
          · rcases bind_eq_error h1 with h2 | ⟨u2, _, h2⟩
            · cases h2
            · generalize (n.ref + UINT - 1) % UINT = r at h2
              dsimp only at h2
              split at h2
              · cases h2
              · rcases bind_eq_error h2 with h3 | ⟨n1, hn1, h3⟩
                · rw [load_of_heap (store_heap_same _ _ _)] at h3
                  cases h3
                · have hn1' := load_eq_ok.1 hn1
                  rw [store_heap_same] at hn1'
                  obtain rfl := Option.some.inj hn1'
                  split at h3
                  · rename_i hc0
                    exact hc0 hc
                  · rcases bind_eq_error h3 with h4 | ⟨m3, hm3, h4⟩
                    · cases h4
                    · cases h4

theorem inc_release {m : simpaigmgr} {res : Nat} {n : simpaig}
    (hn : m.heap (STRIP res) = some n) :
    inc true m res =
      Except.ok (store m (STRIP res) { n with ref := (n.ref + 1) % UINT }, res) := by
  unfold inc
  dsimp only
  rw [load_of_heap hn]
  rfl

/-- A run of `dec` on a node with the counter `1` ends with the node passed to the
deallocator; a node without children is left with the counter `0`. -/
theorem dec_destroys {NDEBUG : Bool} {fuel : Nat} {m m' : simpaigmgr} {a : Nat} {n : simpaig}
    (h : dec NDEBUG fuel m a = Except.ok m') (hn : m.heap a = some n) (href : n.ref = 1) :
    (∃ l, m'.freed = m.freed ++ l ++ [FreeCall.node a]) ∧
    (n.c0 = 0 → m'.heap a = some { n with ref := 0 }) := by
  cases fuel with
  | zero =>
    rw [dec] at h
    cases h
  | succ fuel =>
    obtain ⟨r, hr, hcase⟩ := dec_inv h hn
    have hr0 : r = 0 := by
      rw [hr, href]
      unfold UINT
      omega
    rcases hcase with ⟨hne, _⟩ | ⟨_, m3, hm3, rfl⟩
    · exact absurd hr0 hne
    · rcases hm3 with ⟨hc, rfl⟩ | ⟨hc, m2, n2, h2, _, h3⟩
      · refine ⟨⟨[], ?_⟩, fun _ => ?_⟩
        · show (store m a _).freed ++ _ = _
          rw [store_freed, List.append_nil]
        · show (store m a _).heap a = _
          rw [store_heap_same, hr0]
      · refine ⟨?_, fun hc0 => absurd hc0 hc⟩
        obtain ⟨_, _, _, _, _, _, _, l1, e1⟩ := dec_frame NDEBUG fuel _ m2 _ h2
        obtain ⟨_, _, _, _, _, _, _, l2, e2⟩ := dec_frame NDEBUG fuel m2 m3 _ h3
        refine ⟨l1 ++ l2, ?_⟩
        show m3.freed ++ _ = _
        simp only [e2, e1, store_freed, List.append_assoc]

theorem SameKeys.isSome_keys {h h' : Nat → Option simpaig} (hk : SameKeys h h') (q : Nat) :
    (h' q).isSome = (h q).isSome := by
  have := hk q
  cases h1 : h q <;> cases h2 : h' q <;> rw [h1, h2] at this <;> simp at this ⊢

/-- The last step of a constructor that found the node `a`: in the `NDEBUG` build `inc`
returns `a`, and neither `count_table` nor the set of nodes changes. -/
theorem inc_found {m m2 : simpaigmgr} (hk : Kept m m2) {a : Nat} {n : simpaig}
    (hn : m.heap a = some n) (he : a % 2 = 0) :
    ∃ m3, inc true m2 a = Except.ok (m3, a) ∧ m3.count_table = m.count_table ∧
      ∀ q, (m3.heap q).isSome = (m.heap q).isSome := by
  obtain ⟨k, hk2, _⟩ := hk.heap.keys_of_next.mapped_keys hn
  have hs : STRIP a = a := STRIP_even he
  have hk2' : m2.heap (STRIP a) = some k := by rw [hs]; exact hk2
  refine ⟨_, inc_release hk2', ?_, fun q => ?_⟩
  · rw [store_count_table, hk.count]
  · rw [store_isSome hk2', hk.heap.isSome_next]

/-- C20: the decrement path does not unlink destroyed nodes.  Let `n` be a node other than
the false node, at the address `a` of a well formed manager state, with reference count 1.
In the `NDEBUG` build `simpaig_dec (a)` returns whenever `n` has no children, and then the
count of `n` is 0.  Whenever `simpaig_dec (a)` returns: `n` has been passed to the
deallocator (it is the last entry of the log of releases); the bucket array, `count_table`,
`size_table`, every chain link and every key are unchanged, so the chains that describe the
table before describe it after, with `a` still linked; the lookup of the key of `n` ends at
`a`; and a later `simpaig_var` with the key of `n` (or, if `n` is a conjunction to whose
children no rule applies, a later `simpaig_and` on its children) returns the destroyed node
`a` and allocates nothing. -/
theorem simpaig_dec_keeps_links {m : simpaigmgr} (hinv : Inv m) {a : Nat} {n : simpaig}
    (hn : m.heap a = some n) (ha : a ≠ m.false_aig) (href : n.ref = 1)
    (hs : m.count_table < 2 ^ 31) :
    (n.c0 = 0 → ∀ fuel,
      ∃ m', simpaig_dec true (fuel + 1) m a = Except.ok m' ∧ refCount m' a = 0) ∧
    ∀ fuel m', simpaig_dec true fuel m a = Except.ok m' →
      (∃ l, m'.freed = m.freed ++ l ++ [FreeCall.node a]) ∧
      m'.table = m.table ∧ m'.count_table = m.count_table ∧ m'.size_table = m.size_table ∧
      SameNext m.heap m'.heap ∧ SameKeys m.heap m'.heap ∧
      (∀ B, TableOK m B → TableOK m' B ∧ a ∈ B.flatten) ∧
      (∀ f, m.count_table < f → lookup f m' n.var n.slice n.c0 n.c1 = Except.ok a) ∧
      (n.var ≠ 0 → ∀ f fresh, m.count_table < f →
        ∃ m2, simpaig_var true f m' n.var n.slice fresh = Except.ok (m2, a) ∧
          m2.count_table = m.count_table ∧ ∀ q, (m2.heap q).isSome = (m.heap q).isSome) ∧
      (n.key = (0, 0, n.c0, n.c1) → simplify m.false_aig n.c0 n.c1 = none →
        (∃ k, m.heap (STRIP n.c0) = some k) → (∃ k, m.heap (STRIP n.c1) = some k) →
        ∀ f fresh, m.count_table < f →
          ∃ m2, simpaig_and true f m' n.c0 n.c1 fresh = Except.ok (m2, a) ∧
            m2.count_table = m.count_table ∧
            ∀ q, (m2.heap q).isSome = (m.heap q).isSome) := by
  obtain ⟨hh, B, ht⟩ := hinv
  have haB : a ∈ B.flatten := ht.mem_flatten hn ha
  have hdec : ∀ fuel, simpaig_dec true fuel m a = dec true fuel m a := fun _ => rfl
  refine ⟨fun hc fuel => ?_, fun fuel m' hrun => ?_⟩
  · obtain ⟨m', hm'⟩ := dec_leaf_returns hn hc fuel
    refine ⟨m', (hdec _).trans hm', ?_⟩
    rw [refCount_of_heap ((dec_destroys hm' hn href).2 hc)]
  · rw [hdec] at hrun
    obtain ⟨hsame, htab, hcount, hsize, hfa, _, _, _⟩ := dec_frame true fuel m m' a hrun
    have hk := hsame.keys_of_ref
    have hnx := hsame.next_of_ref
    have ht' : TableOK m' B := ht.transfer_table htab hsize hcount hfa hk hnx
    have hh' : HeapOK m' := hh.transfer_heap hk hfa
    have hs0 : m'.size_table ≠ 0 := by
      have h1 := ht.count
      have h2 := ht.count_le
      have h3 : 0 < B.flatten.length := List.length_pos_of_mem haB
      omega
    obtain ⟨n', hn', hkey'⟩ := hk.mapped_keys hn
    have he : a % 2 = 0 := (hh.aligned a n hn).1
    have hsome : ∀ q, (m'.heap q).isSome = (m.heap q).isSome := hk.isSome_keys
    refine ⟨(dec_destroys hrun hn href).1, htab, hcount, hsize, hnx, hk,
      fun B1 hB1 => ⟨hB1.transfer_table htab hsize hcount hfa hk hnx, hB1.mem_flatten hn ha⟩,
      fun f hf => lookup_hit ht' hh' hs0 haB hn' hkey' f (by omega), ?_, ?_⟩
    · intro hv f fresh hf
      obtain ⟨e0, e1⟩ := hh.leaf a n hn hv
      have hkey : n'.key = (n.var, n.slice, 0, 0) := by
        rw [hkey']
        show (n.var, n.slice, n.c0, n.c1) = _
        rw [e0, e1]
      obtain ⟨m2, _, hkept, hrun2⟩ :=
        simpaig_var_hit true ⟨hh', B, ht'⟩ hn' hkey (by rw [hfa]; exact ha) (by omega)
      obtain ⟨m3, h3, hc3, hs3⟩ := inc_found hkept hn' he
      exact ⟨m3, (hrun2 f fresh (by omega)).trans h3, by omega,
        fun q => (hs3 q).trans (hsome q)⟩
    · intro hkn hsim ⟨k0, hk0⟩ ⟨k1, hk1⟩ f fresh hf
      have hc0 : n.c0 ≠ 0 := by
        intro e
        have := (hh.aligned _ _ hk0).2
        rw [e] at this
        exact this rfl
      have hc1 : n.c1 ≠ 0 := by
        intro e
        have := (hh.aligned _ _ hk1).2
        rw [e] at this
        exact this rfl
      obtain ⟨k0', hk0', _⟩ := hk.mapped_keys hk0
      obtain ⟨k1', hk1', _⟩ := hk.mapped_keys hk1
      have hrule := simpaig_and_simplify true f hh' ⟨k0', hk0'⟩ ⟨k1', hk1'⟩ fresh
      rw [hfa, hsim] at hrule
      obtain ⟨m2, r, _, hkept, _, ⟨nr, hnr, hkr⟩, hrun2⟩ :=
        and_table_hit true ⟨hh', B, ht'⟩ hc0 hc1
          ⟨a, n', hn', Or.inr (hkey'.trans hkn)⟩ (by omega)
      have hra : r = a := by
        obtain ⟨v0, v1, v2, v3⟩ := key_eq_tuple (hkey'.trans hkn)
        rcases hkr with hkr | hkr
        · obtain ⟨w0, w1, w2, w3⟩ := key_eq_tuple hkr
          exact hh'.comm r a nr n' hnr hn' (w0.trans v0.symm) (w1.trans v1.symm)
            (w2.trans v3.symm) (w3.trans v2.symm)
        · exact hh'.uniq r a nr n' hnr hn' (hkr.trans (hkey'.trans hkn).symm)
      subst hra
      obtain ⟨m3, h3, hc3, hs3⟩ := inc_found hkept hn' he
      exact ⟨m3, hrule.trans ((hrun2 f fresh (by omega)).trans h3), by omega,
        fun q => (hs3 q).trans (hsome q)⟩

theorem simpaig_dec_keeps_links_witness :
    demo1.heap 1000 = some demoVar ∧ 1000 ≠ demo1.false_aig ∧ demoVar.ref = 1 ∧
    demo1.count_table < 2 ^ 31 ∧
    ((demoVar.c0 = 0 → ∀ fuel,
      ∃ m', simpaig_dec true (fuel + 1) demo1 1000 = Except.ok m' ∧ refCount m' 1000 = 0) ∧
    ∀ fuel m', simpaig_dec true fuel demo1 1000 = Except.ok m' →
      (∃ l, m'.freed = demo1.freed ++ l ++ [FreeCall.node 1000]) ∧
      m'.table = demo1.table ∧ m'.count_table = demo1.count_table ∧
      m'.size_table = demo1.size_table ∧
      SameNext demo1.heap m'.heap ∧ SameKeys demo1.heap m'.heap ∧
      (∀ B, TableOK demo1 B → TableOK m' B ∧ 1000 ∈ B.flatten) ∧
      (∀ f, demo1.count_table < f →
        lookup f m' demoVar.var demoVar.slice demoVar.c0 demoVar.c1 = Except.ok 1000) ∧
      (demoVar.var ≠ 0 → ∀ f fresh, demo1.count_table < f →
        ∃ m2, simpaig_var true f m' demoVar.var demoVar.slice fresh = Except.ok (m2, 1000) ∧
          m2.count_table = demo1.count_table ∧
          ∀ q, (m2.heap q).isSome = (demo1.heap q).isSome) ∧
      (demoVar.key = (0, 0, demoVar.c0, demoVar.c1) →
        simplify demo1.false_aig demoVar.c0 demoVar.c1 = none →
        (∃ k, demo1.heap (STRIP demoVar.c0) = some k) →
        (∃ k, demo1.heap (STRIP demoVar.c1) = some k) →
        ∀ f fresh, demo1.count_table < f →
          ∃ m2, simpaig_and true f m' demoVar.c0 demoVar.c1 fresh = Except.ok (m2, 1000) ∧
            m2.count_table = demo1.count_table ∧
            ∀ q, (m2.heap q).isSome = (demo1.heap q).isSome)) :=
  ⟨rfl, by decide, rfl, by decide,
    simpaig_dec_keeps_links demo1_built.built_inv (show demo1.heap 1000 = some demoVar from rfl)
      (by decide) rfl (by decide)⟩

end Simpaig

namespace Bigtocnf

/-! ## The mapping of literals to DIMACS -/

theorem lit_xor_one (l : Nat) : l ^^^ 1 = if l % 2 = 0 then l + 1 else l - 1 := by
  obtain ⟨k, rfl | rfl⟩ : ∃ k, l = 2 * k ∨ l = 2 * k + 1 := ⟨l / 2, by omega⟩
  · have h := Nat.xor_bit false k true 0
    simp [Nat.bit_val] at h
    rw [h]
    simp
  · have h := Nat.xor_bit true k true 0
    simp [Nat.bit_val] at h
    rw [h]
    split <;> omega

theorem lit_and_one (l : Nat) : l &&& 1 = l % 2 := Nat.and_one_is_mod l

theorem lit_shift_one (l : Nat) : l >>> 1 = l / 2 := by
  rw [Nat.shiftRight_eq_div_pow]

theorem u2i_zero {M : Nat} (hM : M + 1 < 2 ^ 31) : u2i M 0 = -((M + 1 : Nat) : Int) := by
  unfold u2i toInt
  rw [if_pos rfl]
  simp only [UINT]
  split <;> omega

theorem u2i_one {M : Nat} (hM : M + 1 < 2 ^ 31) : u2i M 1 = ((M + 1 : Nat) : Int) := by
  unfold u2i toInt
  rw [if_neg (by omega), if_pos rfl]
  simp only [UINT]
  split <;> omega

theorem u2i_even {M l : Nat} (h2 : 2 ≤ l) (hl : l < 2 ^ 32) (he : l % 2 = 0) :
    u2i M l = ((l / 2 : Nat) : Int) := by
  unfold u2i toInt
  rw [if_neg (by omega), if_neg (by omega), lit_and_one, lit_shift_one]
  simp only [UINT, he, ne_eq, not_true_eq_false, if_false, one_mul]
  split <;> omega

theorem u2i_odd {M l : Nat} (h2 : 2 ≤ l) (hl : l < 2 ^ 32) (ho : l % 2 = 1) :
    u2i M l = -((l / 2 : Nat) : Int) := by
  unfold u2i toInt
  rw [if_neg (by omega), if_neg (by omega), lit_and_one, lit_shift_one]
  simp only [UINT, ho, ne_eq, one_ne_zero, not_false_eq_true, if_true]
  split <;> omega

theorem u2i_xor_one {M l : Nat} (hM : M + 1 < 2 ^ 31) (hl : l < 2 ^ 32) :
    u2i M (l ^^^ 1) = -u2i M l := by
  rw [lit_xor_one]
  rcases Nat.lt_or_ge l 2 with h | h
  · obtain rfl | rfl : l = 0 ∨ l = 1 := by omega
    · simp only [Nat.zero_mod, if_true, Nat.zero_add, u2i_zero hM, u2i_one hM, neg_neg]
    · rw [if_neg (by omega), u2i_zero hM, u2i_one hM]
  · rcases Nat.mod_two_eq_zero_or_one l with he | ho
    · rw [if_pos he, u2i_even h hl he, u2i_odd (by omega) (by omega) (by omega)]
      congr 2
      omega
    · rw [if_neg (by omega), u2i_odd h hl ho, u2i_even (by omega) (by omega) (by omega),
        neg_neg]
      congr 1
      omega

/-- C15: the mapping of literals to DIMACS.  For every `M` with `M + 1 < 2 ^ 31` and every
literal `l < 2 ^ 32`: `u2i (0) = -(M + 1)`, `u2i (1) = M + 1`, and for `l ≥ 2` the absolute
value of `u2i (l)` is `l >> 1` and `u2i (l)` is negative exactly when the low bit of `l` is 1;
`u2i (l ^ 1) = -u2i (l)`; and `u2i (l)` is never `0`. -/
theorem u2i_dimacs (M l : Nat) (hM : M + 1 < 2 ^ 31) (hl : l < 2 ^ 32) :
    u2i M 0 = -((M + 1 : Nat) : Int) ∧ u2i M 1 = ((M + 1 : Nat) : Int) ∧
    (2 ≤ l → (u2i M l).natAbs = l >>> 1 ∧ (u2i M l < 0 ↔ l &&& 1 = 1)) ∧
    u2i M (l ^^^ 1) = -u2i M l ∧ u2i M l ≠ 0 := by
  refine ⟨u2i_zero hM, u2i_one hM, ?_, u2i_xor_one hM hl, ?_⟩
  · intro h
    rw [lit_shift_one, lit_and_one]
    rcases Nat.mod_two_eq_zero_or_one l with he | ho
    · rw [u2i_even h hl he]
      omega
    · rw [u2i_odd h hl ho]
      omega
  · rcases Nat.lt_or_ge l 2 with h | h
    · obtain rfl | rfl : l = 0 ∨ l = 1 := by omega
      · rw [u2i_zero hM]; omega
      · rw [u2i_one hM]; omega
    · rcases Nat.mod_two_eq_zero_or_one l with he | ho
      · rw [u2i_even h hl he]; omega
      · rw [u2i_odd h hl ho]; omega

theorem u2i_dimacs_witness :
    u2i 5 0 = -((5 + 1 : Nat) : Int) ∧ u2i 5 1 = ((5 + 1 : Nat) : Int) ∧
    (2 ≤ 7 → (u2i 5 7).natAbs = 7 >>> 1 ∧ (u2i 5 7 < 0 ↔ 7 &&& 1 = 1)) ∧
    u2i 5 (7 ^^^ 1) = -u2i 5 7 ∧ u2i 5 7 ≠ 0 :=
  u2i_dimacs 5 7 (by decide) (by decide)

/-! ## Function `decode` and the variable-length encoding -/

/-- The loop of `decode` reads its bytes with `get`: an iteration is a call of `get`, whose
`die` at the end of the file ends the run, followed by the test of the high bit. -/
theorem decode_loop_get (file : List Nat) (x i : Nat) :
    decode_loop file x i =
      match get file with
      | .error e => .error e
      | .ok (ch, rest) =>
        if 32 ≤ 7 * i then .error .undefined
        else if ch &&& 0x80 ≠ 0 then
          decode_loop rest ((x ||| ((ch &&& 0x7f) <<< (7 * i))) % UINT) (i + 1)
        else .ok ((x ||| (ch <<< (7 * i))) % UINT, rest) := by
  cases file with
  | nil => rfl
  | cons ch rest => rfl

theorem or_mod_two_pow (a b n : Nat) : (a ||| b) % 2 ^ n = a % 2 ^ n ||| b % 2 ^ n := by
  apply Nat.eq_of_testBit_eq
  intro i
  simp only [Nat.testBit_mod_two_pow, Nat.testBit_or, Bool.and_or_distrib_left]

theorem or_mod_UINT (a b c : Nat) : ((a ||| b) % UINT ||| c) % UINT = (a ||| (b ||| c)) % UINT := by
  unfold UINT
  rw [or_mod_two_pow, Nat.mod_mod, ← or_mod_two_pow, Nat.or_assoc]

theorem shiftLeft_or (p q s : Nat) : (p ||| q) <<< s = p <<< s ||| q <<< s := by
  apply Nat.eq_of_testBit_eq
  intro i
  simp only [Nat.testBit_shiftLeft, Nat.testBit_or, Bool.and_or_distrib_left]

theorem split_group (y s : Nat) : (y % 128) <<< s ||| (y / 128) <<< (s + 7) = y <<< s := by
  have h := Nat.mul_add_lt_is_or (show y % 128 < 2 ^ 7 by omega) (y / 128)
  have h2 : y = (y / 128) <<< 7 ||| y % 128 := by
    rw [Nat.shiftLeft_eq, Nat.mul_comm, ← h]
    omega
  conv_rhs => rw [h2]
  rw [shiftLeft_or, ← Nat.shiftLeft_add, Nat.or_comm, Nat.add_comm]

theorem byte_low (b : Nat) : b &&& 0x7f = b % 128 :=
  Nat.and_pow_two_sub_one_eq_mod b 7

theorem byte_high_clear {t : Nat} (h : t < 128) : t &&& 0x80 = 0 := by
  apply Nat.eq_of_testBit_eq
  intro i
  have h7 : (0x80 : Nat) = 2 ^ 7 := rfl
  rw [Nat.testBit_and, h7, Nat.testBit_two_pow, Nat.zero_testBit]
  by_cases hi : 7 = i
  · subst hi
    rw [Nat.testBit_lt_two_pow (by omega)]
    rfl
  · simp [hi]

theorem byte_high_set {b : Nat} (h1 : 128 ≤ b) (h2 : b < 256) : b &&& 0x80 ≠ 0 := by
  intro h0
  have h := congrArg (fun n => Nat.testBit n 7) h0
  have h7 : (0x80 : Nat) = 2 ^ 7 := rfl
  simp only [Nat.testBit_and, h7, Nat.testBit_two_pow_self, Bool.and_true,
    Nat.zero_testBit] at h
  rw [Nat.testBit_to_div_mod] at h
  simp only [decide_eq_false_iff_not] at h
  omega

theorem decode_loop_terminal {t : Nat} (ht : t < 128) (rest : List Nat) (x : Nat) {i : Nat}
    (hi : 7 * i < 32) :
    decode_loop (t :: rest) x i = Except.ok ((x ||| (t <<< (7 * i))) % UINT, rest) := by
  rw [decode_loop, if_neg (by omega), Nat.mod_eq_of_lt (by omega : t < 256),
    if_neg (by rw [byte_high_clear ht]; simp)]

theorem decode_loop_continue {b : Nat} (h1 : 128 ≤ b) (h2 : b < 256) (rest : List Nat)
    (x : Nat) {i : Nat} (hi : 7 * i < 32) :
    decode_loop (b :: rest) x i =
      decode_loop rest ((x ||| ((b % 128) <<< (7 * i))) % UINT) (i + 1) := by
  rw [decode_loop, if_neg (by omega), Nat.mod_eq_of_lt h2, if_pos (byte_high_set h1 h2),
    byte_low]

theorem decode_loop_groups (t : Nat) (ht : t < 128) (rest : List Nat) :
    ∀ (bs : List Nat) (x i : Nat), (∀ b ∈ bs, 128 ≤ b ∧ b < 256) → i + bs.length ≤ 4 →
      decode_loop (bs ++ t :: rest) x i = Except.ok ((x ||| groups i bs t) % UINT, rest)
  | [], x, i, _, hi => by
    simp only [List.length_nil, Nat.add_zero] at hi
    exact decode_loop_terminal ht rest x (by omega)
  | b :: bs, x, i, hb, hi => by
    simp only [List.length_cons] at hi
    obtain ⟨h1, h2⟩ := hb b (List.mem_cons_self _ _)
    rw [List.cons_append, decode_loop_continue h1 h2 _ _ (by omega),
      decode_loop_groups t ht rest bs _ (i + 1) (fun c hc => hb c (List.mem_cons_of_mem _ hc))
        (by omega),
      or_mod_UINT, groups, byte_low]

theorem decode_loop_encode (rest : List Nat) :
    ∀ (y x i : Nat), i ≤ 4 → y < 2 ^ (32 - 7 * i) →
      decode_loop (encode y ++ rest) x i = Except.ok ((x ||| (y <<< (7 * i))) % UINT, rest) := by
  intro y
  induction y using Nat.strong_induction_on with
  | _ y ih =>
    intro x i hi hy
    rw [encode]
    by_cases hlt : y < 128
    · rw [if_pos hlt]
      exact decode_loop_terminal hlt rest x (by omega)
    · rw [if_neg hlt, List.cons_append, decode_loop_continue (by omega) (by omega) _ _ (by omega)]
      have hi3 : i ≤ 3 := by
        by_contra hc
        obtain rfl : i = 4 := by omega
        norm_num at hy
        omega
      have hy2 : y / 128 < 2 ^ (32 - 7 * (i + 1)) := by
        have e : 2 ^ (32 - 7 * i) = 2 ^ (32 - 7 * (i + 1)) * 128 := by
          rw [show 32 - 7 * i = (32 - 7 * (i + 1)) + 7 by omega, Nat.pow_add]
        rw [e] at hy
        exact Nat.div_lt_of_lt_mul (by rw [Nat.mul_comm]; exact hy)
      rw [ih (y / 128) (by omega) _ (i + 1) (by omega) hy2, or_mod_UINT,
        show (y % 128 + 128) % 128 = y % 128 by omega,
        show 7 * (i + 1) = 7 * i + 7 by omega, split_group]

/-- C14: `decode` inverts the 7-bit little-endian variable-length encoding.  For every
`x < 2 ^ 32`, followed by any bytes `rest`, `decode` reads exactly the bytes of `encode x` and
returns `x`.  In general, for continuation bytes `bs` (each in `128 .. 255`, at most 4 of
them) and a terminal byte `t < 128` whose value `groups 0 bs t`, the bitwise or of the shifted
groups, is below `2 ^ 32`, `decode` returns that value.  The deltas `1` and `3` decode to `1`
and `3`, and from `lhs = 8` they give the operand literals `7` and `4`. -/
theorem decode_inverts_encoding (x : Nat) (hx : x < 2 ^ 32) (rest : List Nat) :
    decode (encode x ++ rest) = Except.ok (x, rest) ∧
    (∀ (bs : List Nat) (t : Nat), (∀ b ∈ bs, 128 ≤ b ∧ b < 256) → t < 128 → bs.length ≤ 4 →
      groups 0 bs t < 2 ^ 32 →
      decode (bs ++ t :: rest) = Except.ok (groups 0 bs t, rest)) ∧
    decode [1] = Except.ok (1, []) ∧ decode [3] = Except.ok (3, []) ∧
    operands 8 [1, 3] = Except.ok (7, 4, []) := by
  refine ⟨?_, ?_, rfl, rfl, rfl⟩
  · unfold decode
    rw [decode_loop_encode rest x 0 0 (by omega) (by simpa using hx)]
    simp only [Nat.mul_zero, Nat.shiftLeft_zero, Nat.zero_or]
    rw [Nat.mod_eq_of_lt (by simpa [UINT] using hx)]
  · intro bs t hb ht hk hv
    unfold decode
    rw [decode_loop_groups t ht rest bs 0 0 hb (by omega), Nat.zero_or,
      Nat.mod_eq_of_lt (by simpa [UINT] using hv)]

theorem decode_inverts_encoding_witness :
    300 < 2 ^ 32 ∧
    (decode (encode 300 ++ [9]) = Except.ok (300, [9]) ∧
    (∀ (bs : List Nat) (t : Nat), (∀ b ∈ bs, 128 ≤ b ∧ b < 256) → t < 128 → bs.length ≤ 4 →
      groups 0 bs t < 2 ^ 32 →
      decode (bs ++ t :: [9]) = Except.ok (groups 0 bs t, [9])) ∧
    decode [1] = Except.ok (1, []) ∧ decode [3] = Except.ok (3, []) ∧
    operands 8 [1, 3] = Except.ok (7, 4, [])) :=
  ⟨by decide, decode_inverts_encoding 300 (by decide) [9]⟩

theorem decode_loop_error :
    ∀ (file : List Nat) (x i : Nat) (e : Stop), decode_loop file x i = Except.error e →
      e = Stop.die Message.end_of_file ∨ e = Stop.undefined
  | [], x, i, e, h => by
    rw [decode_loop] at h
    cases h
    exact Or.inl rfl
  | ch :: rest, x, i, e, h => by
    rw [decode_loop] at h
    split at h
    · cases h
      exact Or.inr rfl
    · split at h
      · exact decode_loop_error rest _ _ e h
      · cases h

theorem decode_lt (file : List Nat) :
    ∀ (x i : Nat) (d : Nat) (r : List Nat), decode_loop file x i = Except.ok (d, r) →
      d < UINT := by
  induction file with
  | nil =>
    intro x i d r h
    rw [decode_loop] at h
    cases h
  | cons ch rest ih =>
    intro x i d r h
    rw [decode_loop] at h
    split at h
    · cases h
    · split at h
      · exact ih _ _ d r h
      · cases h
        exact Nat.mod_lt _ (by unfold UINT; omega)

/-! ## The deltas of a gate -/

theorem decode_error {file : List Nat} {e : Stop} (h : decode file = Except.error e) :
    e = Stop.die Message.end_of_file ∨ e = Stop.undefined :=
  decode_loop_error file 0 0 e h

theorem operands_of_first_error {lhs : Nat} {file : List Nat} {e : Stop}
    (h : decode file = Except.error e) : operands lhs file = Except.error e := by
  unfold operands
  rw [h]

theorem operands_of_first_large {lhs : Nat} {file f1 : List Nat} {d0 : Nat}
    (h : decode file = Except.ok (d0, f1)) (hd : lhs ≤ d0) :
    operands lhs file = Except.error (Stop.die Message.byte_encoding) := by
  unfold operands
  rw [h]
  simp only [ge_iff_le, hd, if_true]

theorem operands_of_second_error {lhs : Nat} {file f1 : List Nat} {d0 : Nat} {e : Stop}
    (h : decode file = Except.ok (d0, f1)) (hd : d0 < lhs) (h1 : decode f1 = Except.error e) :
    operands lhs file = Except.error e := by
  unfold operands
  rw [h]
  simp only [ge_iff_le, Nat.not_le.2 hd, if_false, h1]

theorem sub_no_wrap {a b : Nat} (ha : a < 2 ^ 32) (hb : b ≤ a) : (a + UINT - b) % UINT = a - b := by
  unfold UINT
  omega

theorem operands_of_second_large {lhs : Nat} (hl : lhs < 2 ^ 32) {file f1 f2 : List Nat}
    {d0 d1 : Nat} (h : decode file = Except.ok (d0, f1)) (hd : d0 < lhs)
    (h1 : decode f1 = Except.ok (d1, f2)) (hd1 : lhs - d0 < d1) :
    operands lhs file = Except.error (Stop.die Message.byte_encoding) := by
  unfold operands
  rw [h]
  simp only [ge_iff_le, Nat.not_le.2 hd, if_false, h1, sub_no_wrap hl (Nat.le_of_lt hd),
    gt_iff_lt, hd1, if_true]

theorem operands_of_in_range {lhs : Nat} (hl : lhs < 2 ^ 32) {file f1 f2 : List Nat}
    {d0 d1 : Nat} (h : decode file = Except.ok (d0, f1)) (hd : d0 < lhs)
    (h1 : decode f1 = Except.ok (d1, f2)) (hd1 : d1 ≤ lhs - d0) :
    operands lhs file = Except.ok (lhs - d0, lhs - d0 - d1, f2) := by
  unfold operands
  rw [h]
  simp only [ge_iff_le, Nat.not_le.2 hd, if_false, h1, sub_no_wrap hl (Nat.le_of_lt hd),
    gt_iff_lt, Nat.not_lt.2 hd1, sub_no_wrap (show lhs - d0 < 2 ^ 32 by omega) hd1]

theorem operands_ok {lhs : Nat} (hl : lhs < 2 ^ 32) {file : List Nat} {rhs0 rhs1 : Nat}
    {f2 : List Nat} (h : operands lhs file = Except.ok (rhs0, rhs1, f2)) :
    ∃ d0 f1 d1, decode file = Except.ok (d0, f1) ∧ decode f1 = Except.ok (d1, f2) ∧
      d0 < lhs ∧ d1 ≤ lhs - d0 ∧ rhs0 + d0 = lhs ∧ rhs1 + d1 = rhs0 := by
  cases h0 : decode file with
  | error e => rw [operands_of_first_error h0] at h; cases h
  | ok r =>
    obtain ⟨d0, f1⟩ := r
    rcases Nat.lt_or_ge d0 lhs with hd | hd
    · cases h1 : decode f1 with
      | error e => rw [operands_of_second_error h0 hd h1] at h; cases h
      | ok r1 =>
        obtain ⟨d1, f2'⟩ := r1
        rcases Nat.lt_or_ge (lhs - d0) d1 with hd1 | hd1
        · rw [operands_of_second_large hl h0 hd h1 hd1] at h; cases h
        · rw [operands_of_in_range hl h0 hd h1 hd1] at h
          cases h
          exact ⟨d0, f1, d1, rfl, h1, hd, hd1, by omega, by omega⟩
    · rw [operands_of_first_large h0 hd] at h; cases h

/-- C17: out-of-range deltas are fatal and nothing else is.  For a gate with the running
output literal `lhs < 2 ^ 32`: the converter dies with "invalid byte encoding" exactly when
the first delta `d0` was decoded and `d0 ≥ lhs`, or both deltas were decoded and
`d1 > lhs - d0`; it dies with "unexpected end of file" exactly when the byte stream ends
inside the first delta or, with `d0 < lhs`, inside the second; and it goes on to emit the gate
with the operands `rhs0`, `rhs1` exactly when both deltas were decoded, `d0 < lhs` and
`d1 ≤ lhs - d0`, and then `rhs0 = lhs - d0` and `rhs1 = rhs0 - d1` hold without wrap-around
(`rhs0 + d0 = lhs`, `rhs1 + d1 = rhs0`), so `rhs1 ≤ rhs0 ≤ lhs` and `rhs0 ≥ 1`. -/
theorem operands_in_range (lhs : Nat) (hl : lhs < 2 ^ 32) (file : List Nat) :
    (operands lhs file = Except.error (Stop.die Message.byte_encoding) ↔
      ∃ d0 f1, decode file = Except.ok (d0, f1) ∧
        (lhs ≤ d0 ∨ ∃ d1 f2, decode f1 = Except.ok (d1, f2) ∧ lhs - d0 < d1)) ∧
    (operands lhs file = Except.error (Stop.die Message.end_of_file) ↔
      decode file = Except.error (Stop.die Message.end_of_file) ∨
      ∃ d0 f1, decode file = Except.ok (d0, f1) ∧ d0 < lhs ∧
        decode f1 = Except.error (Stop.die Message.end_of_file)) ∧
    (∀ rhs0 rhs1 f2, operands lhs file = Except.ok (rhs0, rhs1, f2) ↔
      ∃ d0 f1 d1, decode file = Except.ok (d0, f1) ∧ decode f1 = Except.ok (d1, f2) ∧
        d0 < lhs ∧ d1 ≤ lhs - d0 ∧ rhs0 + d0 = lhs ∧ rhs1 + d1 = rhs0) ∧
    (∀ rhs0 rhs1 f2, operands lhs file = Except.ok (rhs0, rhs1, f2) →
      rhs1 ≤ rhs0 ∧ rhs0 ≤ lhs ∧ 1 ≤ rhs0) := by
  have key : ∀ rhs0 rhs1 f2, operands lhs file = Except.ok (rhs0, rhs1, f2) →
      ∃ d0 f1 d1, decode file = Except.ok (d0, f1) ∧ decode f1 = Except.ok (d1, f2) ∧
        d0 < lhs ∧ d1 ≤ lhs - d0 ∧ rhs0 + d0 = lhs ∧ rhs1 + d1 = rhs0 :=
    fun _ _ _ h => operands_ok hl h
  refine ⟨⟨?_, ?_⟩, ⟨?_, ?_⟩, fun rhs0 rhs1 f2 => ⟨key rhs0 rhs1 f2, ?_⟩, ?_⟩
  · intro h
    cases h0 : decode file with
    | error e =>
      rw [operands_of_first_error h0] at h
      cases h
      rcases decode_error h0 with h' | h' <;> cases h'
    | ok r =>
      obtain ⟨d0, f1⟩ := r
      refine ⟨d0, f1, rfl, ?_⟩
      rcases Nat.lt_or_ge d0 lhs with hd | hd
      · right
        cases h1 : decode f1 with
        | error e =>
          rw [operands_of_second_error h0 hd h1] at h
          cases h
          rcases decode_error h1 with h' | h' <;> cases h'
        | ok r1 =>
          obtain ⟨d1, f2⟩ := r1
          refine ⟨d1, f2, rfl, ?_⟩
          by_contra hc
          rw [operands_of_in_range hl h0 hd h1 (by omega)] at h
          cases h
      · exact Or.inl hd
  · rintro ⟨d0, f1, h0, hd | ⟨d1, f2, h1, hd1⟩⟩
    · exact operands_of_first_large h0 hd
    · rcases Nat.lt_or_ge d0 lhs with hd | hd
      · exact operands_of_second_large hl h0 hd h1 hd1
      · exact operands_of_first_large h0 hd
  · intro h
    cases h0 : decode file with
    | error e =>
      rw [operands_of_first_error h0] at h
      cases h
      exact Or.inl rfl
    | ok r =>
      obtain ⟨d0, f1⟩ := r
      right
      rcases Nat.lt_or_ge d0 lhs with hd | hd
      · cases h1 : decode f1 with
        | error e =>
          rw [operands_of_second_error h0 hd h1] at h
          cases h
          exact ⟨d0, f1, rfl, hd, h1⟩
        | ok r1 =>
          obtain ⟨d1, f2⟩ := r1
          rcases Nat.lt_or_ge (lhs - d0) d1 with hd1 | hd1
          · rw [operands_of_second_large hl h0 hd h1 hd1] at h; cases h
          · rw [operands_of_in_range hl h0 hd h1 hd1] at h; cases h
      · rw [operands_of_first_large h0 hd] at h; cases h
  · rintro (h0 | ⟨d0, f1, h0, hd, h1⟩)
    · exact operands_of_first_error h0
    · exact operands_of_second_error h0 hd h1
  · rintro ⟨d0, f1, d1, h0, h1, hd, hd1, e0, e1⟩
    rw [operands_of_in_range hl h0 hd h1 hd1]
    obtain rfl : rhs0 = lhs - d0 := by omega
    obtain rfl : rhs1 = lhs - d0 - d1 := by omega
    rfl
  · intro rhs0 rhs1 f2 h
    obtain ⟨d0, f1, d1, _, _, hd, hd1, e0, e1⟩ := key rhs0 rhs1 f2 h
    omega

theorem operands_in_range_witness :
    8 < 2 ^ 32 ∧
    ((operands 8 [1, 3] = Except.error (Stop.die Message.byte_encoding) ↔
      ∃ d0 f1, decode [1, 3] = Except.ok (d0, f1) ∧
        (8 ≤ d0 ∨ ∃ d1 f2, decode f1 = Except.ok (d1, f2) ∧ 8 - d0 < d1)) ∧
    (operands 8 [1, 3] = Except.error (Stop.die Message.end_of_file) ↔
      decode [1, 3] = Except.error (Stop.die Message.end_of_file) ∨
      ∃ d0 f1, decode [1, 3] = Except.ok (d0, f1) ∧ d0 < 8 ∧
        decode f1 = Except.error (Stop.die Message.end_of_file)) ∧
    (∀ rhs0 rhs1 f2, operands 8 [1, 3] = Except.ok (rhs0, rhs1, f2) ↔
      ∃ d0 f1 d1, decode [1, 3] = Except.ok (d0, f1) ∧ decode f1 = Except.ok (d1, f2) ∧
        d0 < 8 ∧ d1 ≤ 8 - d0 ∧ rhs0 + d0 = 8 ∧ rhs1 + d1 = rhs0) ∧
    (∀ rhs0 rhs1 f2, operands 8 [1, 3] = Except.ok (rhs0, rhs1, f2) →
      rhs1 ≤ rhs0 ∧ rhs0 ≤ 8 ∧ 1 ≤ rhs0)) :=
  ⟨by decide, operands_in_range 8 (by decide) [1, 3]⟩

/-! ## The clauses of a gate -/

theorem litTrue_u2i {M : Nat} (hM : M + 1 < 2 ^ 31) {σ : Nat → Bool} (hσ : σ (M + 1) = true)
    {l : Nat} (hl : l < 2 ^ 32) : litTrue σ (u2i M l) = value σ l := by
  unfold litTrue value
  rcases Nat.lt_or_ge l 2 with h | h
  · obtain rfl | rfl : l = 0 ∨ l = 1 := by omega
    · rw [u2i_zero hM, if_neg (show ¬ (0 : Int) < -((M + 1 : Nat) : Int) by omega), if_pos rfl,
        Int.natAbs_neg, Int.natAbs_ofNat, hσ]
      rfl
    · rw [u2i_one hM, if_pos (show (0 : Int) < ((M + 1 : Nat) : Int) by omega),
        if_neg (show ¬ (1 = 0) by omega), if_pos rfl, Int.natAbs_ofNat, hσ]
  · rw [if_neg (show ¬ l = 0 by omega), if_neg (show ¬ l = 1 by omega), lit_shift_one,
      lit_and_one]
    rcases Nat.mod_two_eq_zero_or_one l with he | ho
    · rw [u2i_even h hl he, if_pos (show (0 : Int) < ((l / 2 : Nat) : Int) by omega),
        Int.natAbs_ofNat, he]
      simp
    · rw [u2i_odd h hl ho, if_neg (show ¬ (0 : Int) < -((l / 2 : Nat) : Int) by omega),
        Int.natAbs_neg, Int.natAbs_ofNat, ho]
      simp

theorem xor_one_lt {l : Nat} (hl : l < 2 ^ 32) : l ^^^ 1 < 2 ^ 32 := by
  rw [lit_xor_one]
  split <;> omega

theorem value_xor_one (σ : Nat → Bool) (l : Nat) : value σ (l ^^^ 1) = !value σ l := by
  rw [lit_xor_one]
  unfold value
  rcases Nat.lt_or_ge l 2 with h | h
  · obtain rfl | rfl : l = 0 ∨ l = 1 := by omega
    · rfl
    · rfl
  · simp only [lit_shift_one, lit_and_one]
    rcases Nat.mod_two_eq_zero_or_one l with he | ho
    · rw [if_pos he, if_neg (show ¬ l + 1 = 0 by omega), if_neg (show ¬ l + 1 = 1 by omega),
        if_neg (show ¬ l = 0 by omega), if_neg (show ¬ l = 1 by omega),
        show (l + 1) / 2 = l / 2 by omega, show (l + 1) % 2 = 1 by omega, he]
      simp
    · rw [if_neg (show ¬ l % 2 = 0 by omega), if_neg (show ¬ l - 1 = 0 by omega),
        if_neg (show ¬ l - 1 = 1 by omega), if_neg (show ¬ l = 0 by omega),
        if_neg (show ¬ l = 1 by omega), show (l - 1) / 2 = l / 2 by omega,
        show (l - 1) % 2 = 0 by omega, ho]
      simp

theorem tseitin_sound {M : Nat} (hM : M + 1 < 2 ^ 31) {σ : Nat → Bool}
    (hσ : σ (M + 1) = true) {L R0 R1 : Nat} (hL : L < 2 ^ 32) (h0 : R0 < 2 ^ 32)
    (h1 : R1 < 2 ^ 32) :
    (tseitin M (L, R0, R1)).all (clauseTrue σ) = true ↔
      value σ L = (value σ R0 && value σ R1) := by
  simp only [tseitin, clauseTrue, List.all_cons, List.any_cons, List.all_nil, List.any_nil,
    litTrue_u2i hM hσ hL, litTrue_u2i hM hσ h0, litTrue_u2i hM hσ h1,
    litTrue_u2i hM hσ (xor_one_lt hL), litTrue_u2i hM hσ (xor_one_lt h0),
    litTrue_u2i hM hσ (xor_one_lt h1), value_xor_one]
  cases value σ L <;> cases value σ R0 <;> cases value σ R1 <;> simp

/-! ## Function `main` -/

theorem gate_loop_spec (M : Nat) :
    ∀ (A lhs : Nat) (file : List Nat) (out : List (List Int))
      (r : Nat × List Nat × List (List Int)), lhs + 2 * A < 2 ^ 32 →
      gate_loop M false A lhs file out = Except.ok r →
      ∃ gs, Gates lhs file gs r.2.1 ∧ gs.length = A ∧ r.1 = lhs + 2 * A ∧
        r.2.2 = out ++ gs.flatMap (tseitin M)
  | 0, lhs, file, out, r, _, h => by
    rw [gate_loop] at h
    cases h
    exact ⟨[], Gates.done lhs file, rfl, rfl, by simp⟩
  | A + 1, lhs, file, out, r, hb, h => by
    rw [gate_loop] at h
    cases hop : operands lhs file with
    | error e => rw [hop] at h; cases h
    | ok res =>
      obtain ⟨rhs0, rhs1, f2⟩ := res
      rw [hop] at h
      simp only at h
      obtain ⟨d0, f1, d1, h0, h1, hd, hd1, e0, e1⟩ := operands_ok (by omega) hop
      rw [Nat.mod_eq_of_lt (show lhs + 2 < UINT by unfold UINT; omega)] at h
      obtain ⟨gs, hg, hlen, hlhs, hout⟩ := gate_loop_spec M A (lhs + 2) f2 _ r (by omega) h
      obtain rfl : rhs0 = lhs - d0 := by omega
      obtain rfl : rhs1 = lhs - d0 - d1 := by omega
      refine ⟨(lhs, lhs - d0, lhs - d0 - d1) :: gs, Gates.gate h0 hd h1 hd1 hg, by simp [hlen],
        by omega, ?_⟩
      rw [hout]
      simp [c2, c3, tseitin]

theorem length_flatMap_tseitin (M : Nat) (gs : List (Nat × Nat × Nat)) :
    (gs.flatMap (tseitin M)).length = 3 * gs.length := by
  induction gs with
  | nil => rfl
  | cons g gs ih =>
    rw [List.flatMap_cons, List.length_append, ih, List.length_cons]
    simp only [tseitin, List.length_cons, List.length_nil]
    omega

theorem main_run {NDEBUG : Bool} {M I A sat : Nat} {body : List Nat} {out : Output}
    (hrun : main NDEBUG false ⟨some (M, I, 0, 1, A), some sat, body⟩ = Except.ok out) :
    ∃ lhs rest cls, gate_loop M false A ((2 * (I + 0 + 1)) % UINT) body [] =
        Except.ok (lhs, rest, cls) ∧
      (NDEBUG = false → lhs = (2 * (M + 1)) % UINT) ∧
      out = { header := some ((M + 1) % UINT, (A * 3 + 2) % UINT),
              clauses := cls ++ [[u2i M lhs]] ++ [[u2i M sat]] } := by
  unfold main at hrun
  simp only [ne_eq, not_true_eq_false, if_false] at hrun
  cases hg : gate_loop M false A ((2 * (I + 0 + 1)) % UINT) body [] with
  | error e => rw [hg] at hrun; cases hrun
  | ok res =>
    obtain ⟨lhs, rest, cls⟩ := res
    rw [hg] at hrun
    simp only at hrun
    split at hrun
    · cases hrun
    · rename_i hcond
      cases hrun
      refine ⟨lhs, rest, cls, rfl, ?_, ?_⟩
      · intro hN
        subst hN
        simpa using hcond
      · simp [c1]

/-- C16: the emission of the clauses.  For a run of `main` without `--read-only` that
returns, on a header `M I 0 1 A` with `M + 1 < 2 ^ 31`, `I + A + 1 < 2 ^ 31` and
`3 * A + 2 < 2 ^ 32` (and, in the `NDEBUG` build, where the assertion is absent, a header with
`M = I + A`): the header has `M = I + A`; the `p cnf` line holds `M + 1` and `3 * A + 2`; the
clauses are, for each of the `A` gates in order, with the output literal `L` and the decoded
operands `R0`, `R1`, the three clauses `(¬L ∨ R0)`, `(¬L ∨ R1)`, `(L ∨ ¬R0 ∨ ¬R1)` under
`u2i`, followed by the unit clause of the constant-true literal, which is `M + 1`, and the
unit clause of the output literal: `3 * A + 2` clauses.  Under every assignment that makes the
variable `M + 1` true, the three clauses of a gate are all satisfied exactly when
`value (L) = value (R0) ∧ value (R1)`, with literal `0` read as false and literal `1` as
true. -/
theorem main_tseitin (NDEBUG : Bool) (M I A sat : Nat) (body : List Nat) (out : Output)
    (hM : M + 1 < 2 ^ 31) (hI : I + A + 1 < 2 ^ 31) (hA : 3 * A + 2 < 2 ^ 32)
    (hc : NDEBUG = true → M = I + A)
    (hrun : main NDEBUG false ⟨some (M, I, 0, 1, A), some sat, body⟩ = Except.ok out) :
    M = I + A ∧ out.header = some (M + 1, 3 * A + 2) ∧
    (∃ gs rest, Gates (2 * (I + 1)) body gs rest ∧ gs.length = A ∧
      out.clauses = gs.flatMap (tseitin M) ++ [[u2i M 1], [u2i M sat]]) ∧
    out.clauses.length = 3 * A + 2 ∧ u2i M 1 = ((M + 1 : Nat) : Int) ∧
    ∀ σ : Nat → Bool, σ (M + 1) = true → ∀ L R0 R1, L < 2 ^ 32 → R0 < 2 ^ 32 → R1 < 2 ^ 32 →
      ((tseitin M (L, R0, R1)).all (clauseTrue σ) = true ↔
        value σ L = (value σ R0 && value σ R1)) := by
  obtain ⟨lhs, rest, cls, hg, hassert, rfl⟩ := main_run hrun
  have e0 : (2 * (I + 0 + 1)) % UINT = 2 * (I + 1) := by
    unfold UINT
    omega
  rw [e0] at hg
  obtain ⟨gs, hgs, hlen, hlhs, hcls⟩ := gate_loop_spec M A _ body [] _ (by omega) hg
  simp only at hgs hlhs hcls
  have hMIA : M = I + A := by
    cases NDEBUG with
    | true => exact hc rfl
    | false =>
      have := hassert rfl
      rw [hlhs] at this
      unfold UINT at this
      omega
  have hl : lhs = 2 * (M + 1) := by omega
  have hu : u2i M lhs = u2i M 1 := by
    rw [hl, u2i_even (by omega) (by omega) (by omega), u2i_one hM]
    congr 1
    omega
  refine ⟨hMIA, ?_, ⟨gs, rest, hgs, hlen, ?_⟩, ?_, u2i_one hM, ?_⟩
  · show some ((M + 1) % UINT, (A * 3 + 2) % UINT) = some (M + 1, 3 * A + 2)
    rw [Nat.mod_eq_of_lt (by unfold UINT; omega), Nat.mod_eq_of_lt (by unfold UINT; omega),
      Nat.mul_comm]
  · show cls ++ [[u2i M lhs]] ++ [[u2i M sat]] = _
    rw [hcls, hu]
    simp
  · show (cls ++ [[u2i M lhs]] ++ [[u2i M sat]]).length = _
    rw [hcls]
    simp only [List.nil_append, List.length_append, length_flatMap_tseitin, hlen,
      List.length_cons, List.length_nil]
  · intro σ hσ L R0 R1 hL h0 h1
    exact tseitin_sound hM hσ hL h0 h1

theorem main_tseitin_witness :
    4 + 1 < 2 ^ 31 ∧ 3 + 1 + 1 < 2 ^ 31 ∧ 3 * 1 + 2 < 2 ^ 32 ∧
    main false false ⟨some (4, 3, 0, 1, 1), some 8, [1, 3]⟩ =
      Except.ok ⟨some (5, 5), [[-4, -3], [-4, 2], [4, 3, -2], [5], [4]]⟩ ∧
    4 = 3 + 1 ∧
    (⟨some (5, 5), [[-4, -3], [-4, 2], [4, 3, -2], [5], [4]]⟩ : Output).header =
      some (4 + 1, 3 * 1 + 2) :=
  have h := main_tseitin false 4 3 1 8 [1, 3]
    ⟨some (5, 5), [[-4, -3], [-4, 2], [4, 3, -2], [5], [4]]⟩
    (by decide) (by decide) (by decide) (fun h => by cases h) (by rfl)
  ⟨by decide, by decide, by decide, by rfl, h.1, h.2.1⟩

/-- C18: the header `big 5 1 0 1 0` with the output literal `2` passes every check of `main`:
no call of `die` is reached.  The gate loop is not entered and ends with `lhs = 4`, while
`2 * (M + 1) = 12`: with the assertions compiled in the run stops in
`assert (lhs == 2 * (M + 1))`, and in the `NDEBUG` build it prints `p cnf 6 2` and the unit
clauses `2` and `1`, so the clause meant for the constant true names the variable `2`, not
the variable `6` of the header. -/
theorem main_accepts_inconsistent_header :
    main false false ⟨some (5, 1, 0, 1, 0), some 2, []⟩ = Except.error Stop.assertion ∧
    main true false ⟨some (5, 1, 0, 1, 0), some 2, []⟩ =
      Except.ok ⟨some (6, 2), [[2], [1]]⟩ ∧
    u2i 5 1 = 6 :=
  ⟨rfl, rfl, rfl⟩

end Bigtocnf
